import Mathlib

/-!
Verification of arp242/info: the page locator (`infopath`, `find`) and the
text normaliser (`format` with its pattern tables) of `main.go`.

A text is the list of the Unicode code points of a Go string (documents are
taken to be valid UTF-8, so splitting on the one-byte separators `"\x1f"`,
`"\n"` and `":"` and matching the patterns of `main.go` act on code points
the way they act on bytes).

The regular expressions of `main.go` are values of `Re`; `Re.ends` lists, in
the order a backtracking search visits them, the places where a match that
starts at the current position can end.  Its head is the match Go's `regexp`
package reports (leftmost-first semantics).  `Re.search`, `Re.find`,
`Re.matchString` and `Re.replaceAllString` follow the functions of that
package which `main.go` calls.

The file system, the environment variables and the decompressor are the
fields of a `World`; a call of `fatal` with an error is the outcome `exit`.
The definitions come first, then the lemmas on the matcher and on the string
functions, then the theorems on `infopath`, `find` and `format`.
-/

namespace Info

/-- A Go string, as the list of its code points. -/
abbrev Str := List Char

/-! ## Regular expressions (package `regexp`, the constructs `main.go` uses) -/

/-- Abstract syntax of the regular expressions used by `main.go`. -/
inductive Re where
  | eps : Re
  | chr (p : Char → Bool) : Re
  | seq (a b : Re) : Re
  | alt (a b : Re) : Re
  | star (greedy : Bool) (a : Re) : Re
  | bol : Re
  | eol : Re

/-- One pass of a starred body: `fuel` bounds the number of iterations, and an
iteration that consumes nothing is not repeated.  A greedy star tries one more
iteration before it tries to stop, a lazy one stops first. -/
def starEnds (step : Str → List Str) (greedy : Bool) : Nat → Str → List Str
  | 0, s => [s]
  | fuel + 1, s =>
    let more := ((step s).filter (fun r => decide (r.length < s.length))).flatMap
      (starEnds step greedy fuel)
    if greedy then more ++ [s] else s :: more

/-- The suffixes of the text left after a match of the expression that starts
at `s`, in the order of preference of a backtracking search.  `n` is the length
of the whole text, so that `s.length = n` says `s` is at the text start. -/
def Re.ends : Re → Nat → Str → List Str
  | .eps, _, s => [s]
  | .chr p, _, s =>
    match s with
    | [] => []
    | c :: t => if p c then [t] else []
  | .seq a b, n, s => (Re.ends a n s).flatMap (fun r => Re.ends b n r)
  | .alt a b, n, s => Re.ends a n s ++ Re.ends b n s
  | .star g a, n, s => starEnds (Re.ends a n) g s.length s
  | .bol, n, s => if s.length = n then [s] else []
  | .eol, _, s => if s = [] then [s] else []

/-- The literal text `l`. -/
def Re.lit : Str → Re
  | [] => .eps
  | c :: t => .seq (.chr (fun x => x == c)) (Re.lit t)

/-- Exactly `k` copies of `a` (`a{k}`). -/
def Re.times : Nat → Re → Re
  | 0, _ => .eps
  | k + 1, a => .seq a (Re.times k a)

/-- The greedy `a{k,}`. -/
def Re.atLeast (k : Nat) (a : Re) : Re := .seq (Re.times k a) (.star true a)

/-- The greedy `a+`. -/
def Re.plus (a : Re) : Re := .seq a (.star true a)

/-- The lazy `a+?`. -/
def Re.plusLazy (a : Re) : Re := .seq a (.star false a)

/-- The greedy `a?`. -/
def Re.opt (a : Re) : Re := .alt a .eps

/-- The concatenation of a list of expressions. -/
def Re.cat : List Re → Re
  | [] => .eps
  | [a] => a
  | a :: rest => .seq a (Re.cat rest)

/-- Class `\d`. -/
def isDigit (c : Char) : Bool := decide ('0' ≤ c) && decide (c ≤ '9')

/-- Class `\w`: `[0-9A-Za-z_]`. -/
def isWord (c : Char) : Bool :=
  isDigit c || (decide ('A' ≤ c) && decide (c ≤ 'Z')) ||
    (decide ('a' ≤ c) && decide (c ≤ 'z')) || c == '_'

/-- Class `\s` of `regexp/syntax`: `[\t\n\f\r ]`. -/
def isReSpace (c : Char) : Bool :=
  c == '\t' || c == '\n' || c == '\x0c' || c == '\r' || c == ' '

/-- Class `.` without the `s` flag: any character but the newline. -/
def isDot (c : Char) : Bool := c != '\n'

/-- The leftmost match in `s`: the suffix at which it starts and the suffix at
which it ends.  `n` is the length of the whole text. -/
def Re.search (re : Re) (n : Nat) : Str → Option (Str × Str)
  | [] => (re.ends n []).head?.map (fun e => ([], e))
  | c :: t =>
    match re.ends n (c :: t) with
    | e :: _ => some (c :: t, e)
    | [] => Re.search re n t

/-- `(*Regexp).MatchString`. -/
def Re.matchString (re : Re) (s : Str) : Bool := (re.search s.length s).isSome

/-- `(*Regexp).Find`: the text of the leftmost match, `none` for Go's `nil`. -/
def Re.find (re : Re) (s : Str) : Option Str :=
  (re.search s.length s).map (fun p => p.1.take (p.1.length - p.2.length))

/-- The loop of `(*Regexp).replaceAll`.  `last` is the text from the end of
the previous match on, `cur` the text from the search position on (`none` when
the search position is past the end). -/
def Re.replaceLoop (re : Re) (repl : Str) (n : Nat) : Nat → Str → Option Str → Str
  | 0, last, _ => last
  | _ + 1, last, none => last
  | fuel + 1, last, some cur =>
    match re.search n cur with
    | none => last
    | some (ms, me) =>
      let before := last.take (last.length - ms.length)
      let ins := if me.length < last.length ∨ ms.length = n then repl else []
      let next :=
        if me.length < cur.length then some me
        else match cur with
          | [] => none
          | _ :: t => some t
      before ++ ins ++ Re.replaceLoop re repl n fuel me next

/-- `(*Regexp).ReplaceAllString` for a replacement text without `$`. -/
def Re.replaceAllString (re : Re) (src repl : Str) : Str :=
  re.replaceLoop repl src.length (src.length + 2) src (some src)

/-! ## Packages `strings` and `bytes` -/

/-- `unicode.IsSpace`. -/
def isSpace (c : Char) : Bool :=
  c == '\t' || c == '\n' || c == '\x0b' || c == '\x0c' || c == '\r' || c == ' ' ||
  c == '\u0085' || c == '\u00a0' || c == '\u1680' ||
  (decide ('\u2000' ≤ c) && decide (c ≤ '\u200a')) ||
  c == '\u2028' || c == '\u2029' || c == '\u202f' || c == '\u205f' || c == '\u3000'

/-- `strings.TrimSpace`. -/
def trimSpace (s : Str) : Str := ((s.dropWhile isSpace).reverse.dropWhile isSpace).reverse

/-- `strings.Contains`. -/
def contains (sub : Str) : Str → Bool
  | [] => sub.isEmpty
  | c :: t => sub.isPrefixOf (c :: t) || contains sub t

/-- The loop of `genSplit` for a non-empty separator; `skip` counts the
characters of a separator just found that are still to be passed over. -/
def splitLoop (sep : Str) : Nat → Str → List Str
  | _, [] => [[]]
  | skip + 1, _ :: t => splitLoop sep skip t
  | 0, c :: t =>
    if sep.isPrefixOf (c :: t) then [] :: splitLoop sep (sep.length - 1) t
    else
      match splitLoop sep 0 t with
      | [] => [[c]]
      | piece :: rest => (c :: piece) :: rest

/-- `strings.Split(s, sep)` and `bytes.Split(s, sep)`. -/
def split (s sep : Str) : List Str :=
  if sep = [] then s.map (fun c => [c]) else splitLoop sep 0 s

/-- `strings.Join`. -/
def join : List Str → Str → Str
  | [], _ => []
  | [a], _ => a
  | a :: b :: rest, sep => a ++ sep ++ join (b :: rest) sep

/-! ## The environment of the program -/

/-- What `os.Open` answers for a path. -/
inductive OpenResult where
  | notExist : OpenResult
  | failed : OpenResult
  | file (content : Str) : OpenResult
  deriving DecidableEq

/-- What package `compress/gzip` makes of the content of a file:
`gzip.NewReader` fails on the header; or the header is read and the reader
fails later, in `ioutil.ReadAll`; or the reader delivers the content. -/
inductive GzipResult where
  | headerError : GzipResult
  | bodyError : GzipResult
  | content (c : Str) : GzipResult
  deriving DecidableEq

/-- The environment: the variables read with `os.Getenv` (an unset variable
reads as the empty text), the files `os.Open` sees, and what package
`compress/gzip` makes of the content of a file.  A file that opens without
compression is read to its end by `ioutil.ReadAll` without error. -/
structure World where
  getenv : Str → Str
  openFile : Str → OpenResult
  gunzip : Str → GzipResult

/-- What a call of `find` ends in: a reader (given by the content it will
deliver), a reader that fails when it is read (`broken`), `nil`, or a call of
`fatal` with an error (the process exits). -/
inductive Found where
  | reader (content : Str) : Found
  | broken : Found
  | nil : Found
  | fatal : Found
  deriving DecidableEq

/-- What a call of `format` ends in.  `exit` is a call of `fatal` with an
error, `unfinished` the end of the fuel of the model: an inclusion chain
deeper than the bound. -/
inductive Outcome where
  | text (page : Str) : Outcome
  | exit : Outcome
  | unfinished : Outcome
  deriving DecidableEq

/-! ## `main.go` -/

/-- The loop of `infopath` over the parts of the split. -/
def infopathLoop : List Str → List Str → List Str
  | [], dirs => dirs
  | p :: rest, dirs => if p ≠ [] then infopathLoop rest (dirs ++ [p]) else infopathLoop rest dirs

/-- Function `infopath`.  The call in the source is
`strings.Split(":", os.Getenv("INFOPATH"))`: the text split is `":"`, the
separator is the value of the variable. -/
def infopath (w : World) : List Str :=
  let dirs :=
    if w.getenv "INFOPATH".toList ≠ [] then
      infopathLoop (split ":".toList (w.getenv "INFOPATH".toList)) []
    else []
  if dirs.length > 0 then dirs else ["/usr/share/info/".toList]

/-- The body of the loop of `find` for one directory, `path` being
`fmt.Sprintf("%s/%s%s", d, page, addext)`; `none` stands for `continue`. -/
def findIn (w : World) (path : Str) : Option Found :=
  match w.openFile path with
  | .file c => some (.reader c)
  | .failed => some .fatal
  | .notExist =>
    match w.openFile (path ++ ".gz".toList) with
    | .notExist => none
    | .failed => some .fatal
    | .file z =>
      match w.gunzip z with
      | .content c => some (.reader c)
      | .bodyError => some .broken
      | .headerError => some .fatal

/-- The loop of `find` over the directories. -/
def findLoop (w : World) (page addext : Str) : List Str → Found
  | [] => .nil
  | d :: rest =>
    match findIn w (d ++ "/".toList ++ page ++ addext) with
    | some r => r
    | none => findLoop w page addext rest

/-- Function `find`. -/
def find (w : World) (page : Str) : Found :=
  let addext := if ¬ contains ".info".toList page then ".info".toList else []
  findLoop w page addext (infopath w)

/-- Class `[\w\-]`. -/
def isWordOrDash (c : Char) : Bool := isWord c || c == '-'

/-- Class `[\d.]`. -/
def isDigitOrDot (c : Char) : Bool := isDigit c || c == '.'

/-- Pattern `sub[0]`: `(^|\n)File: [\w\-]+.info,  Node: .+($|\n)`. -/
def reNav : Re :=
  .cat [.alt .bol (.lit "\n".toList), .lit "File: ".toList, .plus (.chr isWordOrDash),
    .chr isDot, .lit "info,  Node: ".toList, .plus (.chr isDot), .alt .eol (.lit "\n".toList)]

/-- Pattern `sub[1]`: `\n\* Menu:\n\n(\* .+?::( .+?)?\n){1,}`. -/
def reMenu : Re :=
  .cat [.lit "\n* Menu:\n\n".toList,
    .atLeast 1 (.cat [.lit "* ".toList, .plusLazy (.chr isDot), .lit "::".toList,
      .opt (.cat [.lit " ".toList, .plusLazy (.chr isDot)]), .lit "\n".toList])]

/-- Pattern `sub[2]`: `\n{3,}`. -/
def reNewlines : Re := .atLeast 3 (.lit "\n".toList)

/-- The table `sub`. -/
def sub : List Re := [reNav, reMenu, reNewlines]

/-- The table `repl`. -/
def repl : List Str := ["".toList, "".toList, "\n\n".toList]

/-- Pattern `(.+?: \d+\n)`, one line of an indirect block. -/
def reIndirectLine : Re :=
  .cat [.plusLazy (.chr isDot), .lit ": ".toList, .plus (.chr isDigit), .lit "\n".toList]

/-- Pattern `nuke[0]`: `^\s*\d+ Copying\n\*{9,}\n\n`. -/
def reCopying : Re :=
  .cat [.bol, .star true (.chr isReSpace), .plus (.chr isDigit), .lit " Copying\n".toList,
    .atLeast 9 (.lit "*".toList), .lit "\n\n".toList]

/-- Pattern `nuke[1]`: `^\s*[\d.]+ GNU Free Documentation License\n={32,}\n\n`. -/
def reFdl : Re :=
  .cat [.bol, .star true (.chr isReSpace), .plus (.chr isDigitOrDot),
    .lit " GNU Free Documentation License\n".toList, .atLeast 32 (.lit "=".toList),
    .lit "\n\n".toList]

/-- Pattern `nuke[2]`:
`Appendix \w Free Software Needs Free Documentation\n\*{49,}\n\n`. -/
def reFreeDoc : Re :=
  .cat [.lit "Appendix ".toList, .chr isWord,
    .lit " Free Software Needs Free Documentation\n".toList, .atLeast 49 (.lit "*".toList),
    .lit "\n\n".toList]

/-- Pattern `nuke[3]`: `Appendix \w GNU Free Documentation License\n\*{41,}\n\n`. -/
def reFdlAppendix : Re :=
  .cat [.lit "Appendix ".toList, .chr isWord, .lit " GNU Free Documentation License\n".toList,
    .atLeast 41 (.lit "*".toList), .lit "\n\n".toList]

/-- Pattern `nuke[4]`: `GNU General Public License\n\*{26}`. -/
def reGpl : Re :=
  .cat [.lit "GNU General Public License\n".toList, .times 26 (.lit "*".toList)]

/-- Pattern `nuke[5]`:
`Permission is granted to copy, distribute and/or modify this`. -/
def rePermission : Re :=
  .lit "Permission is granted to copy, distribute and/or modify this".toList

/-- Pattern `nuke[6]`: `\x00\x08\[index\x00\x08]\n`. -/
def reIndex : Re := .lit "\x00\x08[index\x00\x08]\n".toList

/-- Pattern `nuke[7]`: `^\s*Tag Table:\n`. -/
def reTagTable : Re := .cat [.bol, .star true (.chr isReSpace), .lit "Tag Table:\n".toList]

/-- Pattern `nuke[8]`: `^\s*End Tag Table\n`. -/
def reEndTagTable : Re :=
  .cat [.bol, .star true (.chr isReSpace), .lit "End Tag Table\n".toList]

/-- Pattern `nuke[9]`: `^\s*Local Variables:\n`. -/
def reLocalVariables : Re :=
  .cat [.bol, .star true (.chr isReSpace), .lit "Local Variables:\n".toList]

/-- Pattern `nuke[10]`: `\nIndirect:\n(.+?: \d+\n)+?`. -/
def reIndirect : Re := .cat [.lit "\nIndirect:\n".toList, .plusLazy reIndirectLine]

/-- The table `nuke`. -/
def nuke : List Re :=
  [reCopying, reFdl, reFreeDoc, reFdlAppendix, reGpl, rePermission, reIndex, reTagTable,
    reEndTagTable, reLocalVariables, reIndirect]

/-- Pattern `reInclude`: `\x1f\nIndirect:\n(.+?: \d+\n)+?\x1f`. -/
def reInclude : Re :=
  .cat [.lit "\x1f\nIndirect:\n".toList, .plusLazy reIndirectLine, .lit "\x1f".toList]

/-- The loop `for j, re := range sub` of `format` on one page. -/
def applySub : List Re → List Str → Str → Str
  | re :: res, r :: rs, page => applySub res rs (re.replaceAllString page r)
  | _, _, page => page

/-- The loop `for _, re := range nuke` of `format` on one page. -/
def applyNuke : List Re → Str → Str
  | [], page => page
  | re :: res, page => applyNuke res (if re.matchString page then [] else page)

/-- The body of the loop `for i := range pages` of `format`. -/
def formatPage (page : Str) : Str := trimSpace (applyNuke nuke (applySub sub repl page))

/-- The loop of `format` over the lines of the indirect block; `fmt` is the
recursive call of `format` on the content the reader delivers, `subpages` the
variable of that name.  On a reader that fails when read, the recursive call
ends in `fatal` at its `ioutil.ReadAll`. -/
def loadSubpages (w : World) (fmt : Str → Outcome) : List Str → Str → Outcome
  | [], subpages => .text subpages
  | f :: rest, subpages =>
    match split f ":".toList with
    | [name, _] =>
      match find w name with
      | .nil => .exit
      | .fatal => .exit
      | .broken => .exit
      | .reader c =>
        match fmt c with
        | .text t => loadSubpages w fmt rest (subpages ++ t ++ "\n\n".toList)
        | o => o
    | _ => loadSubpages w fmt rest subpages

/-- The first part of `format` ("Load subpages"): the variable `subpages`
once the lines of the first indirect block of `d` are gone through. -/
def loadIncluded (w : World) (fmt : Str → Outcome) (d : Str) : Outcome :=
  match reInclude.find d with
  | some m => loadSubpages w fmt ((split m "\n".toList).drop 2) []
  | none => .text []

/-- The second part of `format`: the loop over the pages of `d` and the
returned text. -/
def assemble (d : Str) : Outcome → Outcome
  | .text subpages =>
    .text (trimSpace (join ((split d "\x1f".toList).map formatPage) "\n\n".toList ++ subpages) ++
      "\n".toList)
  | o => o

/-- Function `format`, on the content `d` the reader delivers; `fuel` bounds
the depth of the inclusions followed. -/
def format (w : World) : Nat → Str → Outcome
  | 0, _ => .unfinished
  | fuel + 1, d => assemble d (loadIncluded w (format w fuel) d)

/-! ## Definitions that follow the words of the specification -/

/-- The rule application on one fragment: the substitution rules in their
order, then the deletion rules. -/
def applyRules (f : Str) : Str := applyNuke nuke (applySub sub repl f)

/-- A text without white space at its start and at its end. -/
def Tight (s : Str) : Prop :=
  (∀ c t, s = c :: t → isSpace c = false) ∧ (∀ c t, s = t ++ [c] → isSpace c = false)

instance (s : Str) : Decidable (Tight s) :=
  decidable_of_iff
    ((∀ c ∈ s.head?, isSpace c = false) ∧ (∀ c ∈ s.getLast?, isSpace c = false)) (by
      unfold Tight
      constructor
      · rintro ⟨h1, h2⟩
        refine ⟨fun c t e => h1 c (by rw [e]; rfl), fun c t e => h2 c (by rw [e]; simp)⟩
      · rintro ⟨h1, h2⟩
        refine ⟨fun c hc => ?_, fun c hc => ?_⟩
        · obtain ⟨t, ht⟩ := List.head?_eq_some_iff.mp hc
          exact h1 c t ht
        · obtain ⟨t, ht⟩ := List.getLast?_eq_some_iff.mp hc
          exact h2 c t ht)

/-- The fragments from the first non-empty one to the last non-empty one. -/
def dropEmpty (ps : List Str) : List Str :=
  ((ps.dropWhile List.isEmpty).reverse.dropWhile List.isEmpty).reverse

/-- What the collapsing rule makes of a maximal run of `k` newlines: two
newlines when the run has three or more, the run itself otherwise. -/
def collapseRun (k : Nat) : Str := List.replicate (if 3 ≤ k then 2 else k) '\n'

/-- The text with every maximal run of newlines collapsed; `k` newlines of
the current run have been read. -/
def collapseFrom : Nat → Str → Str
  | k, [] => collapseRun k
  | k, c :: t =>
    if c = '\n' then collapseFrom (k + 1) t else collapseRun k ++ c :: collapseFrom 0 t

/-- The collapsing rule as the specification words it: every maximal run of
three or more newlines becomes exactly two newlines, everything else stays. -/
def collapseSpec (s : Str) : Str := collapseFrom 0 s

/-- The file name `find` looks for: the page name itself when it contains
`.info`, the page name followed by `.info` otherwise. -/
def pageFile (page : Str) : Str :=
  if contains ".info".toList page then page else page ++ ".info".toList

/-- The path of the page file in directory `d`. -/
def pagePath (d page : Str) : Str := d ++ "/".toList ++ pageFile page

/-- Directory `d` has neither the page file nor its `.gz` file. -/
def lacksPage (w : World) (d page : Str) : Prop :=
  w.openFile (pagePath d page) = .notExist ∧
    w.openFile (pagePath d page ++ ".gz".toList) = .notExist

instance (w : World) (d page : Str) : Decidable (lacksPage w d page) := by
  unfold lacksPage
  infer_instance

/-- Function `find` with the search path `dirs` in the place of the result of
`infopath()`. -/
def findOn (w : World) (dirs : List Str) (page : Str) : Found :=
  findLoop w page (if ¬ contains ".info".toList page then ".info".toList else []) dirs

/-- The fragments that are not empty after processing, in their order. -/
def survivors (raw : Str) : List Str :=
  ((split raw "\x1f".toList).map formatPage).filter (fun p => !p.isEmpty)

/-- An entry of an indirect block: the name of a sub-page and its offset. -/
abbrev Entry := Str × Str

/-- The line `<name>: <offset>` of an entry, without its newline. -/
def indirectLine (e : Entry) : Str := e.1 ++ ": ".toList ++ e.2

/-- The lines of the entries, each with its newline. -/
def indirectLines (es : List Entry) : Str :=
  (es.map (fun e => indirectLine e ++ "\n".toList)).flatten

/-- The indirect block `"\x1f\nIndirect:\n<s1>: <n1>\n...<sk>: <nk>\n\x1f"`. -/
def indirectBlock (es : List Entry) : Str :=
  "\x1f\nIndirect:\n".toList ++ indirectLines es ++ "\x1f".toList

/-- An entry as the tools write it: a name that is not empty and has no
newline, colon or 0x1F, and an offset of one or more digits. -/
def Entry.WellFormed (e : Entry) : Prop :=
  e.1 ≠ [] ∧ (∀ c ∈ e.1, c ≠ '\n' ∧ c ≠ ':' ∧ c ≠ '\x1f') ∧
    e.2 ≠ [] ∧ ∀ c ∈ e.2, isDigit c = true

instance (e : Entry) : Decidable e.WellFormed := by
  unfold Entry.WellFormed
  infer_instance

/-- The output the specification describes for a document with an indirect
block: the normalised primary content and the normalised texts of the
sub-pages in their order, each separated from the next by `"\n\n"`, and one
newline at the end. -/
def specIndirect (primary : Str) (subs : List Str) : Str :=
  join ((primary :: subs).map fun d =>
    trimSpace (join ((split d "\x1f".toList).map formatPage) "\n\n".toList)) "\n\n".toList ++
    "\n".toList

/-- The text `format` makes of a page without an indirect block. -/
def normalized (d : Str) : Str :=
  trimSpace (join ((split d "\x1f".toList).map formatPage) "\n\n".toList) ++ "\n".toList

/-- A line of an indirect block as the pattern `.+?: \d+` reads it: a text
without newline that ends in `": "` and one or more digits, with at least one
character before the colon. -/
def IsEntryLine (l : Str) : Prop :=
  ∃ x ds, x ≠ [] ∧ '\n' ∉ x ∧ ds ≠ [] ∧ (∀ c ∈ ds, isDigit c = true) ∧
    l = x ++ ": ".toList ++ ds

/-- The lines `ls`, each followed by a newline. -/
def linesText (ls : List Str) : Str := (ls.map fun l => l ++ "\n".toList).flatten

/-- The indirect block with the lines `ls`:
`"\x1f\nIndirect:\n"`, the lines with their newlines, `"\x1f"`. -/
def blockOf (ls : List Str) : Str :=
  "\x1f\nIndirect:\n".toList ++ linesText ls ++ "\x1f".toList

/-- The lines of an indirect block: one or more, each an entry line. -/
def IsBlock (ls : List Str) : Prop := ls ≠ [] ∧ ∀ l ∈ ls, IsEntryLine l

/-- The document has an indirect block somewhere. -/
def HasBlock (d : Str) : Prop :=
  ∃ ls pre post, IsBlock ls ∧ d = pre ++ blockOf ls ++ post

/-- The lines `ls` make the first indirect block of `d`: no indirect block
starts before it, and none with fewer lines starts where it starts. -/
def FirstBlock (d : Str) (ls : List Str) : Prop :=
  IsBlock ls ∧ ∃ pre post, d = pre ++ blockOf ls ++ post ∧
    ∀ ls2 pre2 post2, IsBlock ls2 → d = pre2 ++ blockOf ls2 ++ post2 →
      pre.length ≤ pre2.length ∧ (pre2.length = pre.length → ls.length ≤ ls2.length)

/-- The line `l` splits at `:` into exactly the two parts `name` and `rest`:
it has one colon, between them. -/
def TwoParts (l name rest : Str) : Prop :=
  l = name ++ ':' :: rest ∧ ':' ∉ name ∧ ':' ∉ rest

instance (l name rest : Str) : Decidable (TwoParts l name rest) := by
  unfold TwoParts
  infer_instance

/-! ## Environments for the examples -/

/-- An environment without variables and without files. -/
def emptyWorld : World :=
  { getenv := fun _ => [], openFile := fun _ => .notExist, gunzip := fun _ => .headerError }

/-- An environment in which `INFOPATH` is set to `v`, without files. -/
def infopathWorld (v : Str) : World :=
  { getenv := fun name => if name = "INFOPATH".toList then v else [],
    openFile := fun _ => .notExist, gunzip := fun _ => .headerError }

/-- An environment whose default directory holds `tar.info.gz` and nothing
else; the content of the file stands for the compressed form of `tar manual`. -/
def tarWorld : World :=
  { getenv := fun _ => [],
    openFile := fun p =>
      if p = "/usr/share/info//tar.info.gz".toList then .file "gz(tar manual)".toList
      else .notExist,
    gunzip := fun z =>
      if z = "gz(tar manual)".toList then .content "tar manual".toList else .headerError }

/-- An environment whose default directory holds the sub-pages `foo.info-1`
with the content `aaa` and `foo.info-2` with the content `bbb`. -/
def fooWorld : World :=
  { getenv := fun _ => [],
    openFile := fun p =>
      if p = "/usr/share/info//foo.info-1".toList then .file "aaa".toList
      else if p = "/usr/share/info//foo.info-2".toList then .file "bbb".toList
      else .notExist,
    gunzip := fun _ => .headerError }

/-- An environment with three directories for the search path `/x`, `/y`,
`/z`: `/x` is empty, `/y` holds `tar.info.gz`, and `/z` holds `tar.info`,
`make.info` and `make.info.gz`. -/
def dirsWorld : World :=
  { getenv := fun _ => [],
    openFile := fun p =>
      if p = "/y/tar.info.gz".toList then .file "gz(tar manual)".toList
      else if p = "/z/tar.info".toList then .file "another tar manual".toList
      else if p = "/z/make.info".toList then .file "make manual".toList
      else if p = "/z/make.info.gz".toList then .file "gz(old make manual)".toList
      else .notExist,
    gunzip := fun z =>
      if z = "gz(tar manual)".toList then .content "tar manual".toList
      else if z = "gz(old make manual)".toList then .content "old make manual".toList
      else .headerError }

/-- An environment in which the sub-page `foo.info-1` of the default
directory cannot be opened (an I/O error other than "no such file"). -/
def failWorld : World :=
  { getenv := fun _ => [],
    openFile := fun p =>
      if p = "/usr/share/info//foo.info-1".toList then .failed else .notExist,
    gunzip := fun _ => .headerError }

/-! ## The matcher: general facts -/

theorem flatMap_congr_mem {α β : Type} {l : List α} {f g : α → List β}
    (h : ∀ a ∈ l, f a = g a) : l.flatMap f = l.flatMap g := by
  induction l with
  | nil => rfl
  | cons a t ih =>
    simp only [List.flatMap_cons]
    rw [h a (List.mem_cons_self a t), ih (fun b hb => h b (List.mem_cons_of_mem a hb))]

theorem starEnds_succ (step : Str → List Str) (g : Bool) :
    ∀ (fuel : Nat) (s : Str), s.length ≤ fuel →
      starEnds step g (fuel + 1) s = starEnds step g fuel s := by
  intro fuel
  induction fuel with
  | zero =>
    intro s hs
    have hnil : s = [] := List.length_eq_zero.mp (Nat.le_zero.mp hs)
    subst hnil
    cases g <;> simp [starEnds]
  | succ k ih =>
    intro s _
    have hcongr : ((step s).filter (fun r => decide (r.length < s.length))).flatMap
          (starEnds step g (k + 1)) =
        ((step s).filter (fun r => decide (r.length < s.length))).flatMap
          (starEnds step g k) := by
      apply flatMap_congr_mem
      intro r hr
      have hlt : r.length < s.length := by
        have := (List.mem_filter.mp hr).2
        simpa using this
      exact ih r (by omega)
    conv_lhs => unfold starEnds
    conv_rhs => unfold starEnds
    simp only [hcongr]

theorem starEnds_fuel (step : Str → List Str) (g : Bool) (s : Str) :
    ∀ (extra : Nat), starEnds step g (s.length + extra) s = starEnds step g s.length s := by
  intro extra
  induction extra with
  | zero => rfl
  | succ k ih =>
    rw [← ih]
    exact starEnds_succ step g (s.length + k) s (by omega)

/-- The unfolding of a star: one more iteration (of a match that consumes
something), or a stop. -/
theorem ends_star (g : Bool) (a : Re) (n : Nat) (s : Str) :
    (Re.star g a).ends n s =
      (if g then
        ((a.ends n s).filter (fun r => decide (r.length < s.length))).flatMap
          ((Re.star g a).ends n) ++ [s]
      else
        s :: ((a.ends n s).filter (fun r => decide (r.length < s.length))).flatMap
          ((Re.star g a).ends n)) := by
  have hcongr : ∀ k, s.length = k + 1 →
      ((a.ends n s).filter (fun r => decide (r.length < s.length))).flatMap
          (starEnds (a.ends n) g k) =
      ((a.ends n s).filter (fun r => decide (r.length < s.length))).flatMap
          ((Re.star g a).ends n) := by
    intro k hk
    apply flatMap_congr_mem
    intro r hr
    have hlt : r.length < s.length := by
      have := (List.mem_filter.mp hr).2
      simpa using this
    obtain ⟨e, he⟩ : ∃ e, k = r.length + e := ⟨k - r.length, by omega⟩
    show starEnds (a.ends n) g k r = starEnds (a.ends n) g r.length r
    rw [he]
    exact starEnds_fuel (a.ends n) g r e
  cases hs : s.length with
  | zero =>
    have hnil : s = [] := List.length_eq_zero.mp hs
    subst hnil
    cases g <;> simp [Re.ends, starEnds]
  | succ k =>
    show starEnds (a.ends n) g s.length s = _
    rw [hs]
    conv_lhs => unfold starEnds
    simp only [hs] at hcongr
    have := hcongr k rfl
    simp only [hs, this]

theorem starEnds_suffix (step : Str → List Str) (g : Bool)
    (hstep : ∀ s r, r ∈ step s → r <:+ s) :
    ∀ (fuel : Nat) (s r : Str), r ∈ starEnds step g fuel s → r <:+ s := by
  intro fuel
  induction fuel with
  | zero =>
    intro s r hr
    simp [starEnds] at hr
    subst hr
    exact List.suffix_refl _
  | succ k ih =>
    intro s r hr
    have hmore : ∀ r, r ∈ ((step s).filter (fun r => decide (r.length < s.length))).flatMap
        (starEnds step g k) → r <:+ s := by
      intro r hr
      obtain ⟨m, hm, hrm⟩ := List.mem_flatMap.mp hr
      exact (ih m r hrm).trans (hstep s m (List.mem_filter.mp hm).1)
    unfold starEnds at hr
    cases g with
    | true =>
      simp only [if_true, List.mem_append, List.mem_singleton] at hr
      rcases hr with hr | hr
      · exact hmore r hr
      · subst hr; exact List.suffix_refl _
    | false =>
      simp only [Bool.false_eq_true, if_false, List.mem_cons] at hr
      rcases hr with hr | hr
      · subst hr; exact List.suffix_refl _
      · exact hmore r hr

/-- Every end of a match is a suffix of the text the match starts at. -/
theorem ends_suffix (re : Re) (n : Nat) : ∀ (s r : Str), r ∈ re.ends n s → r <:+ s := by
  induction re with
  | eps =>
    intro s r hr
    simp [Re.ends] at hr
    subst hr; exact List.suffix_refl _
  | chr p =>
    intro s r hr
    cases s with
    | nil => simp [Re.ends] at hr
    | cons c t =>
      by_cases hp : p c = true
      · simp [Re.ends, hp] at hr
        subst hr; exact List.suffix_cons c r
      · simp [Re.ends, hp] at hr
  | seq a b iha ihb =>
    intro s r hr
    simp only [Re.ends, List.mem_flatMap] at hr
    obtain ⟨m, hm, hrm⟩ := hr
    exact (ihb m r hrm).trans (iha s m hm)
  | alt a b iha ihb =>
    intro s r hr
    simp only [Re.ends, List.mem_append] at hr
    rcases hr with hr | hr
    · exact iha s r hr
    · exact ihb s r hr
  | star g a iha =>
    intro s r hr
    exact starEnds_suffix (a.ends n) g iha s.length s r hr
  | bol =>
    intro s r hr
    by_cases h : s.length = n
    · simp [Re.ends, h] at hr
      subst hr; exact List.suffix_refl _
    · simp [Re.ends, h] at hr
  | eol =>
    intro s r hr
    by_cases h : s = []
    · simp [Re.ends, h] at hr
      subst hr; subst h; exact List.suffix_refl _
    · simp [Re.ends, h] at hr

theorem ends_length_le (re : Re) (n : Nat) (s r : Str) (h : r ∈ re.ends n s) :
    r.length ≤ s.length := (ends_suffix re n s r h).length_le

theorem ends_seq (a b : Re) (n : Nat) (s : Str) :
    (Re.seq a b).ends n s = (a.ends n s).flatMap (fun r => b.ends n r) := rfl

theorem ends_alt (a b : Re) (n : Nat) (s : Str) :
    (Re.alt a b).ends n s = a.ends n s ++ b.ends n s := rfl

theorem ends_eps (n : Nat) (s : Str) : Re.eps.ends n s = [s] := rfl

theorem ends_chr_cons (p : Char → Bool) (n : Nat) (c : Char) (t : Str) :
    (Re.chr p).ends n (c :: t) = if p c then [t] else [] := rfl

theorem ends_chr_nil (p : Char → Bool) (n : Nat) : (Re.chr p).ends n [] = [] := rfl

/-- A literal matches exactly where the text starts with it. -/
theorem ends_lit_append (l : Str) (n : Nat) (s : Str) : (Re.lit l).ends n (l ++ s) = [s] := by
  induction l with
  | nil => rfl
  | cons c t ih =>
    simp [Re.lit, Re.ends, ih]

theorem ends_lit_of_mismatch (l : Str) (n : Nat) :
    ∀ (s : Str), ¬ l <+: s → (Re.lit l).ends n s = [] := by
  induction l with
  | nil => intro s h; exact absurd (List.nil_prefix) h
  | cons c t ih =>
    intro s h
    cases s with
    | nil => simp [Re.lit, Re.ends]
    | cons d u =>
      by_cases hcd : d = c
      · subst hcd
        have ht : ¬ t <+: u := fun hp => h ((List.cons_prefix_cons).mpr ⟨rfl, hp⟩)
        simp [Re.lit, Re.ends, ih u ht]
      · simp [Re.lit, Re.ends, hcd]

theorem ends_lit_mem (l : Str) (n : Nat) (s r : Str) (h : r ∈ (Re.lit l).ends n s) :
    s = l ++ r := by
  by_cases hp : l <+: s
  · obtain ⟨t, rfl⟩ := hp
    rw [ends_lit_append] at h
    simp at h
    rw [h]
  · rw [ends_lit_of_mismatch l n s hp] at h
    simp at h

/-! ## The search for the leftmost match -/

theorem search_none_iff (re : Re) (n : Nat) :
    ∀ (s : Str), re.search n s = none ↔ ∀ t, t <:+ s → re.ends n t = [] := by
  intro s
  induction s with
  | nil =>
    constructor
    · intro h t ht
      have : t = [] := List.suffix_nil.mp ht
      subst this
      cases he : re.ends n [] with
      | nil => rfl
      | cons e es => simp [Re.search, he] at h
    · intro h
      simp [Re.search, h [] (List.suffix_refl _)]
  | cons c u ih =>
    constructor
    · intro h t ht
      cases he : re.ends n (c :: u) with
      | nil =>
        simp only [Re.search, he] at h
        rcases List.suffix_cons_iff.mp ht with h1 | h1
        · rw [h1]; exact he
        · exact (ih.mp h) t h1
      | cons e es => simp [Re.search, he] at h
    · intro h
      have he := h (c :: u) (List.suffix_refl _)
      simp only [Re.search, he]
      exact ih.mpr (fun t ht => h t (ht.trans (List.suffix_cons c u)))

/-- The leftmost match: nothing matches before its start, and its end is the
first end the matcher lists there. -/
theorem search_some (re : Re) (n : Nat) :
    ∀ (s ms me : Str), re.search n s = some (ms, me) →
      ∃ pre es, s = pre ++ ms ∧ re.ends n ms = me :: es ∧
        ∀ t, t <:+ s → ms.length < t.length → re.ends n t = [] := by
  intro s
  induction s with
  | nil =>
    intro ms me h
    cases he : re.ends n [] with
    | nil => simp [Re.search, he] at h
    | cons e es =>
      simp [Re.search, he] at h
      obtain ⟨h1, h2⟩ := h
      subst h1; subst h2
      refine ⟨[], es, rfl, he, ?_⟩
      intro t ht hlt
      have : t = [] := List.suffix_nil.mp ht
      subst this
      simp at hlt
  | cons c u ih =>
    intro ms me h
    cases he : re.ends n (c :: u) with
    | nil =>
      simp only [Re.search, he] at h
      obtain ⟨pre, es, h1, h2, h3⟩ := ih ms me h
      refine ⟨c :: pre, es, by rw [h1]; rfl, h2, ?_⟩
      intro t ht hlt
      rcases List.suffix_cons_iff.mp ht with h4 | h4
      · rw [h4]; exact he
      · exact h3 t h4 hlt
    | cons e es =>
      simp only [Re.search, he, Option.some.injEq, Prod.mk.injEq] at h
      obtain ⟨h1, h2⟩ := h
      subst h1; subst h2
      refine ⟨[], es, rfl, he, ?_⟩
      intro t ht hlt
      have := ht.length_le
      omega

/-- A match at the very start of the searched text is the one found. -/
theorem search_of_ends (re : Re) (n : Nat) (s e : Str) (es : List Str)
    (h : re.ends n s = e :: es) : re.search n s = some (s, e) := by
  cases s with
  | nil => simp [Re.search, h]
  | cons c u => simp [Re.search, h]

theorem search_cons_of_nil (re : Re) (n : Nat) (c : Char) (u : Str)
    (h : re.ends n (c :: u) = []) : re.search n (c :: u) = re.search n u := by
  simp [Re.search, h]

/-! ## The replacement loop -/

theorem replaceLoop_none (re : Re) (repl : Str) (n fuel : Nat) (last cur : Str)
    (h : re.search n cur = none) :
    re.replaceLoop repl n (fuel + 1) last (some cur) = last := by
  simp [Re.replaceLoop, h]

theorem replaceLoop_past_end (re : Re) (repl : Str) (n fuel : Nat) (last : Str) :
    re.replaceLoop repl n fuel last none = last := by
  cases fuel <;> rfl

/-- More fuel than the text is long changes nothing. -/
theorem replaceLoop_succ (re : Re) (repl : Str) (n : Nat) :
    ∀ (fuel : Nat) (last cur : Str), cur.length + 1 ≤ fuel →
      re.replaceLoop repl n (fuel + 1) last (some cur) =
        re.replaceLoop repl n fuel last (some cur) := by
  intro fuel
  induction fuel with
  | zero => intro last cur h; omega
  | succ k ih =>
    intro last cur h
    cases hs : re.search n cur with
    | none => rw [replaceLoop_none _ _ _ _ _ _ hs, replaceLoop_none _ _ _ _ _ _ hs]
    | some p =>
      obtain ⟨ms, me⟩ := p
      conv_lhs => unfold Re.replaceLoop
      conv_rhs => unfold Re.replaceLoop
      simp only [hs]
      by_cases hlt : me.length < cur.length
      · simp only [hlt, if_true]
        rw [ih me me (by omega)]
      · simp only [hlt, if_false]
        cases cur with
        | nil => simp only [replaceLoop_past_end]
        | cons c t =>
          simp only
          rw [ih me t (by simpa using h)]

theorem replaceLoop_fuel (re : Re) (repl : Str) (n : Nat) (last cur : Str) :
    ∀ (extra : Nat), re.replaceLoop repl n (cur.length + 1 + extra) last (some cur) =
      re.replaceLoop repl n (cur.length + 1) last (some cur) := by
  intro extra
  induction extra with
  | zero => rfl
  | succ k ih =>
    rw [← ih]
    exact replaceLoop_succ re repl n (cur.length + 1 + k) last cur (by omega)

theorem replaceAllString_eq (re : Re) (src repl : Str) :
    re.replaceAllString src repl =
      re.replaceLoop repl src.length (src.length + 1) src (some src) :=
  replaceLoop_fuel re repl src.length src src 1

/-- One round of the loop at a match that is not empty: the text before the
match is kept, the replacement is written, and the loop goes on behind the
match. -/
theorem replaceLoop_step (re : Re) (repl : Str) (n : Nat) (pre ms me : Str)
    (hs : re.search n (pre ++ ms) = some (ms, me)) (hne : me.length < ms.length) :
    re.replaceLoop repl n ((pre ++ ms).length + 1) (pre ++ ms) (some (pre ++ ms)) =
      pre ++ repl ++ re.replaceLoop repl n (me.length + 1) me (some me) := by
  conv_lhs => unfold Re.replaceLoop
  simp only [hs]
  have h1 : me.length < (pre ++ ms).length := by simp; omega
  have h2 : (pre ++ ms).length - ms.length = pre.length := by simp
  simp only [h1, true_or, if_true, h2, List.take_left']
  obtain ⟨e, he⟩ : ∃ e, (pre ++ ms).length = me.length + 1 + e :=
    ⟨(pre ++ ms).length - (me.length + 1), by omega⟩
  rw [he, replaceLoop_fuel]

/-- Without a match the text is returned as it is. -/
theorem replaceAllString_of_no_match (re : Re) (src repl : Str)
    (h : re.matchString src = false) : re.replaceAllString src repl = src := by
  have hs : re.search src.length src = none := by
    simpa [Re.matchString] using h
  unfold Re.replaceAllString
  exact replaceLoop_none re repl src.length (src.length + 1) src src hs

/-- The loop writes only characters of the text and of the replacement. -/
theorem replaceLoop_chars (re : Re) (repl : Str) (n : Nat) :
    ∀ (fuel : Nat) (last : Str) (cur : Option Str),
      (∀ u, cur = some u → u <:+ last) →
      ∀ c ∈ re.replaceLoop repl n fuel last cur, c ∈ last ∨ c ∈ repl := by
  intro fuel
  induction fuel with
  | zero => intro last cur _ c hc; exact Or.inl hc
  | succ k ih =>
    intro last cur hcur c hc
    cases cur with
    | none => exact Or.inl hc
    | some u =>
      have hu : u <:+ last := hcur u rfl
      cases hs : re.search n u with
      | none =>
        rw [replaceLoop_none _ _ _ _ _ _ hs] at hc
        exact Or.inl hc
      | some p =>
        obtain ⟨ms, me⟩ := p
        obtain ⟨pre, es, h1, h2, _⟩ := search_some re n u ms me hs
        have hme : me <:+ ms := ends_suffix re n ms me (by rw [h2]; exact List.mem_cons_self _ _)
        have hms : ms <:+ u := ⟨pre, h1.symm⟩
        have hmel : me <:+ last := hme.trans (hms.trans hu)
        unfold Re.replaceLoop at hc
        simp only [hs, List.mem_append] at hc
        rcases hc with (hc | hc) | hc
        · exact Or.inl (List.mem_of_mem_take hc)
        · split at hc
          · exact Or.inr hc
          · simp at hc
        · have hnext : ∀ v, (if me.length < u.length then some me
              else match u with
                | [] => none
                | _ :: t => some t) = some v → v <:+ me := by
            intro v hv
            by_cases hlt : me.length < u.length
            · simp only [hlt, if_true, Option.some.injEq] at hv
              subst hv; exact List.suffix_refl _
            · simp only [hlt, if_false] at hv
              have hle := (hme.trans hms).length_le
              have heq : me = u := (hme.trans hms).eq_of_length (by omega)
              cases u with
              | nil => simp at hv
              | cons d t =>
                simp only [Option.some.injEq] at hv
                subst hv
                rw [heq]
                exact List.suffix_cons d _
          rcases ih me _ hnext c hc with h | h
          · exact Or.inl (hmel.subset h)
          · exact Or.inr h

theorem replaceAllString_chars (re : Re) (src repl : Str) :
    ∀ c ∈ re.replaceAllString src repl, c ∈ src ∨ c ∈ repl :=
  replaceLoop_chars re repl src.length (src.length + 2) src (some src)
    (fun u hu => by simp at hu; subst hu; exact List.suffix_refl _)

/-! ## The pattern `\n{3,}` -/

/-- The loop of the replacement from a text on, with the fuel the text needs. -/
theorem replaceLoop_skip (re : Re) (repl : Str) (n : Nat) (c : Char) (t : Str)
    (hne : ∀ s r, r ∈ re.ends n s → r.length < s.length)
    (h : re.ends n (c :: t) = []) :
    re.replaceLoop repl n ((c :: t).length + 1) (c :: t) (some (c :: t)) =
      c :: re.replaceLoop repl n (t.length + 1) t (some t) := by
  have hsc := search_cons_of_nil re n c t h
  cases hs : re.search n t with
  | none =>
    rw [replaceLoop_none _ _ _ _ _ _ hs, replaceLoop_none _ _ _ _ _ _ (hsc.trans hs)]
  | some p =>
    obtain ⟨ms, me⟩ := p
    obtain ⟨pre, es, h1, h2, _⟩ := search_some re n t ms me hs
    have hlt : me.length < ms.length := hne ms me (by rw [h2]; exact List.mem_cons_self _ _)
    subst h1
    have hs2 : re.search n ((c :: pre) ++ ms) = some (ms, me) := by
      rw [List.cons_append, hsc, hs]
    have e1 := replaceLoop_step re repl n (c :: pre) ms me hs2 hlt
    have e2 := replaceLoop_step re repl n pre ms me hs hlt
    rw [List.cons_append] at e1
    rw [e1, e2]
    rfl

theorem ends_newline_cons (n : Nat) (s : Str) :
    (Re.lit ['\n']).ends n ('\n' :: s) = [s] :=
  ends_lit_append ['\n'] n s

theorem ends_newline_other (n : Nat) (s : Str) (h : ∀ t, s ≠ '\n' :: t) :
    (Re.lit ['\n']).ends n s = [] := by
  apply ends_lit_of_mismatch
  rintro ⟨r, hr⟩
  exact h r hr.symm

/-- The greedy star over newlines first takes the whole run. -/
theorem ends_star_newlines (n : Nat) (rest : Str) (hrest : ∀ t, rest ≠ '\n' :: t) :
    ∀ (k : Nat), ∃ es, (Re.star true (Re.lit ['\n'])).ends n
      (List.replicate k '\n' ++ rest) = rest :: es := by
  intro k
  induction k with
  | zero =>
    refine ⟨[], ?_⟩
    rw [ends_star]
    simp [ends_newline_other n rest hrest]
  | succ j ih =>
    obtain ⟨es, hes⟩ := ih
    refine ⟨es ++ [List.replicate (j + 1) '\n' ++ rest], ?_⟩
    rw [ends_star]
    simp only [List.replicate_succ, List.cons_append, ends_newline_cons, if_true]
    simp [hes]

theorem ends_reNewlines_of_run (n : Nat) (rest : Str) (hrest : ∀ t, rest ≠ '\n' :: t)
    (k : Nat) (hk : 3 ≤ k) :
    ∃ es, reNewlines.ends n (List.replicate k '\n' ++ rest) = rest :: es := by
  obtain ⟨j, rfl⟩ : ∃ j, k = j + 3 := ⟨k - 3, by omega⟩
  obtain ⟨es, hes⟩ := ends_star_newlines n rest hrest j
  refine ⟨es, ?_⟩
  show ((((Re.lit ['\n']).ends n _).flatMap fun r => ((Re.lit ['\n']).ends n r).flatMap
    fun r => ((Re.lit ['\n']).ends n r).flatMap fun r => Re.eps.ends n r).flatMap
      fun r => (Re.star true (Re.lit ['\n'])).ends n r) = _
  simp only [List.replicate_succ, List.cons_append,
    ends_newline_cons, List.flatMap_cons, List.flatMap_nil, List.append_nil, ends_eps]
  exact hes

theorem ends_reNewlines_short (n : Nat) (s : Str)
    (h : ¬ "\n\n\n".toList <+: s) : reNewlines.ends n s = [] := by
  show ((((Re.lit ['\n']).ends n s).flatMap fun r => ((Re.lit ['\n']).ends n r).flatMap
    fun r => ((Re.lit ['\n']).ends n r).flatMap fun r => Re.eps.ends n r).flatMap
      fun r => (Re.star true (Re.lit ['\n'])).ends n r) = _
  by_cases h1 : ∃ t, s = '\n' :: t
  · obtain ⟨t, rfl⟩ := h1
    simp only [ends_newline_cons, List.flatMap_cons, List.flatMap_nil, List.append_nil]
    by_cases h2 : ∃ u, t = '\n' :: u
    · obtain ⟨u, rfl⟩ := h2
      simp only [ends_newline_cons, List.flatMap_cons, List.flatMap_nil, List.append_nil]
      have h3 : ∀ v, u ≠ '\n' :: v := by
        intro v hv
        subst hv
        exact h ⟨v, rfl⟩
      simp [ends_newline_other n u h3]
    · have h2 : ∀ u, t ≠ '\n' :: u := fun u hu => h2 ⟨u, hu⟩
      simp [ends_newline_other n t h2]
  · have h1 : ∀ t, s ≠ '\n' :: t := fun t ht => h1 ⟨t, ht⟩
    simp [ends_newline_other n s h1]

theorem reNewlines_consumes (n : Nat) (s r : Str) (h : r ∈ reNewlines.ends n s) :
    r.length < s.length := by
  have h : r ∈ (((Re.lit ['\n']).ends n s).flatMap fun r => (Re.times 2 (Re.lit ['\n'])).ends n r).flatMap
      fun r => (Re.star true (Re.lit ['\n'])).ends n r := h
  rw [List.mem_flatMap] at h
  obtain ⟨a, ha, hr⟩ := h
  rw [List.mem_flatMap] at ha
  obtain ⟨b, hb, ha⟩ := ha
  have h1 := ends_lit_mem _ n s b hb
  have h2 := ends_length_le _ n _ _ ha
  have h3 := ends_length_le _ n _ _ hr
  rw [h1]
  simp
  omega

theorem collapseFrom_run (rest : Str) :
    ∀ (j k : Nat), collapseFrom k (List.replicate j '\n' ++ rest) = collapseFrom (k + j) rest := by
  intro j
  induction j with
  | zero => intro k; rfl
  | succ i ih =>
    intro k
    show collapseFrom k ('\n' :: (List.replicate i '\n' ++ rest)) = _
    rw [collapseFrom]
    simp only [if_true]
    rw [ih]
    congr 1
    omega

/-- The loop on a run of `k` newlines followed by something else. -/
theorem replaceLoop_newlines_run (n : Nat) (rest : Str) (hrest : ∀ t, rest ≠ '\n' :: t)
    (k : Nat) :
    reNewlines.replaceLoop "\n\n".toList n ((List.replicate k '\n' ++ rest).length + 1)
        (List.replicate k '\n' ++ rest) (some (List.replicate k '\n' ++ rest)) =
      collapseRun k ++
        reNewlines.replaceLoop "\n\n".toList n (rest.length + 1) rest (some rest) := by
  by_cases hk : 3 ≤ k
  · obtain ⟨es, hes⟩ := ends_reNewlines_of_run n rest hrest k hk
    have hs := search_of_ends reNewlines n _ _ _ hes
    have hlt : rest.length < (List.replicate k '\n' ++ rest).length := by simp; omega
    refine (replaceLoop_step reNewlines "\n\n".toList n [] _ rest hs hlt).trans ?_
    simp [collapseRun, hk]
  · have hskip : ∀ (j : Nat) (u : Str), j ≤ 2 → (∀ t, u ≠ '\n' :: t) → 
        reNewlines.replaceLoop "\n\n".toList n ((List.replicate j '\n' ++ u).length + 1)
          (List.replicate j '\n' ++ u) (some (List.replicate j '\n' ++ u)) =
        List.replicate j '\n' ++
          reNewlines.replaceLoop "\n\n".toList n (u.length + 1) u (some u) := by
      intro j
      induction j with
      | zero => intro u _ _; rfl
      | succ i ih =>
        intro u hi hu
        have hshort : ¬ "\n\n\n".toList <+: (List.replicate (i + 1) '\n' ++ u) := by
          rintro ⟨v, hv⟩
          have hi2 : i = 0 ∨ i = 1 := by omega
          rcases hi2 with rfl | rfl
          · simp [List.replicate] at hv
            exact hu _ hv.symm
          · simp [List.replicate] at hv
            exact hu _ hv.symm
        have h0 := ends_reNewlines_short n _ hshort
        rw [List.replicate_succ, List.cons_append] at h0 ⊢
        rw [replaceLoop_skip reNewlines _ n '\n' _ (reNewlines_consumes n) h0,
          ih u (by omega) hu]
        rfl
    have hk2 : k ≤ 2 := by omega
    rw [hskip k rest hk2 hrest]
    simp [collapseRun, hk]

theorem replaceLoop_newlines_other (n : Nat) (c : Char) (t : Str) (hc : c ≠ '\n') :
    reNewlines.replaceLoop "\n\n".toList n ((c :: t).length + 1) (c :: t) (some (c :: t)) =
      c :: reNewlines.replaceLoop "\n\n".toList n (t.length + 1) t (some t) := by
  apply replaceLoop_skip reNewlines _ n c t (reNewlines_consumes n)
  apply ends_reNewlines_short
  rintro ⟨v, hv⟩
  simp at hv
  exact hc hv.1.symm

/-- Every text is a run of newlines followed by nothing or by another character. -/
theorem newline_run_split (s : Str) :
    ∃ k rest, s = List.replicate k '\n' ++ rest ∧ (∀ t, rest ≠ '\n' :: t) := by
  induction s with
  | nil => exact ⟨0, [], rfl, by simp⟩
  | cons c t ih =>
    by_cases hc : c = '\n'
    · obtain ⟨k, rest, h1, h2⟩ := ih
      exact ⟨k + 1, rest, by rw [h1, hc]; rfl, h2⟩
    · refine ⟨0, c :: t, rfl, ?_⟩
      intro u hu
      exact hc (List.cons.inj hu).1

/-- The replacement loop of `\n{3,}` computes the collapsing of the runs. -/
theorem replaceLoop_newlines (n : Nat) :
    ∀ (m : Nat) (s : Str), s.length ≤ m →
      reNewlines.replaceLoop "\n\n".toList n (s.length + 1) s (some s) = collapseFrom 0 s := by
  intro m
  induction m with
  | zero =>
    intro s hs
    have : s = [] := List.length_eq_zero.mp (Nat.le_zero.mp hs)
    subst this
    have h0 : reNewlines.search n [] = none := by
      simp [Re.search, ends_reNewlines_short n [] (by simp)]
    rw [replaceLoop_none _ _ _ _ _ _ h0]
    rfl
  | succ m ih =>
    intro s hs
    obtain ⟨k, rest, h1, h2⟩ := newline_run_split s
    subst h1
    rw [replaceLoop_newlines_run n rest h2 k, collapseFrom_run, Nat.zero_add]
    cases rest with
    | nil =>
      have h0 : reNewlines.search n [] = none := by
        simp [Re.search, ends_reNewlines_short n [] (by simp)]
      rw [replaceLoop_none _ _ _ _ _ _ h0]
      simp [collapseFrom]
    | cons c t =>
      have hc : c ≠ '\n' := fun h => h2 t (by rw [h])
      rw [replaceLoop_newlines_other n c t hc, ih t (by simp at hs; omega)]
      simp [collapseFrom, hc]

theorem replaceAll_newlines (s : Str) :
    reNewlines.replaceAllString s "\n\n".toList = collapseSpec s := by
  rw [replaceAllString_eq]
  exact replaceLoop_newlines s.length s.length s (Nat.le_refl _)

theorem no_run_of_three_glue (a b : Str) (c : Char) (hc : c ≠ '\n')
    (ha : a = [] ∨ a = ['\n'] ∨ a = ['\n', '\n'])
    (hb : ¬ "\n\n\n".toList <:+: b) : ¬ "\n\n\n".toList <:+: (a ++ c :: b) := by
  have hp : ∀ u, ¬ "\n\n\n".toList <+: (c :: u) := by
    rintro u ⟨v, hv⟩
    simp at hv
    exact hc hv.1.symm
  have h1 : ¬ "\n\n\n".toList <:+: (c :: b) := by
    rw [List.infix_cons_iff]
    rintro (h | h)
    · exact hp _ h
    · exact hb h
  have h2 : ¬ "\n\n\n".toList <:+: ('\n' :: c :: b) := by
    rw [List.infix_cons_iff]
    rintro (⟨v, hv⟩ | h)
    · simp at hv
      exact hc hv.1.symm
    · exact h1 h
  rcases ha with rfl | rfl | rfl
  · exact h1
  · exact h2
  · show ¬ "\n\n\n".toList <:+: ('\n' :: '\n' :: c :: b)
    rw [List.infix_cons_iff]
    rintro (⟨v, hv⟩ | h)
    · simp at hv
      exact hc hv.1.symm
    · exact h2 h

theorem collapseRun_cases (k : Nat) :
    collapseRun k = [] ∨ collapseRun k = ['\n'] ∨ collapseRun k = ['\n', '\n'] := by
  unfold collapseRun
  by_cases hk : 3 ≤ k
  · simp [hk, List.replicate]
  · have : k = 0 ∨ k = 1 ∨ k = 2 := by omega
    rcases this with rfl | rfl | rfl <;> simp [List.replicate]

theorem collapseFrom_no_run :
    ∀ (s : Str) (k : Nat), ¬ "\n\n\n".toList <:+: collapseFrom k s := by
  intro s
  induction s with
  | nil =>
    intro k
    simp only [collapseFrom]
    rcases collapseRun_cases k with h | h | h <;> rw [h] <;> decide
  | cons c t ih =>
    intro k
    by_cases hc : c = '\n'
    · simp only [collapseFrom, hc, if_true]
      exact ih (k + 1)
    · simp only [collapseFrom, hc, if_false]
      exact no_run_of_three_glue _ _ c hc (collapseRun_cases k) (ih 0)

/-! ## `strings.Split` with a separator of one character -/

theorem splitLoop_ne_nil (sep : Str) : ∀ (s : Str) (k : Nat), splitLoop sep k s ≠ [] := by
  intro s
  induction s with
  | nil => intro k; simp [splitLoop]
  | cons c t ih =>
    intro k
    cases k with
    | succ j => simpa [splitLoop] using ih j
    | zero =>
      unfold splitLoop
      split
      · simp
      · split <;> simp

theorem splitLoop_single_cons (x c : Char) (t : Str) :
    splitLoop [x] 0 (c :: t) =
      if x = c then [] :: splitLoop [x] 0 t
      else match splitLoop [x] 0 t with
        | [] => [[c]]
        | piece :: rest => (c :: piece) :: rest := by
  conv_lhs => unfold splitLoop
  by_cases h : x = c
  · subst h; simp
  · simp [h, List.isPrefixOf]

theorem splitLoop_single_no_sep (x : Char) :
    ∀ (s : Str), x ∉ s → splitLoop [x] 0 s = [s] := by
  intro s
  induction s with
  | nil => intro _; rfl
  | cons c t ih =>
    intro h
    have hc : x ≠ c := fun e => h (by rw [e]; exact List.mem_cons_self _ _)
    have ht : x ∉ t := fun e => h (List.mem_cons_of_mem _ e)
    rw [splitLoop_single_cons, if_neg hc, ih ht]

theorem splitLoop_single_append (x : Char) (rest : Str) :
    ∀ (a : Str), x ∉ a → splitLoop [x] 0 (a ++ x :: rest) = a :: splitLoop [x] 0 rest := by
  intro a
  induction a with
  | nil => intro _; rw [List.nil_append, splitLoop_single_cons, if_pos rfl]
  | cons c t ih =>
    intro h
    have hc : x ≠ c := fun e => h (by rw [e]; exact List.mem_cons_self _ _)
    have ht : x ∉ t := fun e => h (List.mem_cons_of_mem _ e)
    rw [List.cons_append, splitLoop_single_cons, if_neg hc, ih ht]

theorem split_single (s : Str) (x : Char) : split s [x] = splitLoop [x] 0 s := by
  simp [split]

/-- A text without the separator is its only piece. -/
theorem split_no_sep (s : Str) (x : Char) (h : x ∉ s) : split s [x] = [s] := by
  rw [split_single, splitLoop_single_no_sep x s h]

/-- Splitting what `Join` wrote gives the pieces back. -/
theorem split_join (x : Char) :
    ∀ (ps : List Str), ps ≠ [] → (∀ p ∈ ps, x ∉ p) → split (join ps [x]) [x] = ps := by
  intro ps
  induction ps with
  | nil => intro h; exact absurd rfl h
  | cons a t ih =>
    intro _ hx
    cases t with
    | nil => exact split_no_sep a x (hx a (List.mem_cons_self _ _))
    | cons b u =>
      have := ih (by simp) (fun p hp => hx p (List.mem_cons_of_mem _ hp))
      rw [split_single] at this ⊢
      show splitLoop [x] 0 (a ++ [x] ++ join (b :: u) [x]) = _
      rw [List.append_assoc, List.singleton_append,
        splitLoop_single_append x _ a (hx a (List.mem_cons_self _ _)), this]

/-- No piece contains the separator. -/
theorem splitLoop_single_pieces (x : Char) :
    ∀ (s : Str), ∀ p ∈ splitLoop [x] 0 s, x ∉ p := by
  intro s
  induction s with
  | nil => intro p hp; simp [splitLoop] at hp; subst hp; simp
  | cons c t ih =>
    intro p hp
    rw [splitLoop_single_cons] at hp
    by_cases h : x = c
    · rw [if_pos h] at hp
      rcases List.mem_cons.mp hp with hp | hp
      · subst hp; simp
      · exact ih p hp
    · rw [if_neg h] at hp
      cases hsp : splitLoop [x] 0 t with
      | nil => exact absurd hsp (splitLoop_ne_nil _ _ _)
      | cons q r =>
        rw [hsp] at hp ih
        rcases List.mem_cons.mp hp with hp | hp
        · subst hp
          intro hm
          rcases List.mem_cons.mp hm with hm | hm
          · exact h hm
          · exact ih q (List.mem_cons_self _ _) hm
        · exact ih p (List.mem_cons_of_mem _ hp)

theorem split_pieces (s : Str) (x : Char) : ∀ p ∈ split s [x], x ∉ p := by
  rw [split_single]
  exact splitLoop_single_pieces x s

/-! ## `strings.TrimSpace` -/

theorem dropWhile_spaces_append (ws : Str) (hws : ∀ c ∈ ws, isSpace c = true) (m : Str)
    (hm : ∀ c t, m = c :: t → isSpace c = false) :
    (ws ++ m).dropWhile isSpace = m := by
  induction ws with
  | nil =>
    cases m with
    | nil => rfl
    | cons c t => simp [List.dropWhile, hm c t rfl]
  | cons d u ih =>
    simp only [List.cons_append, List.dropWhile, hws d (List.mem_cons_self _ _)]
    exact ih (fun c hc => hws c (List.mem_cons_of_mem _ hc))

/-- Trimming removes the white space around a tight text. -/
theorem trimSpace_around (ws m ws2 : Str) (hws : ∀ c ∈ ws, isSpace c = true)
    (hws2 : ∀ c ∈ ws2, isSpace c = true) (hm : Tight m) :
    trimSpace (ws ++ m ++ ws2) = m := by
  unfold trimSpace
  cases m with
  | nil =>
    have h1 : (ws ++ [] ++ ws2).dropWhile isSpace = [] := by
      have := dropWhile_spaces_append (ws ++ ws2) (by
        intro c hc
        rcases List.mem_append.mp hc with h | h
        · exact hws c h
        · exact hws2 c h) [] (by simp)
      simpa using this
    rw [h1]; rfl
  | cons c t =>
    have h1 : (ws ++ c :: t ++ ws2).dropWhile isSpace = c :: t ++ ws2 := by
      rw [List.append_assoc]
      exact dropWhile_spaces_append ws hws _ (by
        intro d u hd
        simp only [List.cons_append, List.cons.injEq] at hd
        rw [← hd.1]
        exact hm.1 c t rfl)
    rw [h1, List.reverse_append]
    rw [dropWhile_spaces_append ws2.reverse (by simpa using hws2) (c :: t).reverse (by
      intro d u hd
      have : c :: t = u.reverse ++ [d] := by
        have := congrArg List.reverse hd
        simpa using this
      exact hm.2 d _ this)]
    simp

theorem trimSpace_of_tight (m : Str) (hm : Tight m) : trimSpace m = m := by
  have := trimSpace_around [] m [] (by simp) (by simp) hm
  simpa using this

theorem dropWhile_head_not (p : Char → Bool) :
    ∀ (s : Str) (c : Char) (t : Str), s.dropWhile p = c :: t → p c = false := by
  intro s
  induction s with
  | nil => intro c t h; simp at h
  | cons d u ih =>
    intro c t h
    by_cases hd : p d = true
    · simp only [List.dropWhile, hd] at h
      exact ih c t h
    · simp only [List.dropWhile, hd] at h
      simp only [List.cons.injEq] at h
      rw [← h.1]
      simpa using hd

/-- What `TrimSpace` returns has no white space at either end. -/
theorem trimSpace_tight (s : Str) : Tight (trimSpace s) := by
  unfold trimSpace
  constructor
  · intro c t h
    have hsuf : ((s.dropWhile isSpace).reverse.dropWhile isSpace) <:+
        (s.dropWhile isSpace).reverse := List.dropWhile_suffix _
    have hpre : ((s.dropWhile isSpace).reverse.dropWhile isSpace).reverse <+:
        s.dropWhile isSpace := by
      have := List.reverse_prefix.mpr hsuf
      simpa using this
    rw [h] at hpre
    obtain ⟨v, hv⟩ := hpre
    exact dropWhile_head_not isSpace s c (t ++ v) (by rw [← hv]; rfl)
  · intro c t h
    have h2 : (s.dropWhile isSpace).reverse.dropWhile isSpace = c :: t.reverse := by
      have := congrArg List.reverse h
      simpa using this
    exact dropWhile_head_not isSpace _ c _ h2

theorem trimSpace_idem (s : Str) : trimSpace (trimSpace s) = trimSpace s :=
  trimSpace_of_tight _ (trimSpace_tight s)

theorem trimSpace_sublist (s : Str) : ∀ c ∈ trimSpace s, c ∈ s := by
  intro c hc
  unfold trimSpace at hc
  have h1 := List.mem_reverse.mp hc
  have h2 := (List.dropWhile_suffix (l := (s.dropWhile isSpace).reverse) isSpace).subset h1
  have h3 := List.mem_reverse.mp h2
  exact (List.dropWhile_suffix (l := s) isSpace).subset h3

/-! ## `strings.Join` -/

theorem join_singleton (a sep : Str) : join [a] sep = a := rfl

theorem join_cons_cons (a b : Str) (rest : List Str) (sep : Str) :
    join (a :: b :: rest) sep = a ++ sep ++ join (b :: rest) sep := rfl

theorem join_cons (a : Str) (rest : List Str) (sep : Str) (h : rest ≠ []) :
    join (a :: rest) sep = a ++ sep ++ join rest sep := by
  cases rest with
  | nil => exact absurd rfl h
  | cons b u => rfl

theorem join_concat (sep p : Str) :
    ∀ (qs : List Str), qs ≠ [] → join (qs ++ [p]) sep = join qs sep ++ sep ++ p := by
  intro qs
  induction qs with
  | nil => intro h; exact absurd rfl h
  | cons a t ih =>
    intro _
    cases t with
    | nil => rfl
    | cons b u =>
      have := ih (by simp)
      show a ++ sep ++ join (b :: u ++ [p]) sep = a ++ sep ++ join (b :: u) sep ++ sep ++ p
      rw [this]
      simp [List.append_assoc]

theorem join_chars (sep : Str) :
    ∀ (ps : List Str) (c : Char), c ∈ join ps sep → c ∈ sep ∨ ∃ p ∈ ps, c ∈ p := by
  intro ps
  induction ps with
  | nil => intro c hc; simp [join] at hc
  | cons a t ih =>
    intro c hc
    cases t with
    | nil => exact Or.inr ⟨a, List.mem_cons_self _ _, hc⟩
    | cons b u =>
      rw [join_cons_cons] at hc
      rcases List.mem_append.mp hc with hc | hc
      · rcases List.mem_append.mp hc with hc | hc
        · exact Or.inr ⟨a, List.mem_cons_self _ _, hc⟩
        · exact Or.inl hc
      · rcases ih c hc with h | ⟨p, hp, hcp⟩
        · exact Or.inl h
        · exact Or.inr ⟨p, List.mem_cons_of_mem _ hp, hcp⟩

/-! ## Trimming a joined list of fragments -/

theorem trim_ends {α : Type} (p : α → Bool) (l : List α) :
    (∀ c t, ((l.dropWhile p).reverse.dropWhile p).reverse = c :: t → p c = false) ∧
    (∀ c t, ((l.dropWhile p).reverse.dropWhile p).reverse = t ++ [c] → p c = false) := by
  have hhead : ∀ (s : List α) (c : α) (t : List α), s.dropWhile p = c :: t → p c = false := by
    intro s
    induction s with
    | nil => intro c t h; simp at h
    | cons d u ih =>
      intro c t h
      by_cases hd : p d = true
      · simp only [List.dropWhile, hd] at h
        exact ih c t h
      · simp only [List.dropWhile, hd] at h
        simp only [List.cons.injEq] at h
        rw [← h.1]
        simpa using hd
  constructor
  · intro c t h
    have hsuf : ((l.dropWhile p).reverse.dropWhile p) <:+ (l.dropWhile p).reverse :=
      List.dropWhile_suffix _
    have hpre : ((l.dropWhile p).reverse.dropWhile p).reverse <+: l.dropWhile p := by
      have := List.reverse_prefix.mpr hsuf
      simpa using this
    rw [h] at hpre
    obtain ⟨v, hv⟩ := hpre
    exact hhead l c (t ++ v) (by rw [← hv]; rfl)
  · intro c t h
    have h2 : (l.dropWhile p).reverse.dropWhile p = c :: t.reverse := by
      have := congrArg List.reverse h
      simpa using this
    exact hhead _ c _ h2

theorem trim_subset {α : Type} (p : α → Bool) (l : List α) :
    ∀ c ∈ ((l.dropWhile p).reverse.dropWhile p).reverse, c ∈ l := by
  intro c hc
  have h1 := List.mem_reverse.mp hc
  have h2 := (List.dropWhile_suffix (l := (l.dropWhile p).reverse) p).subset h1
  have h3 := List.mem_reverse.mp h2
  exact (List.dropWhile_suffix (l := l) p).subset h3

/-- Leading empty fragments leave only separators in the joined text. -/
theorem join_leading_empty (sep : Str) :
    ∀ (ps : List Str), ∃ k, join ps sep =
      (List.replicate k sep).flatten ++ join (ps.dropWhile List.isEmpty) sep := by
  intro ps
  induction ps with
  | nil => exact ⟨0, rfl⟩
  | cons p t ih =>
    cases p with
    | cons c u => exact ⟨0, by simp [List.dropWhile, List.isEmpty]⟩
    | nil =>
      obtain ⟨k, hk⟩ := ih
      cases t with
      | nil => exact ⟨0, by simp [List.dropWhile, List.isEmpty, join]⟩
      | cons b v =>
        refine ⟨k + 1, ?_⟩
        rw [join_cons_cons, hk]
        simp [List.dropWhile, List.isEmpty, List.replicate_succ]

/-- Trailing empty fragments leave only separators in the joined text. -/
theorem join_trailing_empty (sep : Str) :
    ∀ (qs : List Str), ∃ k, join qs sep =
      join (qs.reverse.dropWhile List.isEmpty).reverse sep ++ (List.replicate k sep).flatten := by
  intro qs
  induction qs using List.reverseRecOn with
  | nil => exact ⟨0, rfl⟩
  | append_singleton q p ih =>
    cases p with
    | cons c u => exact ⟨0, by simp [List.dropWhile, List.isEmpty]⟩
    | nil =>
      obtain ⟨k, hk⟩ := ih
      by_cases hq : q = []
      · subst hq
        exact ⟨0, by simp [List.dropWhile, List.isEmpty, join]⟩
      · refine ⟨k + 1, ?_⟩
        rw [join_concat sep [] q hq, hk]
        simp [List.dropWhile, List.isEmpty, List.replicate_succ']

theorem flatten_replicate_spaces (sep : Str) (hsep : ∀ c ∈ sep, isSpace c = true) (k : Nat) :
    ∀ c ∈ (List.replicate k sep).flatten, isSpace c = true := by
  intro c hc
  obtain ⟨l, hl, hcl⟩ := List.mem_flatten.mp hc
  rw [(List.mem_replicate.mp hl).2] at hcl
  exact hsep c hcl

/-- The joined text of tight fragments, the outer ones not empty, is tight. -/
theorem join_tight (sep : Str) (qs : List Str) (hall : ∀ q ∈ qs, Tight q)
    (hfirst : ∀ q t, qs = q :: t → q ≠ []) (hlast : ∀ q t, qs = t ++ [q] → q ≠ []) :
    Tight (join qs sep) := by
  constructor
  · intro c t h
    cases qs with
    | nil => simp [join] at h
    | cons q rest =>
      have hq := hfirst q rest rfl
      cases q with
      | nil => exact absurd rfl hq
      | cons d u =>
        have hd : d = c := by
          cases rest with
          | nil => simp [join] at h; exact h.1
          | cons b v => simp [join] at h; exact h.1
        rw [← hd]
        exact (hall (d :: u) (List.mem_cons_self _ _)).1 d u rfl
  · intro c t h
    induction qs using List.reverseRecOn with
    | nil => simp [join] at h
    | append_singleton rest q _ =>
      have hq := hlast q rest rfl
      obtain ⟨u, d, hu⟩ : ∃ u d, q = u ++ [d] := by
        rcases List.eq_nil_or_concat q with h | ⟨u, d, h⟩
        · exact absurd h hq
        · exact ⟨u, d, by rw [h, List.concat_eq_append]⟩
      have hd : d = c := by
        by_cases hr : rest = []
        · subst hr
          simp only [List.nil_append, join_singleton] at h
          rw [hu] at h
          exact (List.append_inj' h rfl).2 |> List.singleton_inj.mp
        · rw [join_concat sep q rest hr, hu, ← List.append_assoc] at h
          exact (List.append_inj' h rfl).2 |> List.singleton_inj.mp
      rw [← hd]
      exact (hall q (by simp)).2 d u hu

/-- `TrimSpace` of the joined fragments: the empty fragments before the first
and after the last survivor disappear, the others stay. -/
theorem trimSpace_join (ps : List Str) (sep : Str) (hsep : ∀ c ∈ sep, isSpace c = true)
    (hall : ∀ p ∈ ps, Tight p) :
    trimSpace (join ps sep) = join (dropEmpty ps) sep := by
  obtain ⟨k1, h1⟩ := join_leading_empty sep ps
  obtain ⟨k2, h2⟩ := join_trailing_empty sep (ps.dropWhile List.isEmpty)
  rw [h1, h2, ← List.append_assoc]
  have hne := trim_ends List.isEmpty ps
  have hsub := trim_subset List.isEmpty ps
  apply trimSpace_around _ _ _ (flatten_replicate_spaces sep hsep k1)
    (flatten_replicate_spaces sep hsep k2)
  apply join_tight sep _ (fun q hq => hall q (hsub q hq))
  · intro q t hq e
    have := hne.1 q t hq
    rw [e] at this
    simp [List.isEmpty] at this
  · intro q t hq e
    have := hne.2 q t hq
    rw [e] at this
    simp [List.isEmpty] at this

/-! ## The loops of `format` over the tables -/

theorem nuke_not_nil : ∀ re ∈ nuke, re.matchString [] = false := by decide

theorem applyNuke_nil : ∀ (res : List Re), (∀ re ∈ res, re.matchString [] = false) →
    applyNuke res [] = [] := by
  intro res
  induction res with
  | nil => intro _; rfl
  | cons re t ih =>
    intro h
    simp only [applyNuke, ite_self]
    exact ih (fun r hr => h r (List.mem_cons_of_mem _ hr))

/-- The deletion loop keeps a page no pattern matches. -/
theorem applyNuke_of_no_match : ∀ (res : List Re) (page : Str),
    (∀ re ∈ res, re.matchString page = false) → applyNuke res page = page := by
  intro res
  induction res with
  | nil => intro _ _; rfl
  | cons re t ih =>
    intro page h
    simp only [applyNuke, h re (List.mem_cons_self _ _)]
    exact ih page (fun r hr => h r (List.mem_cons_of_mem _ hr))

/-- The deletion loop empties a page one of the patterns matches. -/
theorem applyNuke_of_match : ∀ (res : List Re) (page : Str),
    (∀ re ∈ res, re.matchString [] = false) →
    (∃ re ∈ res, re.matchString page = true) → applyNuke res page = [] := by
  intro res
  induction res with
  | nil => intro page _ h; obtain ⟨re, hre, _⟩ := h; simp at hre
  | cons re t ih =>
    intro page hnil h
    have hnil2 : ∀ r ∈ t, r.matchString [] = false :=
      fun r hr => hnil r (List.mem_cons_of_mem _ hr)
    by_cases hm : re.matchString page = true
    · simp only [applyNuke, hm, if_true]
      exact applyNuke_nil t hnil2
    · obtain ⟨r, hr, hrm⟩ := h
      rcases List.mem_cons.mp hr with e | e
      · rw [e] at hrm; exact absurd hrm hm
      · simp only [applyNuke, hm]
        exact ih page hnil2 ⟨r, e, hrm⟩

theorem applyNuke_cases (page : Str) : applyNuke nuke page = page ∨ applyNuke nuke page = [] := by
  by_cases h : ∃ re ∈ nuke, re.matchString page = true
  · exact Or.inr (applyNuke_of_match nuke page nuke_not_nil h)
  · refine Or.inl (applyNuke_of_no_match nuke page ?_)
    intro re hre
    cases hm : re.matchString page with
    | false => rfl
    | true => exact absurd ⟨re, hre, hm⟩ h

theorem applySub_eq (page : Str) :
    applySub sub repl page =
      reNewlines.replaceAllString
        (reMenu.replaceAllString (reNav.replaceAllString page "".toList) "".toList)
        "\n\n".toList := rfl

theorem applySub_of_no_match (page : Str) (h : ∀ re ∈ sub, re.matchString page = false) :
    applySub sub repl page = page := by
  rw [applySub_eq]
  rw [replaceAllString_of_no_match reNav page _ (h reNav (by simp [sub]))]
  rw [replaceAllString_of_no_match reMenu page _ (h reMenu (by simp [sub]))]
  rw [replaceAllString_of_no_match reNewlines page _ (h reNewlines (by simp [sub]))]

theorem applySub_chars (page : Str) (c : Char) (hc : c ∈ applySub sub repl page) :
    c ∈ page ∨ c = '\n' := by
  rw [applySub_eq] at hc
  rcases replaceAllString_chars _ _ _ c hc with h | h
  · rcases replaceAllString_chars _ _ _ c h with h | h
    · rcases replaceAllString_chars _ _ _ c h with h | h
      · exact Or.inl h
      · simp at h
    · simp at h
  · right
    simpa using h

theorem formatPage_chars (page : Str) (c : Char) (hc : c ∈ formatPage page) :
    c ∈ page ∨ c = '\n' := by
  unfold formatPage at hc
  have h1 := trimSpace_sublist _ c hc
  rcases applyNuke_cases (applySub sub repl page) with h | h
  · rw [h] at h1; exact applySub_chars page c h1
  · rw [h] at h1; simp at h1

theorem formatPage_tight (page : Str) : Tight (formatPage page) := trimSpace_tight _

/-! ## Documents without an indirect block -/

/-- The pattern `reInclude` needs a 0x1F to match. -/
theorem reInclude_find_none (d : Str) (h : '\x1f' ∉ d) : reInclude.find d = none := by
  have hs : reInclude.search d.length d = none := by
    rw [search_none_iff]
    intro t ht
    show ((Re.lit "\x1f\nIndirect:\n".toList).ends d.length t).flatMap _ = []
    rw [ends_lit_of_mismatch]
    · rfl
    · rintro ⟨r, hr⟩
      apply h
      apply ht.subset
      rw [← hr]
      simp
  simp [Re.find, hs]

/-- The result of `format` on a document in which no indirect block is found. -/
theorem format_of_no_include (w : World) (fuel : Nat) (d : Str)
    (h : reInclude.find d = none) :
    format w (fuel + 1) d =
      .text (trimSpace (join ((split d "\x1f".toList).map formatPage) "\n\n".toList) ++
        "\n".toList) := by
  simp [format, loadIncluded, assemble, h]

/-! ## `infopath` -/

/-- C1 (the code departs from the claim): whatever non-empty value `INFOPATH`
has, other than `":"` itself, `infopath` returns the one directory `":"`: the
arguments of `strings.Split` are swapped, so the text `":"` is split at the
value of the variable and the components of the value are never looked at. -/
theorem infopath_ignores_components (w : World)
    (hset : w.getenv "INFOPATH".toList ≠ [])
    (hne : w.getenv "INFOPATH".toList ≠ ":".toList) :
    infopath w = [":".toList] := by
  generalize hv : w.getenv "INFOPATH".toList = v at hset hne
  have hsplit : split ":".toList v = [":".toList] := by
    have hpre : v.isPrefixOf [':'] = false := by
      cases v with
      | nil => exact absurd rfl hset
      | cons c t =>
        cases t with
        | nil =>
          have hc : c ≠ ':' := fun e => hne (by rw [e]; rfl)
          simp [List.isPrefixOf, hc]
        | cons d u => simp [List.isPrefixOf]
    simp only [split, hset, if_false]
    show splitLoop v 0 [':'] = [[':']]
    simp [splitLoop, hpre]
  simp only [infopath, hv, hsplit]
  simp [hset, infopathLoop]

/-- C1, at `INFOPATH="/a:/b"`: the result is `[":"]`, not `["/a", "/b"]`. -/
theorem infopath_ignores_components_witness :
    (infopathWorld "/a:/b".toList).getenv "INFOPATH".toList ≠ [] ∧
    (infopathWorld "/a:/b".toList).getenv "INFOPATH".toList ≠ ":".toList ∧
    infopath (infopathWorld "/a:/b".toList) = [":".toList] ∧
    infopath (infopathWorld "/a:/b".toList) ≠ ["/a".toList, "/b".toList] :=
  ⟨by decide, by decide,
    infopath_ignores_components (infopathWorld "/a:/b".toList) (by decide) (by decide),
    by decide⟩

/-! ## `find` -/

theorem page_path_eq (d page : Str) :
    d ++ "/".toList ++ page ++
      (if ¬ contains ".info".toList page then ".info".toList else []) = pagePath d page := by
  unfold pagePath pageFile
  by_cases h : contains ".info".toList page = true
  · rw [if_pos h, if_neg (not_not_intro h), List.append_nil]
  · rw [if_neg h, if_pos h, List.append_assoc]

theorem findIn_none_iff (w : World) (path : Str) :
    findIn w path = none ↔
      w.openFile path = .notExist ∧ w.openFile (path ++ ".gz".toList) = .notExist := by
  unfold findIn
  cases h1 : w.openFile path with
  | file c => simp
  | failed => simp
  | notExist =>
    cases h2 : w.openFile (path ++ ".gz".toList) with
    | notExist => simp
    | failed => simp
    | file z => cases h3 : w.gunzip z <;> simp [h3]

theorem findIn_ne_nil (w : World) (path : Str) : findIn w path ≠ some .nil := by
  unfold findIn
  cases h1 : w.openFile path with
  | file c => simp
  | failed => simp
  | notExist =>
    cases h2 : w.openFile (path ++ ".gz".toList) with
    | notExist => simp
    | failed => simp
    | file z => cases h3 : w.gunzip z <;> simp [h3]

theorem findLoop_nil_iff (w : World) (page : Str) :
    ∀ (dirs : List Str),
      findLoop w page (if ¬ contains ".info".toList page then ".info".toList else []) dirs = .nil ↔
        ∀ d ∈ dirs, lacksPage w d page := by
  intro dirs
  induction dirs with
  | nil => simp [findLoop]
  | cons d rest ih =>
    have hiff := findIn_none_iff w (pagePath d page)
    cases hd : findIn w (pagePath d page) with
    | none =>
      have hl : lacksPage w d page := hiff.mp hd
      simp only [findLoop, page_path_eq, hd, ih, List.mem_cons, forall_eq_or_imp, hl, true_and]
    | some r =>
      have hl : ¬ lacksPage w d page := by
        intro h
        rw [hiff.mpr h] at hd
        exact Option.noConfusion hd
      have hr : r ≠ .nil := by
        intro e
        subst e
        exact findIn_ne_nil w _ hd
      simp only [findLoop, page_path_eq, hd, List.mem_cons, forall_eq_or_imp, hl, false_and,
        iff_false]
      exact hr

theorem findLoop_skip (w : World) (page : Str) (rest : List Str) :
    ∀ (pre : List Str), (∀ e ∈ pre, lacksPage w e page) →
      findLoop w page (if ¬ contains ".info".toList page then ".info".toList else [])
          (pre ++ rest) =
        findLoop w page (if ¬ contains ".info".toList page then ".info".toList else []) rest := by
  intro pre
  induction pre with
  | nil => intro _; rfl
  | cons e t ih =>
    intro h
    have he := (findIn_none_iff w (pagePath e page)).mpr (h e (List.mem_cons_self _ _))
    simp only [List.cons_append, findLoop, page_path_eq, he]
    exact ih (fun x hx => h x (List.mem_cons_of_mem _ hx))

theorem applySub_collapse (f : Str) :
    applySub sub repl f =
      collapseSpec (reMenu.replaceAllString (reNav.replaceAllString f "".toList) "".toList) := by
  rw [applySub_eq, replaceAll_newlines]

/-- C10: after the three substitution rules no run of three or more newlines
is left in a fragment: the third rule turns every maximal run of three or more
newlines that the navigation and menu removals leave into exactly two
newlines, and leaves all other text and the shorter runs as they are. -/
theorem sub_collapses_newlines (f : Str) :
    applySub sub repl f =
      collapseSpec (reMenu.replaceAllString (reNav.replaceAllString f "".toList) "".toList) ∧
    ¬ "\n\n\n".toList <:+: applySub sub repl f := by
  refine ⟨applySub_collapse f, ?_⟩
  rw [applySub_collapse f]
  exact collapseFrom_no_run _ 0

/-! ## Documents of one fragment -/

/-- C4 as amended: for a raw document without a 0x1F whose text, after the
three substitutions, matches none of the deletion patterns, `format` returns
`TrimSpace(c(m(n(raw))))` followed by one newline, `n` removing the matches of
the navigation pattern, `m` those of the menu pattern and `c` collapsing the
runs of three or more newlines. -/
theorem format_plain (w : World) (fuel : Nat) (raw : Str) (hsep : '\x1f' ∉ raw)
    (hnuke : ∀ re ∈ nuke, re.matchString (applySub sub repl raw) = false) :
    format w (fuel + 1) raw =
      .text (trimSpace (collapseSpec
        (reMenu.replaceAllString (reNav.replaceAllString raw "".toList) "".toList)) ++
        "\n".toList) := by
  rw [format_of_no_include w fuel raw (reInclude_find_none raw hsep)]
  have hsplit : split raw "\x1f".toList = [raw] := split_no_sep raw '\x1f' hsep
  rw [hsplit]
  simp only [List.map_cons, List.map_nil, join_singleton]
  unfold formatPage
  rw [applyNuke_of_no_match nuke _ hnuke, trimSpace_idem, applySub_collapse raw]

/-- C4 as amended, on the document `"a\n\n\n\nb"`. -/
theorem format_plain_witness :
    '\x1f' ∉ "a\n\n\n\nb".toList ∧
    (∀ re ∈ nuke, re.matchString (applySub sub repl "a\n\n\n\nb".toList) = false) ∧
    format emptyWorld 1 "a\n\n\n\nb".toList =
      .text (trimSpace (collapseSpec (reMenu.replaceAllString
        (reNav.replaceAllString "a\n\n\n\nb".toList "".toList) "".toList)) ++ "\n".toList) :=
  ⟨by decide, by decide, format_plain emptyWorld 0 "a\n\n\n\nb".toList (by decide) (by decide)⟩

/-- C4 as stated fails: the raw text `"File: a.info,  Node: b\nTag Table:\n"`
has no 0x1F and matches none of the deletion patterns, yet `format` returns
`"\n"` and not `TrimSpace(c(m(n(raw))))` with a newline, `"Tag Table:\n"`: the
deletion patterns are tried on the text the substitutions have left. -/
theorem format_plain_counterexample :
    '\x1f' ∉ "File: a.info,  Node: b\nTag Table:\n".toList ∧
    (∀ re ∈ nuke, re.matchString "File: a.info,  Node: b\nTag Table:\n".toList = false) ∧
    format emptyWorld 1 "File: a.info,  Node: b\nTag Table:\n".toList = .text "\n".toList ∧
    trimSpace (reNewlines.replaceAllString (reMenu.replaceAllString
      (reNav.replaceAllString "File: a.info,  Node: b\nTag Table:\n".toList "".toList)
      "".toList) "\n\n".toList) ++ "\n".toList = "Tag Table:\n".toList ∧
    format emptyWorld 1 "File: a.info,  Node: b\nTag Table:\n".toList ≠
      .text (trimSpace (reNewlines.replaceAllString (reMenu.replaceAllString
        (reNav.replaceAllString "File: a.info,  Node: b\nTag Table:\n".toList "".toList)
        "".toList) "\n\n".toList) ++ "\n".toList) :=
  ⟨by decide, by decide, by decide, by decide, by decide⟩

/-! ## Documents without an indirect block -/

/-- C5 as amended: for a raw document in which no indirect block is found,
`format` returns the processed fragments from the first non-empty one to the
last non-empty one, in their order, joined with `"\n\n"` and followed by one
newline: the fragments that are empty after processing contribute nothing
before the first and after the last surviving fragment, and one between two
surviving fragments is joined like any other, which leaves a further `"\n\n"`. -/
theorem format_fragments (w : World) (fuel : Nat) (raw : Str)
    (hno : reInclude.find raw = none) :
    format w (fuel + 1) raw =
      .text (join (dropEmpty ((split raw "\x1f".toList).map formatPage)) "\n\n".toList ++
        "\n".toList) := by
  rw [format_of_no_include w fuel raw hno, trimSpace_join _ _ (by decide)]
  intro p hp
  obtain ⟨q, _, hq⟩ := List.mem_map.mp hp
  rw [← hq]
  exact formatPage_tight q

/-- C5 as amended, on `"\x1fa\x1f\x1fb\x1f"`: the empty fragments at both
ends leave nothing, the one between `a` and `b` leaves a second `"\n\n"`. -/
theorem format_fragments_witness :
    reInclude.find "\x1fa\x1f\x1fb\x1f".toList = none ∧
    format emptyWorld 1 "\x1fa\x1f\x1fb\x1f".toList =
      .text (join (dropEmpty ((split "\x1fa\x1f\x1fb\x1f".toList "\x1f".toList).map formatPage))
        "\n\n".toList ++ "\n".toList) ∧
    join (dropEmpty ((split "\x1fa\x1f\x1fb\x1f".toList "\x1f".toList).map formatPage))
        "\n\n".toList ++ "\n".toList = "a\n\n\n\nb\n".toList :=
  ⟨by decide, format_fragments emptyWorld 0 "\x1fa\x1f\x1fb\x1f".toList (by decide), by decide⟩

/-- C5 as stated fails: on `"a\x1f\x1fb"`, which has no indirect block, the
surviving fragments are `a` and `b`, and `format` returns `"a\n\n\n\nb\n"`,
not the survivors joined with one `"\n\n"`, `"a\n\nb\n"`. -/
theorem format_fragments_counterexample :
    reInclude.find "a\x1f\x1fb".toList = none ∧
    survivors "a\x1f\x1fb".toList = ["a".toList, "b".toList] ∧
    format emptyWorld 1 "a\x1f\x1fb".toList = .text "a\n\n\n\nb\n".toList ∧
    format emptyWorld 1 "a\x1f\x1fb".toList ≠
      .text (join (survivors "a\x1f\x1fb".toList) "\n\n".toList ++ "\n".toList) :=
  ⟨by decide, by decide, by decide, by decide⟩

/-! ## Idempotence -/

theorem format_output_no_sep (raw : Str) :
    '\x1f' ∉ trimSpace (join ((split raw "\x1f".toList).map formatPage) "\n\n".toList) ++
      "\n".toList := by
  intro hc
  rcases List.mem_append.mp hc with hc | hc
  · have h1 := trimSpace_sublist _ _ hc
    rcases join_chars _ _ _ h1 with h | ⟨p, hp, hcp⟩
    · revert h; decide
    · obtain ⟨q, hq, hqp⟩ := List.mem_map.mp hp
      rw [← hqp] at hcp
      rcases formatPage_chars q _ hcp with h | h
      · exact split_pieces raw '\x1f' q hq h
      · revert h; decide
  · revert hc; decide

/-- C6 as amended: for every raw input `x` in which no indirect block is found
and whose output `format(x)` contains no match of any of the three
substitution patterns and of none of the deletion patterns, normalising the
output again changes nothing. -/
theorem format_idempotent (w : World) (fuel fuel2 : Nat) (x y : Str)
    (hno : reInclude.find x = none) (hx : format w (fuel + 1) x = .text y)
    (hsub : ∀ re ∈ sub, re.matchString y = false)
    (hnuke : ∀ re ∈ nuke, re.matchString y = false) :
    format w (fuel2 + 1) y = .text y := by
  rw [format_of_no_include w fuel x hno] at hx
  have hy : y = trimSpace (join ((split x "\x1f".toList).map formatPage) "\n\n".toList) ++
      "\n".toList := (Outcome.text.inj hx).symm
  have hsep : '\x1f' ∉ y := by rw [hy]; exact format_output_no_sep x
  rw [format_of_no_include w fuel2 y (reInclude_find_none y hsep)]
  have hsplit : split y "\x1f".toList = [y] := split_no_sep y '\x1f' hsep
  rw [hsplit]
  simp only [List.map_cons, List.map_nil, join_singleton]
  unfold formatPage
  rw [applySub_of_no_match y hsub, applyNuke_of_no_match nuke y hnuke, trimSpace_idem]
  have ht : trimSpace y =
      trimSpace (join ((split x "\x1f".toList).map formatPage) "\n\n".toList) := by
    have := trimSpace_around [] _ "\n".toList (by simp) (by decide)
      (trimSpace_tight (join ((split x "\x1f".toList).map formatPage) "\n\n".toList))
    rw [hy]
    simpa using this
  rw [ht, ← hy]

/-- C6 as amended, on `"a\n\n\n\nb"`, whose output is `"a\n\nb\n"`. -/
theorem format_idempotent_witness :
    reInclude.find "a\n\n\n\nb".toList = none ∧
    format emptyWorld 1 "a\n\n\n\nb".toList = .text "a\n\nb\n".toList ∧
    (∀ re ∈ sub, re.matchString "a\n\nb\n".toList = false) ∧
    (∀ re ∈ nuke, re.matchString "a\n\nb\n".toList = false) ∧
    format emptyWorld 1 "a\n\nb\n".toList = .text "a\n\nb\n".toList :=
  ⟨by decide, by decide, by decide, by decide,
    format_idempotent emptyWorld 0 0 "a\n\n\n\nb".toList "a\n\nb\n".toList (by decide)
      (by decide) (by decide) (by decide)⟩

/-- C6 as stated fails: `"Tag Table:"` has no indirect block, its output
`"Tag Table:\n"` contains no match of the three substitution patterns, and
normalising that output again gives `"\n"`: the newline `format` appends
completes the deletion pattern `^\s*Tag Table:\n`. -/
theorem format_idempotent_counterexample :
    reInclude.find "Tag Table:".toList = none ∧
    format emptyWorld 1 "Tag Table:".toList = .text "Tag Table:\n".toList ∧
    (∀ re ∈ sub, re.matchString "Tag Table:\n".toList = false) ∧
    format emptyWorld 1 "Tag Table:\n".toList = .text "\n".toList ∧
    format emptyWorld 1 "Tag Table:\n".toList ≠ format emptyWorld 1 "Tag Table:".toList :=
  ⟨by decide, by decide, by decide, by decide, by decide⟩

/-- C9 as amended: for every fragment `f` such that `R(f)` contains no match of
the three substitution patterns, applying the ordered rule list a second time
changes nothing, `R(R(f)) = R(f)`. -/
theorem rules_idempotent (f : Str)
    (h : ∀ re ∈ sub, re.matchString (applyRules f) = false) :
    applyRules (applyRules f) = applyRules f := by
  have h1 : applySub sub repl (applyRules f) = applyRules f := applySub_of_no_match _ h
  show applyNuke nuke (applySub sub repl (applyRules f)) = applyRules f
  rw [h1]
  show applyNuke nuke (applyNuke nuke (applySub sub repl f)) =
    applyNuke nuke (applySub sub repl f)
  rcases applyNuke_cases (applySub sub repl f) with e | e
  · rw [e, e]
  · rw [e]
    exact applyNuke_nil nuke nuke_not_nil

/-- C9 as amended, on the fragment `"x\n\n\n\ny"`. -/
theorem rules_idempotent_witness :
    (∀ re ∈ sub, re.matchString (applyRules "x\n\n\n\ny".toList) = false) ∧
    applyRules (applyRules "x\n\n\n\ny".toList) = applyRules "x\n\n\n\ny".toList :=
  ⟨by decide, rules_idempotent "x\n\n\n\ny".toList (by decide)⟩

/-- C9 as stated fails: on two navigation lines in a row the first pass
removes the first line with the newline before it, which leaves the second
line at the start of the text, where the second pass removes it. -/
theorem rules_idempotent_counterexample :
    applyRules "\nFile: a.info,  Node: b\nFile: a.info,  Node: c\nx".toList =
      "File: a.info,  Node: c\nx".toList ∧
    applyRules (applyRules "\nFile: a.info,  Node: b\nFile: a.info,  Node: c\nx".toList) =
      "x".toList ∧
    applyRules (applyRules "\nFile: a.info,  Node: b\nFile: a.info,  Node: c\nx".toList) ≠
      applyRules "\nFile: a.info,  Node: b\nFile: a.info,  Node: c\nx".toList :=
  ⟨by decide, by decide, by decide⟩

/-! ## Which ends a match has -/

theorem mem_ends_seq (a b : Re) (n : Nat) (s r : Str) :
    r ∈ (Re.seq a b).ends n s ↔ ∃ m, m ∈ a.ends n s ∧ r ∈ b.ends n m := by
  rw [ends_seq, List.mem_flatMap]

theorem mem_ends_chr (p : Char → Bool) (n : Nat) (s r : Str) :
    r ∈ (Re.chr p).ends n s ↔ ∃ c, s = c :: r ∧ p c = true := by
  cases s with
  | nil => simp [Re.ends]
  | cons d t =>
    rw [ends_chr_cons]
    by_cases hp : p d = true
    · simp only [hp, if_true, List.mem_singleton]
      constructor
      · intro h; exact ⟨d, by rw [h], hp⟩
      · rintro ⟨c, hc, _⟩; exact (List.cons.inj hc).2.symm
    · simp only [hp]
      constructor
      · intro h; simp at h
      · rintro ⟨c, hc, hpc⟩
        rw [(List.cons.inj hc).1] at hp
        exact absurd hpc hp

theorem mem_ends_lit (l : Str) (n : Nat) (s r : Str) :
    r ∈ (Re.lit l).ends n s ↔ s = l ++ r := by
  constructor
  · exact ends_lit_mem l n s r
  · intro h; rw [h, ends_lit_append]; exact List.mem_singleton.mpr rfl

theorem mem_ends_star_self (g : Bool) (a : Re) (n : Nat) (s : Str) :
    s ∈ (Re.star g a).ends n s := by
  rw [ends_star]
  cases g <;> simp

theorem mem_ends_star_step (g : Bool) (a : Re) (n : Nat) (s m r : Str)
    (hm : m ∈ a.ends n s) (hlt : m.length < s.length) (hr : r ∈ (Re.star g a).ends n m) :
    r ∈ (Re.star g a).ends n s := by
  rw [ends_star]
  have : r ∈ ((a.ends n s).filter (fun r => decide (r.length < s.length))).flatMap
      ((Re.star g a).ends n) :=
    List.mem_flatMap.mpr ⟨m, List.mem_filter.mpr ⟨hm, by simpa using hlt⟩, hr⟩
  cases g
  · simp only [Bool.false_eq_true, if_false]
    exact List.mem_cons_of_mem _ this
  · simp only [if_true]
    exact List.mem_append_left _ this

theorem mem_ends_star_cases (g : Bool) (a : Re) (n : Nat) (s r : Str)
    (h : r ∈ (Re.star g a).ends n s) :
    r = s ∨ ∃ m, m ∈ a.ends n s ∧ m.length < s.length ∧ r ∈ (Re.star g a).ends n m := by
  rw [ends_star] at h
  have hmore : r ∈ ((a.ends n s).filter (fun r => decide (r.length < s.length))).flatMap
      ((Re.star g a).ends n) →
      ∃ m, m ∈ a.ends n s ∧ m.length < s.length ∧ r ∈ (Re.star g a).ends n m := by
    intro h
    obtain ⟨m, hm, hr⟩ := List.mem_flatMap.mp h
    have := List.mem_filter.mp hm
    exact ⟨m, this.1, by simpa using this.2, hr⟩
  cases g
  · simp only [Bool.false_eq_true, if_false, List.mem_cons] at h
    rcases h with h | h
    · exact Or.inl h
    · exact Or.inr (hmore h)
  · simp only [if_true, List.mem_append, List.mem_singleton] at h
    rcases h with h | h
    · exact Or.inr (hmore h)
    · exact Or.inl h

/-- A star over a class can take any run of characters of the class. -/
theorem mem_ends_star_run (g : Bool) (p : Char → Bool) (n : Nat) (r : Str) :
    ∀ (l : Str), (∀ c ∈ l, p c = true) → r ∈ (Re.star g (Re.chr p)).ends n (l ++ r) := by
  intro l
  induction l with
  | nil => intro _; exact mem_ends_star_self g _ n r
  | cons c t ih =>
    intro h
    apply mem_ends_star_step g _ n _ (t ++ r)
    · rw [List.cons_append, ends_chr_cons, h c (List.mem_cons_self _ _)]
      exact List.mem_singleton.mpr rfl
    · simp
    · exact ih (fun d hd => h d (List.mem_cons_of_mem _ hd))

/-- A star over a class takes nothing but a run of characters of the class. -/
theorem mem_ends_star_class (g : Bool) (p : Char → Bool) (n : Nat) :
    ∀ (k : Nat) (s r : Str), s.length ≤ k → r ∈ (Re.star g (Re.chr p)).ends n s →
      ∃ l, s = l ++ r ∧ ∀ c ∈ l, p c = true := by
  intro k
  induction k with
  | zero =>
    intro s r hs h
    have hnil : s = [] := List.length_eq_zero.mp (Nat.le_zero.mp hs)
    subst hnil
    rcases mem_ends_star_cases g _ n [] r h with h | ⟨m, _, hlt, _⟩
    · exact ⟨[], by rw [h]; rfl, by simp⟩
    · simp at hlt
  | succ k ih =>
    intro s r hs h
    rcases mem_ends_star_cases g _ n s r h with h | ⟨m, hm, hlt, hr⟩
    · exact ⟨[], by rw [h]; rfl, by simp⟩
    · obtain ⟨c, hc, hpc⟩ := (mem_ends_chr p n s m).mp hm
      obtain ⟨l, hl, hall⟩ := ih m r (by omega) hr
      refine ⟨c :: l, by rw [hc, hl]; rfl, ?_⟩
      intro d hd
      rcases List.mem_cons.mp hd with e | e
      · rw [e]; exact hpc
      · exact hall d e

theorem mem_ends_plus_run (p : Char → Bool) (n : Nat) (r l : Str) (hne : l ≠ [])
    (h : ∀ c ∈ l, p c = true) : r ∈ (Re.plus (Re.chr p)).ends n (l ++ r) := by
  cases l with
  | nil => exact absurd rfl hne
  | cons c t =>
    refine (mem_ends_seq _ _ n _ r).mpr ⟨t ++ r, ?_, ?_⟩
    · rw [List.cons_append, ends_chr_cons, h c (List.mem_cons_self _ _)]
      exact List.mem_singleton.mpr rfl
    · exact mem_ends_star_run true p n r t (fun d hd => h d (List.mem_cons_of_mem _ hd))

theorem mem_ends_times_char (c : Char) (n : Nat) (r : Str) :
    ∀ (k : Nat), r ∈ (Re.times k (Re.lit [c])).ends n (List.replicate k c ++ r) := by
  intro k
  induction k with
  | zero => exact List.mem_singleton.mpr rfl
  | succ j ih =>
    refine (mem_ends_seq _ _ n _ r).mpr ⟨List.replicate j c ++ r, ?_, ih⟩
    rw [List.replicate_succ, List.cons_append]
    exact (mem_ends_lit [c] n _ _).mpr rfl

theorem mem_ends_star_char (c : Char) (n : Nat) (r : Str) :
    ∀ (k : Nat), r ∈ (Re.star true (Re.lit [c])).ends n (List.replicate k c ++ r) := by
  intro k
  induction k with
  | zero => exact mem_ends_star_self true _ n r
  | succ j ih =>
    apply mem_ends_star_step true _ n _ (List.replicate j c ++ r)
    · rw [List.replicate_succ, List.cons_append]
      exact (mem_ends_lit [c] n _ _).mpr rfl
    · simp
    · exact ih

theorem mem_ends_atLeast_char (c : Char) (n : Nat) (r : Str) (k j : Nat) (h : k ≤ j) :
    r ∈ (Re.atLeast k (Re.lit [c])).ends n (List.replicate j c ++ r) := by
  obtain ⟨e, rfl⟩ : ∃ e, j = k + e := ⟨j - k, by omega⟩
  refine (mem_ends_seq _ _ n _ r).mpr ⟨List.replicate e c ++ r, ?_, mem_ends_star_char c n r e⟩
  rw [List.replicate_add, List.append_assoc]
  exact mem_ends_times_char c n _ k

/-- A match at the start of the text makes `MatchString` true. -/
theorem matchString_of_mem (re : Re) (s r : Str) (h : r ∈ re.ends s.length s) :
    re.matchString s = true := by
  cases he : re.ends s.length s with
  | nil => rw [he] at h; simp at h
  | cons e es => simp [Re.matchString, search_of_ends re s.length s e es he]

/-! ## The pattern of the copying section -/

/-- The pattern `^\s*\d+ Copying\n\*{9,}\n\n` matches every text that starts
with digits, `" Copying\n"`, nine or more `*` and an empty line. -/
theorem reCopying_matches (digits rest : Str) (k : Nat) (hne : digits ≠ [])
    (hdigits : ∀ c ∈ digits, isDigit c = true) (hk : 9 ≤ k) :
    reCopying.matchString
      (digits ++ " Copying\n".toList ++ List.replicate k '*' ++ "\n\n".toList ++ rest) = true := by
  apply matchString_of_mem reCopying _ rest
  generalize hn : (digits ++ " Copying\n".toList ++ List.replicate k '*' ++ "\n\n".toList ++
    rest).length = n
  have hS : digits ++ " Copying\n".toList ++ List.replicate k '*' ++ "\n\n".toList ++ rest =
      digits ++ (" Copying\n".toList ++ (List.replicate k '*' ++ ("\n\n".toList ++ rest))) := by
    simp only [List.append_assoc]
  rw [hS] at hn ⊢
  show rest ∈ (Re.seq Re.bol (Re.seq (Re.star true (Re.chr isReSpace))
    (Re.seq (Re.plus (Re.chr isDigit)) (Re.seq (Re.lit " Copying\n".toList)
      (Re.seq (Re.atLeast 9 (Re.lit ['*'])) (Re.lit "\n\n".toList)))))).ends n _
  refine (mem_ends_seq _ _ n _ _).mpr
    ⟨digits ++ (" Copying\n".toList ++ (List.replicate k '*' ++ ("\n\n".toList ++ rest))), ?_, ?_⟩
  · show _ ∈ (if _ = n then [_] else [])
    rw [if_pos hn]
    exact List.mem_singleton.mpr rfl
  refine (mem_ends_seq _ _ n _ _).mpr
    ⟨digits ++ (" Copying\n".toList ++ (List.replicate k '*' ++ ("\n\n".toList ++ rest))),
      mem_ends_star_self true _ n _, ?_⟩
  refine (mem_ends_seq _ _ n _ _).mpr
    ⟨" Copying\n".toList ++ (List.replicate k '*' ++ ("\n\n".toList ++ rest)),
      mem_ends_plus_run isDigit n _ digits hne hdigits, ?_⟩
  refine (mem_ends_seq _ _ n _ _).mpr
    ⟨List.replicate k '*' ++ ("\n\n".toList ++ rest), (mem_ends_lit _ n _ _).mpr rfl, ?_⟩
  exact (mem_ends_seq _ _ n _ _).mpr
    ⟨"\n\n".toList ++ rest, mem_ends_atLeast_char '*' n _ 9 k hk, (mem_ends_lit _ n _ _).mpr rfl⟩

/-! ## The copying section -/

theorem formatPage_nil : formatPage [] = [] := by decide

/-- A fragment that the substitutions leave with the header of a copying
section is emptied. -/
theorem formatPage_copying (f digits rest : Str) (k : Nat) (hne : digits ≠ [])
    (hdigits : ∀ c ∈ digits, isDigit c = true) (hk : 9 ≤ k)
    (hf : applySub sub repl f =
      digits ++ " Copying\n".toList ++ List.replicate k '*' ++ "\n\n".toList ++ rest) :
    formatPage f = [] := by
  unfold formatPage
  rw [hf, applyNuke_of_match nuke _ nuke_not_nil
    ⟨reCopying, by simp [nuke], reCopying_matches digits rest k hne hdigits hk⟩]
  rfl

/-- C3 as amended: a fragment (text between 0x1F delimiters) whose text, after
the three substitutions, starts with one or more digits, `" Copying\n"`, nine
or more `*` and `"\n\n"` is discarded whole, whatever follows that header: on
documents in which the same first indirect block, or none, is found with the
fragment and with the empty fragment in its place, the output of `format` is
the same, and a document made of only such a fragment yields `"\n"`. -/
theorem copying_fragment_dropped (w : World) (fuel : Nat) (before after : List Str)
    (f digits rest : Str) (k : Nat)
    (hfrag : ∀ p ∈ before ++ f :: after, '\x1f' ∉ p)
    (hne : digits ≠ []) (hdigits : ∀ c ∈ digits, isDigit c = true) (hk : 9 ≤ k)
    (hf : applySub sub repl f =
      digits ++ " Copying\n".toList ++ List.replicate k '*' ++ "\n\n".toList ++ rest) :
    (reInclude.find (join (before ++ f :: after) "\x1f".toList) =
        reInclude.find (join (before ++ [] :: after) "\x1f".toList) →
      format w fuel (join (before ++ f :: after) "\x1f".toList) =
        format w fuel (join (before ++ [] :: after) "\x1f".toList)) ∧
    format w (fuel + 1) f = .text "\n".toList := by
  have hpage := formatPage_copying f digits rest k hne hdigits hk hf
  constructor
  · intro hind
    cases fuel with
    | zero => rfl
    | succ n =>
      have h1 : split (join (before ++ f :: after) "\x1f".toList) "\x1f".toList =
          before ++ f :: after := split_join '\x1f' _ (by simp) hfrag
      have h2 : split (join (before ++ [] :: after) "\x1f".toList) "\x1f".toList =
          before ++ [] :: after := by
        apply split_join '\x1f' _ (by simp)
        intro p hp
        rcases List.mem_append.mp hp with h | h
        · exact hfrag p (List.mem_append_left _ h)
        · rcases List.mem_cons.mp h with h | h
          · rw [h]; simp
          · exact hfrag p (List.mem_append_right _ (List.mem_cons_of_mem _ h))
      have hload : loadIncluded w (format w n) (join (before ++ f :: after) "\x1f".toList) =
          loadIncluded w (format w n) (join (before ++ [] :: after) "\x1f".toList) := by
        unfold loadIncluded
        rw [hind]
      show assemble _ (loadIncluded w (format w n) _) = assemble _ (loadIncluded w (format w n) _)
      rw [hload]
      cases loadIncluded w (format w n) (join (before ++ [] :: after) "\x1f".toList) with
      | text subpages =>
        simp only [assemble, h1, h2, List.map_append, List.map_cons, hpage, formatPage_nil]
      | exit => rfl
      | unfinished => rfl
  · have hsep : '\x1f' ∉ f := hfrag f (by simp)
    have hsplit : split f "\x1f".toList = [f] := split_no_sep f '\x1f' hsep
    rw [format_of_no_include w fuel f (reInclude_find_none f hsep), hsplit]
    simp only [List.map_cons, List.map_nil, join_singleton, hpage]
    rfl

/-- C3 as amended, on the document `intro`, copying section, `end`. -/
theorem copying_fragment_dropped_witness :
    (∀ p ∈ ["intro".toList] ++ "1 Copying\n*********\n\nYou may copy.".toList :: ["end".toList],
      '\x1f' ∉ p) ∧
    applySub sub repl "1 Copying\n*********\n\nYou may copy.".toList =
      "1".toList ++ " Copying\n".toList ++ List.replicate 9 '*' ++ "\n\n".toList ++
        "You may copy.".toList ∧
    format emptyWorld 1 (join (["intro".toList] ++
        "1 Copying\n*********\n\nYou may copy.".toList :: ["end".toList]) "\x1f".toList) =
      format emptyWorld 1 (join (["intro".toList] ++ [] :: ["end".toList]) "\x1f".toList) ∧
    format emptyWorld 1 "1 Copying\n*********\n\nYou may copy.".toList = .text "\n".toList :=
  ⟨by decide, by decide,
    (copying_fragment_dropped emptyWorld 1 ["intro".toList] ["end".toList]
      "1 Copying\n*********\n\nYou may copy.".toList "1".toList "You may copy.".toList 9
      (by decide) (by decide) (by decide) (by decide) (by decide)).1 (by decide),
    (copying_fragment_dropped emptyWorld 0 ["intro".toList] ["end".toList]
      "1 Copying\n*********\n\nYou may copy.".toList "1".toList "You may copy.".toList 9
      (by decide) (by decide) (by decide) (by decide) (by decide)).2⟩

/-- C3 as stated fails.  A fragment whose raw text starts with the header and
goes on with a navigation line is not discarded: the substitution takes the
second newline of the header away with the navigation line, and the deletion
pattern no longer matches.  And between the fragments `"\nIndirect:\nabc"` and
`"def: 1\n"` the copying fragment keeps the pattern of the indirect block from
matching, while the empty fragment in its place lets it match. -/
theorem copying_fragment_counterexample :
    "1 Copying\n*********\n\nFile: a.info,  Node: b\nrest".toList =
      "1".toList ++ " Copying\n".toList ++ List.replicate 9 '*' ++ "\n\n".toList ++
        "File: a.info,  Node: b\nrest".toList ∧
    format emptyWorld 1 "1 Copying\n*********\n\nFile: a.info,  Node: b\nrest".toList =
      .text "1 Copying\n*********\nrest\n".toList ∧
    format emptyWorld 1 "1 Copying\n*********\n\nFile: a.info,  Node: b\nrest".toList ≠
      format emptyWorld 1 "".toList ∧
    format emptyWorld 2
        "\x1f\nIndirect:\nabc\x1f1 Copying\n*********\n\n\x1fdef: 1\n\x1f".toList =
      .text "Indirect:\nabc\n\n\n\ndef: 1\n".toList ∧
    format emptyWorld 2 "\x1f\nIndirect:\nabc\x1f\x1fdef: 1\n\x1f".toList = .exit ∧
    format emptyWorld 2
        "\x1f\nIndirect:\nabc\x1f1 Copying\n*********\n\n\x1fdef: 1\n\x1f".toList ≠
      format emptyWorld 2 "\x1f\nIndirect:\nabc\x1f\x1fdef: 1\n\x1f".toList :=
  ⟨by decide, by decide, by decide, by decide, by decide, by decide⟩

/-! ## The pattern of the indirect block -/

theorem isDigit_ne_newline (c : Char) (h : isDigit c = true) : c ≠ '\n' := by
  intro e; subst e; revert h; decide

theorem isDigit_ne_colon (c : Char) (h : isDigit c = true) : c ≠ ':' := by
  intro e; subst e; revert h; decide

theorem isDigit_ne_sep (c : Char) (h : isDigit c = true) : c ≠ '\x1f' := by
  intro e; subst e; revert h; decide

theorem isDot_of_ne (c : Char) (h : c ≠ '\n') : isDot c = true := by
  simp [isDot, h]

/-- After the digits of an offset the greedy `\d+` must give way to `\n`
exactly at the end of the digits. -/
theorem ends_digits_newline (n : Nat) (t : Str) :
    ∀ (ds : Str), (∀ c ∈ ds, isDigit c = true) →
      ((Re.star true (Re.chr isDigit)).ends n (ds ++ '\n' :: t)).flatMap
        (fun r => (Re.lit ['\n']).ends n r) = [t] := by
  intro ds
  induction ds with
  | nil =>
    intro _
    rw [ends_star]
    simp only [List.nil_append, ends_chr_cons, if_true]
    have : isDigit '\n' = false := by decide
    simp [this, ends_newline_cons]
  | cons d u ih =>
    intro h
    have hd := h d (List.mem_cons_self _ _)
    rw [ends_star]
    simp only [List.cons_append, ends_chr_cons, hd, if_true]
    have hne : (Re.lit ['\n']).ends n (d :: (u ++ '\n' :: t)) = [] :=
      ends_newline_other n _ (fun v hv => isDigit_ne_newline d hd (List.cons.inj hv).1)
    simp [ih (fun c hc => h c (List.mem_cons_of_mem _ hc)), hne]

/-- The part `: \d+\n` of a line of an indirect block. -/
theorem ends_offset (n : Nat) (ds t : Str) (hne : ds ≠ [])
    (hds : ∀ c ∈ ds, isDigit c = true) :
    (Re.seq (Re.lit [':', ' ']) (Re.seq (Re.plus (Re.chr isDigit)) (Re.lit ['\n']))).ends n
      (':' :: ' ' :: (ds ++ '\n' :: t)) = [t] := by
  cases ds with
  | nil => exact absurd rfl hne
  | cons d u =>
    have hd := hds d (List.mem_cons_self _ _)
    rw [ends_seq, show (':' :: ' ' :: (d :: u ++ '\n' :: t)) = [':', ' '] ++ (d :: u ++ '\n' :: t)
      from rfl, ends_lit_append]
    simp only [List.flatMap_cons, List.flatMap_nil, List.append_nil]
    show ((((Re.chr isDigit).ends n (d :: (u ++ '\n' :: t))).flatMap
      fun r => (Re.star true (Re.chr isDigit)).ends n r).flatMap
        fun r => (Re.lit ['\n']).ends n r) = [t]
    rw [ends_chr_cons, hd]
    simp only [if_true, List.flatMap_cons, List.flatMap_nil, List.append_nil]
    exact ends_digits_newline n t u (fun c hc => hds c (List.mem_cons_of_mem _ hc))

theorem ends_offset_other (n : Nat) (c : Char) (u : Str) (hc : c ≠ ':') :
    (Re.seq (Re.lit [':', ' ']) (Re.seq (Re.plus (Re.chr isDigit)) (Re.lit ['\n']))).ends n
      (c :: u) = [] := by
  rw [ends_seq, ends_lit_of_mismatch]
  · rfl
  · rintro ⟨v, hv⟩
    exact hc (List.cons.inj hv).1.symm

/-- The lazy `.+?` passes over characters that are neither a colon nor a
newline without offering a place for `: \d+\n`. -/
theorem ends_lazy_dot_skip (n : Nat) (v : Str) :
    ∀ (u : Str), (∀ c ∈ u, c ≠ '\n' ∧ c ≠ ':') →
      ((Re.star false (Re.chr isDot)).ends n (u ++ v)).flatMap
        (fun r => (Re.seq (Re.lit [':', ' '])
          (Re.seq (Re.plus (Re.chr isDigit)) (Re.lit ['\n']))).ends n r) =
      ((Re.star false (Re.chr isDot)).ends n v).flatMap
        (fun r => (Re.seq (Re.lit [':', ' '])
          (Re.seq (Re.plus (Re.chr isDigit)) (Re.lit ['\n']))).ends n r) := by
  intro u
  induction u with
  | nil => intro _; rfl
  | cons c w ih =>
    intro h
    have hc := h c (List.mem_cons_self _ _)
    rw [ends_star]
    simp only [Bool.false_eq_true, if_false, List.cons_append, ends_chr_cons,
      isDot_of_ne c hc.1, if_true, List.flatMap_cons, ends_offset_other n c _ hc.2,
      List.nil_append]
    have hfil : List.filter (fun r => decide (r.length < (c :: (w ++ v)).length)) [w ++ v] =
        [w ++ v] := by simp
    rw [hfil]
    simp only [List.flatMap_cons, List.flatMap_nil, List.append_nil]
    exact ih (fun d hd => h d (List.mem_cons_of_mem _ hd))

/-- One line `<name>: <offset>\n` of an indirect block is matched by the
pattern of a line in one way only. -/
theorem ends_reIndirectLine (n : Nat) (e : Entry) (he : e.WellFormed) (t : Str) :
    reIndirectLine.ends n (indirectLine e ++ '\n' :: t) = [t] := by
  obtain ⟨name, ds⟩ := e
  obtain ⟨hne, hname, hdne, hds⟩ := he
  simp only at hne hname hdne hds
  cases name with
  | nil => exact absurd rfl hne
  | cons c w =>
    have hc := hname c (List.mem_cons_self _ _)
    have hw : ∀ d ∈ w, d ≠ '\n' ∧ d ≠ ':' :=
      fun d hd => ⟨(hname d (List.mem_cons_of_mem _ hd)).1, (hname d (List.mem_cons_of_mem _ hd)).2.1⟩
    have htext : indirectLine (c :: w, ds) ++ '\n' :: t =
        c :: (w ++ (':' :: ' ' :: (ds ++ '\n' :: t))) := by
      simp [indirectLine]
    rw [htext]
    show ((((Re.chr isDot).ends n (c :: (w ++ (':' :: ' ' :: (ds ++ '\n' :: t))))).flatMap
      fun r => (Re.star false (Re.chr isDot)).ends n r).flatMap
        fun r => (Re.seq (Re.lit [':', ' '])
          (Re.seq (Re.plus (Re.chr isDigit)) (Re.lit ['\n']))).ends n r) = [t]
    rw [ends_chr_cons, isDot_of_ne c hc.1]
    simp only [if_true, List.flatMap_cons, List.flatMap_nil, List.append_nil]
    rw [ends_lazy_dot_skip n _ w hw, ends_star]
    simp only [Bool.false_eq_true, if_false, ends_chr_cons, isDot_of_ne ':' (by decide), if_true,
      List.flatMap_cons, ends_offset n ds t hdne hds]
    have hfil : List.filter
        (fun r => decide (r.length < (':' :: ' ' :: (ds ++ '\n' :: t)).length))
        [' ' :: (ds ++ '\n' :: t)] = [' ' :: (ds ++ '\n' :: t)] := by simp
    rw [hfil]
    simp only [List.flatMap_cons, List.flatMap_nil, List.append_nil]
    have hsp : ∀ d ∈ ' ' :: ds, d ≠ '\n' ∧ d ≠ ':' := by
      intro d hd
      rcases List.mem_cons.mp hd with e | e
      · rw [e]; decide
      · exact ⟨isDigit_ne_newline d (hds d e), isDigit_ne_colon d (hds d e)⟩
    have := ends_lazy_dot_skip n ('\n' :: t) (' ' :: ds) hsp
    rw [List.cons_append] at this
    rw [this, ends_star]
    have hnl : isDot '\n' = false := by decide
    simp [ends_chr_cons, hnl, ends_offset_other n '\n' t (by decide)]

/-! ## The indirect block as a whole -/

theorem indirectLines_cons (e : Entry) (es : List Entry) :
    indirectLines (e :: es) = indirectLine e ++ '\n' :: indirectLines es := by
  simp [indirectLines]

theorem indirectLine_head (e : Entry) (he : e.WellFormed) :
    ∃ c t, indirectLine e = c :: t ∧ c ≠ '\n' ∧ c ≠ ':' ∧ c ≠ '\x1f' := by
  obtain ⟨name, ds⟩ := e
  obtain ⟨hne, hname, _, _⟩ := he
  simp only at hne hname
  cases name with
  | nil => exact absurd rfl hne
  | cons c w => exact ⟨c, _, rfl, hname c (List.mem_cons_self _ _)⟩

theorem indirectLine_chars (e : Entry) (he : e.WellFormed) :
    ∀ c ∈ indirectLine e, c ≠ '\n' ∧ c ≠ '\x1f' := by
  obtain ⟨name, ds⟩ := e
  obtain ⟨_, hname, _, hds⟩ := he
  simp only at hname hds
  intro c hc
  simp only [indirectLine, List.mem_append] at hc
  rcases hc with (hc | hc) | hc
  · exact ⟨(hname c hc).1, (hname c hc).2.2⟩
  · have : c = ':' ∨ c = ' ' := by simpa using hc
    rcases this with e | e <;> rw [e] <;> decide
  · exact ⟨isDigit_ne_newline c (hds c hc), isDigit_ne_sep c (hds c hc)⟩

/-- The lazy repetition of the line pattern stops before a line or takes it. -/
theorem ends_lazy_lines_cons (n : Nat) (e : Entry) (he : e.WellFormed) (r : Str) :
    (Re.star false reIndirectLine).ends n (indirectLine e ++ '\n' :: r) =
      (indirectLine e ++ '\n' :: r) :: (Re.star false reIndirectLine).ends n r := by
  rw [ends_star]
  simp only [Bool.false_eq_true, if_false, ends_reIndirectLine n e he r]
  have hfil : List.filter (fun x => decide (x.length < (indirectLine e ++ '\n' :: r).length)) [r] =
      [r] := by
    have : r.length < (indirectLine e ++ '\n' :: r).length := by simp; omega
    rw [List.filter_cons, if_pos (by simpa using this)]
    rfl
  rw [hfil]
  simp

/-- After the first line the lazy repetition goes on to the first place where
a 0x1F follows a line, the end of the block. -/
theorem ends_lines_then_sep (n : Nat) (p : Str) :
    ∀ (es : List Entry), (∀ e ∈ es, e.WellFormed) →
      ∃ tl, ((Re.star false reIndirectLine).ends n (indirectLines es ++ '\x1f' :: p)).flatMap
        (fun r => (Re.lit ['\x1f']).ends n r) = p :: tl := by
  intro es
  induction es with
  | nil =>
    intro _
    rw [ends_star]
    simp only [Bool.false_eq_true, if_false, List.flatMap_cons]
    have : (Re.lit ['\x1f']).ends n (indirectLines [] ++ '\x1f' :: p) = [p] :=
      ends_lit_append ['\x1f'] n p
    rw [this]
    exact ⟨_, rfl⟩
  | cons e es ih =>
    intro h
    have he := h e (List.mem_cons_self _ _)
    obtain ⟨tl, htl⟩ := ih (fun x hx => h x (List.mem_cons_of_mem _ hx))
    refine ⟨tl, ?_⟩
    rw [indirectLines_cons, List.append_assoc, List.cons_append, ends_lazy_lines_cons n e he]
    simp only [List.flatMap_cons]
    obtain ⟨c, t, hct, _, _, hc⟩ := indirectLine_head e he
    have hno : (Re.lit ['\x1f']).ends n
        (indirectLine e ++ '\n' :: (indirectLines es ++ '\x1f' :: p)) = [] := by
      apply ends_lit_of_mismatch
      rw [hct]
      rintro ⟨v, hv⟩
      exact hc (List.cons.inj hv).1.symm
    rw [hno, List.nil_append]
    exact htl

/-- At an indirect block with well-formed lines the pattern `reInclude` first
matches the block itself. -/
theorem ends_reInclude_block (n : Nat) (e : Entry) (es : List Entry)
    (h : ∀ x ∈ e :: es, x.WellFormed) (p : Str) :
    ∃ tl, reInclude.ends n (indirectBlock (e :: es) ++ p) = p :: tl := by
  have he := h e (List.mem_cons_self _ _)
  obtain ⟨tl, htl⟩ := ends_lines_then_sep n p es (fun x hx => h x (List.mem_cons_of_mem _ hx))
  refine ⟨tl, ?_⟩
  have htext : indirectBlock (e :: es) ++ p =
      "\x1f\nIndirect:\n".toList ++
        (indirectLine e ++ '\n' :: (indirectLines es ++ '\x1f' :: p)) := by
    simp [indirectBlock, indirectLines_cons]
  rw [htext]
  show ((Re.lit "\x1f\nIndirect:\n".toList).ends n _).flatMap
    (fun r => (((reIndirectLine.ends n r).flatMap
      fun r => (Re.star false reIndirectLine).ends n r).flatMap
        fun r => (Re.lit ['\x1f']).ends n r)) = _
  rw [ends_lit_append]
  simp only [List.flatMap_cons, List.flatMap_nil, List.append_nil,
    ends_reIndirectLine n e he]
  exact htl

/-- `reInclude.Find` returns the indirect block the document starts with. -/
theorem reInclude_find_block (e : Entry) (es : List Entry)
    (h : ∀ x ∈ e :: es, x.WellFormed) (p : Str) :
    reInclude.find (indirectBlock (e :: es) ++ p) = some (indirectBlock (e :: es)) := by
  obtain ⟨tl, htl⟩ := ends_reInclude_block (indirectBlock (e :: es) ++ p).length e es h p
  have hs := search_of_ends reInclude _ _ _ _ htl
  have hlen : (indirectBlock (e :: es)).length =
      (indirectBlock (e :: es) ++ p).length - p.length := by
    rw [List.length_append]; omega
  unfold Re.find
  rw [hs]
  exact congrArg some (List.take_left' hlen)

theorem splitLoop_lines :
    ∀ (es : List Entry), (∀ e ∈ es, e.WellFormed) →
      splitLoop ['\n'] 0 (indirectLines es ++ ['\x1f']) = es.map indirectLine ++ [['\x1f']] := by
  intro es
  induction es with
  | nil => intro _; decide
  | cons e es ih =>
    intro h
    have he := h e (List.mem_cons_self _ _)
    rw [indirectLines_cons, List.append_assoc, List.cons_append,
      splitLoop_single_append '\n' _ (indirectLine e)
        (fun hm => (indirectLine_chars e he _ hm).1 rfl),
      ih (fun x hx => h x (List.mem_cons_of_mem _ hx))]
    rfl

/-- The lines the loop of `format` goes through: the lines of the entries and
the closing 0x1F. -/
theorem split_block_lines (es : List Entry) (h : ∀ e ∈ es, e.WellFormed) :
    (split (indirectBlock es) "\n".toList).drop 2 = es.map indirectLine ++ [['\x1f']] := by
  have htext : indirectBlock es =
      ['\x1f'] ++ '\n' :: ("Indirect:".toList ++ '\n' :: (indirectLines es ++ ['\x1f'])) := by
    simp [indirectBlock]
  show (split (indirectBlock es) ['\n']).drop 2 = _
  rw [split_single, htext, splitLoop_single_append '\n' _ ['\x1f'] (by decide),
    splitLoop_single_append '\n' _ "Indirect:".toList (by decide), splitLoop_lines es h]
  rfl

/-- A line of an entry splits at the colon into the name and the rest. -/
theorem split_indirectLine (e : Entry) (he : e.WellFormed) :
    split (indirectLine e) ":".toList = [e.1, ' ' :: e.2] := by
  obtain ⟨name, ds⟩ := e
  obtain ⟨_, hname, _, hds⟩ := he
  simp only at hname hds
  have htext : indirectLine (name, ds) = name ++ ':' :: (' ' :: ds) := by
    simp [indirectLine]
  show split (indirectLine (name, ds)) [':'] = _
  rw [split_single, htext, splitLoop_single_append ':' _ name (fun hm => (hname _ hm).2.1 rfl),
    splitLoop_single_no_sep ':' (' ' :: ds)]
  intro hm
  rcases List.mem_cons.mp hm with e | e
  · revert e; decide
  · exact isDigit_ne_colon _ (hds _ e) rfl

/-- The loop of `format` over the lines of a well-formed block whose pages
are all found: the texts of the pages, each followed by `"\n\n"`. -/
theorem loadSubpages_found (w : World) (fmt : Str → Outcome) :
    ∀ (pages : List (Entry × Str)) (acc : Str),
      (∀ p ∈ pages, p.1.WellFormed ∧ find w p.1.1 = .reader p.2 ∧
        fmt p.2 = .text (normalized p.2)) →
      loadSubpages w fmt ((pages.map fun p => indirectLine p.1) ++ [['\x1f']]) acc =
        .text (acc ++ (pages.map fun p => normalized p.2 ++ "\n\n".toList).flatten) := by
  intro pages
  induction pages with
  | nil =>
    intro acc _
    have hsp : split ['\x1f'] ":".toList = [['\x1f']] := by decide
    show loadSubpages w fmt [['\x1f']] acc = _
    rw [loadSubpages, hsp]
    simp [loadSubpages]
  | cons p ps ih =>
    intro acc h
    obtain ⟨hwf, hfind, hfmt⟩ := h p (List.mem_cons_self _ _)
    rw [List.map_cons, List.cons_append, loadSubpages, split_indirectLine p.1 hwf]
    simp only [hfind, hfmt]
    rw [ih _ (fun q hq => h q (List.mem_cons_of_mem _ hq))]
    simp [List.append_assoc]

/-- The fragments of a document that starts with a well-formed block: the
empty text before the block, the block without its delimiters, and the
fragments of what follows. -/
theorem split_block_document (es : List Entry) (h : ∀ e ∈ es, e.WellFormed) (p : Str) :
    split (indirectBlock es ++ p) "\x1f".toList =
      [] :: ("\nIndirect:\n".toList ++ indirectLines es) :: split p "\x1f".toList := by
  have htext : indirectBlock es ++ p =
      [] ++ '\x1f' :: (("\nIndirect:\n".toList ++ indirectLines es) ++ '\x1f' :: p) := by
    simp [indirectBlock]
  have hlines : '\x1f' ∉ indirectLines es := by
    intro hm
    simp only [indirectLines, List.mem_flatten, List.mem_map] at hm
    obtain ⟨l, ⟨e, he, hl⟩, hc⟩ := hm
    rw [← hl] at hc
    rcases List.mem_append.mp hc with hc | hc
    · exact (indirectLine_chars e (h e he) _ hc).2 rfl
    · revert hc; decide
  show split (indirectBlock es ++ p) ['\x1f'] = _ :: _ :: split p ['\x1f']
  rw [split_single, split_single, htext, splitLoop_single_append '\x1f' _ [] (by simp),
    splitLoop_single_append '\x1f' _ _ (by
      intro hm
      rcases List.mem_append.mp hm with hm | hm
      · revert hm; decide
      · exact hlines hm)]

/-- Every match of `reInclude` starts with `"\x1f\nIndirect:\n"`. -/
theorem reInclude_find_shape (d m : Str) (h : reInclude.find d = some m) :
    ∃ r, m = "\x1f\nIndirect:\n".toList ++ r := by
  unfold Re.find at h
  cases hs : reInclude.search d.length d with
  | none => rw [hs] at h; exact Option.noConfusion h
  | some q =>
    obtain ⟨ms, me⟩ := q
    rw [hs] at h
    have hm : ms.take (ms.length - me.length) = m := Option.some.inj h
    obtain ⟨_, es, _, hends, _⟩ := search_some reInclude d.length d ms me hs
    have hmem : me ∈ reInclude.ends d.length ms := by
      rw [hends]; exact List.mem_cons_self _ _
    have hmem : me ∈ (Re.seq (Re.lit "\x1f\nIndirect:\n".toList)
        (Re.seq (Re.plusLazy reIndirectLine) (Re.lit "\x1f".toList))).ends d.length ms := hmem
    obtain ⟨r, hr, hme⟩ := (mem_ends_seq _ _ _ _ _).mp hmem
    have e1 := (mem_ends_lit _ _ _ _).mp hr
    obtain ⟨r2, e2⟩ := ends_suffix _ _ _ _ hme
    refine ⟨r2, ?_⟩
    rw [← hm, e1, ← e2, ← List.append_assoc]
    apply List.take_left'
    simp
    omega

/-- The slice `bytes.Split(m, "\n")[2:]` of `format` is always in range. -/
theorem split_match_length (d m : Str) (h : reInclude.find d = some m) :
    2 ≤ (split m "\n".toList).length := by
  obtain ⟨r, hr⟩ := reInclude_find_shape d m h
  have htext : m = ['\x1f'] ++ '\n' :: ("Indirect:".toList ++ '\n' :: r) := by
    rw [hr]; rfl
  show 2 ≤ (split m ['\n']).length
  rw [split_single, htext, splitLoop_single_append '\n' _ ['\x1f'] (by decide),
    splitLoop_single_append '\n' _ "Indirect:".toList (by decide)]
  simp

/-! ## The fragment of the indirect block -/

/-- The first occurrence of a character splits a text in one way only. -/
theorem append_cons_unique (c : Char) :
    ∀ (x x2 y y2 : Str), c ∉ x → c ∉ x2 → x ++ c :: y = x2 ++ c :: y2 → x = x2 ∧ y = y2 := by
  intro x
  induction x with
  | nil =>
    intro x2 y y2 _ h2 h
    cases x2 with
    | nil => exact ⟨rfl, (List.cons.inj h).2⟩
    | cons d t =>
      exact absurd (by rw [(List.cons.inj h).1]; exact List.mem_cons_self _ _) h2
  | cons a s ih =>
    intro x2 y y2 h1 h2 h
    cases x2 with
    | nil =>
      exact absurd (by rw [← (List.cons.inj h).1]; exact List.mem_cons_self _ _) h1
    | cons d t =>
      obtain ⟨e1, e2⟩ := List.cons.inj h
      obtain ⟨e3, e4⟩ := ih t y y2 (fun hm => h1 (List.mem_cons_of_mem _ hm))
        (fun hm => h2 (List.mem_cons_of_mem _ hm)) e2
      exact ⟨by rw [e1, e3], e4⟩

/-- Digits up to a newline cannot be a text without newline up to an `i`. -/
theorem digits_newline_ne (rest z : Str) :
    ∀ (ds w : Str), (∀ c ∈ ds, isDigit c = true) → '\n' ∉ w →
      ds ++ '\n' :: rest ≠ w ++ 'i' :: z := by
  intro ds
  induction ds with
  | nil =>
    intro w _ hw h
    cases w with
    | nil => exact absurd (List.cons.inj h).1 (by decide)
    | cons c t => exact hw (by rw [← (List.cons.inj h).1]; exact List.mem_cons_self _ _)
  | cons d u ih =>
    intro w hd hw h
    cases w with
    | nil =>
      have := hd d (List.mem_cons_self _ _)
      rw [(List.cons.inj h).1] at this
      revert this; decide
    | cons c t =>
      exact ih t (fun x hx => hd x (List.mem_cons_of_mem _ hx))
        (fun hm => hw (List.mem_cons_of_mem _ hm)) (List.cons.inj h).2

theorem isWordOrDash_ne_newline (c : Char) (h : isWordOrDash c = true) : c ≠ '\n' := by
  intro e; subst e; revert h; decide

theorem isDot_ne_newline (c : Char) (h : isDot c = true) : c ≠ '\n' := by
  intro e; subst e; revert h; decide

/-- What a match of the navigation pattern starts with. -/
theorem reNav_shape (n : Nat) (u r : Str) (h : r ∈ reNav.ends n u) :
    ∃ w z, '\n' ∉ w ∧
      ((u.length = n ∧ u = "File: ".toList ++ (w ++ 'i' :: z)) ∨
        u = '\n' :: ("File: ".toList ++ (w ++ 'i' :: z))) := by
  have h : r ∈ (Re.seq (Re.alt Re.bol (Re.lit ['\n'])) (Re.seq (Re.lit "File: ".toList)
      (Re.seq (Re.seq (Re.chr isWordOrDash) (Re.star true (Re.chr isWordOrDash)))
        (Re.seq (Re.chr isDot) (Re.seq (Re.lit "info,  Node: ".toList)
          (Re.seq (Re.plus (Re.chr isDot)) (Re.alt Re.eol (Re.lit ['\n'])))))))).ends n u := h
  obtain ⟨m1, hm1, h⟩ := (mem_ends_seq _ _ n u r).mp h
  obtain ⟨m2, hm2, h⟩ := (mem_ends_seq _ _ n m1 r).mp h
  obtain ⟨m3, hm3, h⟩ := (mem_ends_seq _ _ n m2 r).mp h
  obtain ⟨m4, hm4, h⟩ := (mem_ends_seq _ _ n m3 r).mp h
  obtain ⟨m5, hm5, _⟩ := (mem_ends_seq _ _ n m4 r).mp h
  have e2 := (mem_ends_lit _ n m1 m2).mp hm2
  obtain ⟨m3a, hm3a, hm3b⟩ := (mem_ends_seq _ _ n m2 m3).mp hm3
  obtain ⟨c, e3a, hc⟩ := (mem_ends_chr _ n m2 m3a).mp hm3a
  obtain ⟨l, e3b, hl⟩ := mem_ends_star_class true isWordOrDash n m3a.length m3a m3
    (Nat.le_refl _) hm3b
  obtain ⟨x, e4, hx⟩ := (mem_ends_chr _ n m3 m4).mp hm4
  have e5 := (mem_ends_lit _ n m4 m5).mp hm5
  refine ⟨c :: (l ++ [x]), "nfo,  Node: ".toList ++ m5, ?_, ?_⟩
  · intro hm
    rcases List.mem_cons.mp hm with e | e
    · exact isWordOrDash_ne_newline c hc e.symm
    · rcases List.mem_append.mp e with e | e
      · exact isWordOrDash_ne_newline _ (hl _ e) rfl
      · exact isDot_ne_newline x hx (List.mem_singleton.mp e).symm
  · have hm1text : m1 = "File: ".toList ++ (c :: (l ++ [x]) ++ 'i' :: ("nfo,  Node: ".toList ++ m5)) := by
      rw [e2, e3a, e3b, e4, e5]
      simp
    rw [ends_alt] at hm1
    rcases List.mem_append.mp hm1 with hb | hb
    · left
      by_cases hn : u.length = n
      · have : m1 = u := by
          have hb : m1 ∈ (if u.length = n then [u] else []) := hb
          rw [if_pos hn] at hb
          exact List.mem_singleton.mp hb
        exact ⟨hn, by rw [← this]; exact hm1text⟩
      · have hb : m1 ∈ (if u.length = n then [u] else []) := hb
        rw [if_neg hn] at hb
        simp at hb
    · right
      have := (mem_ends_lit _ n u m1).mp hb
      rw [this, hm1text]
      rfl

/-- What a match of the menu pattern starts with. -/
theorem reMenu_shape (n : Nat) (u r : Str) (h : r ∈ reMenu.ends n u) :
    ∃ z, u = "\n* Menu:".toList ++ '\n' :: '\n' :: z := by
  have h : r ∈ (Re.seq (Re.lit "\n* Menu:\n\n".toList) (Re.atLeast 1 (Re.cat
      [Re.lit "* ".toList, Re.plusLazy (Re.chr isDot), Re.lit "::".toList,
        Re.opt (Re.cat [Re.lit " ".toList, Re.plusLazy (Re.chr isDot)]),
        Re.lit "\n".toList]))).ends n u := h
  obtain ⟨m1, hm1, _⟩ := (mem_ends_seq _ _ n u r).mp h
  exact ⟨m1, (mem_ends_lit _ n u m1).mp hm1⟩

/-- A segment between two newlines of the fragment of an indirect block: the
word `Indirect:` or the line of a well-formed entry. -/
theorem segment_cases (seg : Str)
    (hseg : seg = "Indirect:".toList ∨ ∃ e : Entry, e.WellFormed ∧ seg = indirectLine e) :
    (∃ c t, seg = c :: t ∧ c ≠ '\n') ∧ '\n' ∉ seg ∧
    ∃ name after, seg = name ++ ':' :: after ∧ ':' ∉ name ∧
      (name = "Indirect".toList ∧ after = [] ∨
        ∃ ds, after = ' ' :: ds ∧ ∀ c ∈ ds, isDigit c = true) := by
  rcases hseg with h | ⟨e, he, h⟩
  · subst h
    exact ⟨⟨'I', _, rfl, by decide⟩, by decide, "Indirect".toList, [], rfl, by decide,
      Or.inl ⟨rfl, rfl⟩⟩
  · subst h
    obtain ⟨c, t, hct, hc, _, _⟩ := indirectLine_head e he
    refine ⟨⟨c, t, hct, hc⟩, fun hm => (indirectLine_chars e he _ hm).1 rfl, ?_⟩
    obtain ⟨name, ds⟩ := e
    obtain ⟨_, hname, _, hds⟩ := he
    simp only at hname hds
    exact ⟨name, ' ' :: ds, by simp [indirectLine], fun hm => (hname _ hm).2.1 rfl,
      Or.inr ⟨ds, rfl, hds⟩⟩

/-- None of the substitution patterns matches at a character that is not a
newline, the start of the text apart. -/
theorem sub_ends_other (re : Re) (hre : re ∈ sub) (n : Nat) (c : Char) (t : Str)
    (hc : c ≠ '\n') (hn : (c :: t).length ≠ n) : re.ends n (c :: t) = [] := by
  have hcases : re = reNav ∨ re = reMenu ∨ re = reNewlines := by simpa [sub] using hre
  rcases hcases with rfl | rfl | rfl
  · apply List.eq_nil_iff_forall_not_mem.mpr
    intro r hr
    obtain ⟨w, z, _, h | h⟩ := reNav_shape n _ r hr
    · exact hn h.1
    · exact hc (List.cons.inj h).1
  · apply List.eq_nil_iff_forall_not_mem.mpr
    intro r hr
    obtain ⟨z, h⟩ := reMenu_shape n _ r hr
    exact hc (List.cons.inj h).1
  · apply ends_reNewlines_short
    rintro ⟨v, hv⟩
    exact hc (List.cons.inj hv).1.symm

/-- None of the substitution patterns matches at the newline before a segment. -/
theorem sub_ends_newline (re : Re) (hre : re ∈ sub) (n : Nat) (seg rest : Str)
    (hseg : seg = "Indirect:".toList ∨ ∃ e : Entry, e.WellFormed ∧ seg = indirectLine e)
    (hrest : ∀ v, rest ≠ '\n' :: v) : re.ends n ('\n' :: (seg ++ '\n' :: rest)) = [] := by
  obtain ⟨⟨c, t, hct, hc⟩, hnl, name, after, hsplit, hname, hafter⟩ := segment_cases seg hseg
  have hcases : re = reNav ∨ re = reMenu ∨ re = reNewlines := by simpa [sub] using hre
  rcases hcases with rfl | rfl | rfl
  · apply List.eq_nil_iff_forall_not_mem.mpr
    intro r hr
    obtain ⟨w, z, hw, h | h⟩ := reNav_shape n _ r hr
    · exact absurd (List.cons.inj h.2).1 (by decide)
    · have h2 : name ++ ':' :: (after ++ '\n' :: rest) =
          "File".toList ++ ':' :: (' ' :: (w ++ 'i' :: z)) := by
        have := (List.cons.inj h).2
        rw [hsplit] at this
        simpa using this
      obtain ⟨e1, e2⟩ := append_cons_unique ':' _ _ _ _ hname (by decide) h2
      rcases hafter with ⟨e3, _⟩ | ⟨ds, e3, hds⟩
      · rw [e3] at e1
        revert e1; decide
      · rw [e3] at e2
        exact digits_newline_ne rest z ds w hds hw (List.cons.inj e2).2
  · apply List.eq_nil_iff_forall_not_mem.mpr
    intro r hr
    obtain ⟨z, h⟩ := reMenu_shape n _ r hr
    have h2 : seg ++ '\n' :: rest = "* Menu:".toList ++ '\n' :: ('\n' :: z) :=
      (List.cons.inj h).2
    obtain ⟨_, e2⟩ := append_cons_unique '\n' _ _ _ _ hnl (by decide) h2
    exact hrest _ e2
  · apply ends_reNewlines_short
    rintro ⟨v, hv⟩
    rw [hct] at hv
    exact hc (List.cons.inj (List.cons.inj hv).2).1.symm

/-- None of the substitution patterns matches at the last newline or at the
end of the text. -/
theorem sub_ends_last (re : Re) (hre : re ∈ sub) (n : Nat) :
    re.ends n ['\n'] = [] ∧ re.ends n [] = [] := by
  have hcases : re = reNav ∨ re = reMenu ∨ re = reNewlines := by simpa [sub] using hre
  rcases hcases with rfl | rfl | rfl
  · constructor <;>
    · apply List.eq_nil_iff_forall_not_mem.mpr
      intro r hr
      obtain ⟨w, z, _, h | h⟩ := reNav_shape n _ r hr
      · first
          | exact List.noConfusion h.2
          | exact absurd (List.cons.inj h.2).1 (by decide)
      · first
          | exact List.noConfusion h
          | exact List.noConfusion (List.cons.inj h).2
  · constructor <;>
    · apply List.eq_nil_iff_forall_not_mem.mpr
      intro r hr
      obtain ⟨z, h⟩ := reMenu_shape n _ r hr
      first
        | exact List.noConfusion h
        | exact List.noConfusion (List.cons.inj h).2
  · exact ⟨ends_reNewlines_short n _ (by decide), ends_reNewlines_short n _ (by decide)⟩

theorem indirectLines_head (es : List Entry) (h : ∀ e ∈ es, e.WellFormed) :
    ∀ v, indirectLines es ≠ '\n' :: v := by
  intro v hv
  cases es with
  | nil => exact List.noConfusion hv
  | cons e es =>
    obtain ⟨c, t, hct, hc, _⟩ := indirectLine_head e (h e (List.mem_cons_self _ _))
    rw [indirectLines_cons, hct] at hv
    exact hc (List.cons.inj hv).1

/-- Walking over a segment without newline. -/
theorem safe_segment (re : Re) (hre : re ∈ sub) (n : Nat) (v : Str) :
    ∀ (seg : Str), '\n' ∉ seg → (seg ++ v).length < n →
      (∀ u, u <:+ v → re.ends n u = []) → ∀ u, u <:+ seg ++ v → re.ends n u = [] := by
  intro seg
  induction seg with
  | nil => intro _ _ h; exact h
  | cons c t ih =>
    intro hnl hlen h u hu
    rcases List.suffix_cons_iff.mp hu with e | e
    · rw [e]
      exact sub_ends_other re hre n c _ (fun hc => hnl (by rw [hc]; exact List.mem_cons_self _ _))
        (by simp at hlen ⊢; omega)
    · exact ih (fun hm => hnl (List.mem_cons_of_mem _ hm)) (by simp at hlen ⊢; omega) h u e

theorem safe_lines (re : Re) (hre : re ∈ sub) (n : Nat) :
    ∀ (es : List Entry), (∀ e ∈ es, e.WellFormed) → ('\n' :: indirectLines es).length < n →
      ∀ u, u <:+ '\n' :: indirectLines es → re.ends n u = [] := by
  intro es
  induction es with
  | nil =>
    intro _ _ u hu
    rcases List.suffix_cons_iff.mp hu with e | e
    · rw [e]; exact (sub_ends_last re hre n).1
    · rw [List.suffix_nil.mp e]; exact (sub_ends_last re hre n).2
  | cons e es ih =>
    intro h hlen u hu
    have he := h e (List.mem_cons_self _ _)
    have hes : ∀ x ∈ es, x.WellFormed := fun x hx => h x (List.mem_cons_of_mem _ hx)
    rw [indirectLines_cons] at hu hlen
    rcases List.suffix_cons_iff.mp hu with e1 | e1
    · rw [e1]
      exact sub_ends_newline re hre n _ _ (Or.inr ⟨e, he, rfl⟩) (indirectLines_head es hes)
    · exact safe_segment re hre n _ (indirectLine e)
        (fun hm => (indirectLine_chars e he _ hm).1 rfl)
        (by simp at hlen ⊢; omega)
        (ih hes (by simp at hlen ⊢; omega)) u e1

/-- The substitutions leave the fragment of an indirect block as it is. -/
theorem applySub_block (es : List Entry) (h : ∀ e ∈ es, e.WellFormed) :
    applySub sub repl ("\nIndirect:\n".toList ++ indirectLines es) =
      "\nIndirect:\n".toList ++ indirectLines es := by
  apply applySub_of_no_match
  intro re hre
  have htext : "\nIndirect:\n".toList ++ indirectLines es =
      '\n' :: ("Indirect:".toList ++ '\n' :: indirectLines es) := rfl
  have : re.search ("\nIndirect:\n".toList ++ indirectLines es).length
      ("\nIndirect:\n".toList ++ indirectLines es) = none := by
    rw [search_none_iff]
    intro u hu
    generalize hn : ("\nIndirect:\n".toList ++ indirectLines es).length = n
    rw [htext] at hu hn
    rcases List.suffix_cons_iff.mp hu with e1 | e1
    · rw [e1]
      exact sub_ends_newline re hre n _ _ (Or.inl rfl) (indirectLines_head es h)
    · exact safe_segment re hre n _ "Indirect:".toList (by decide)
        (by rw [← hn]; simp)
        (safe_lines re hre n es h (by rw [← hn]; simp)) u e1
  unfold Re.matchString
  rw [this]
  rfl

/-- The last deletion pattern matches the fragment of an indirect block. -/
theorem reIndirect_matches (e : Entry) (es : List Entry) (h : ∀ x ∈ e :: es, x.WellFormed) :
    reIndirect.matchString ("\nIndirect:\n".toList ++ indirectLines (e :: es)) = true := by
  apply matchString_of_mem reIndirect _ (indirectLines es)
  generalize ("\nIndirect:\n".toList ++ indirectLines (e :: es)).length = n
  show _ ∈ (Re.seq (Re.lit "\nIndirect:\n".toList)
    (Re.seq reIndirectLine (Re.star false reIndirectLine))).ends n _
  refine (mem_ends_seq _ _ n _ _).mpr
    ⟨indirectLines (e :: es), (mem_ends_lit _ n _ _).mpr rfl, ?_⟩
  refine (mem_ends_seq _ _ n _ _).mpr ⟨indirectLines es, ?_, mem_ends_star_self _ _ n _⟩
  rw [indirectLines_cons, ends_reIndirectLine n e (h e (List.mem_cons_self _ _))]
  exact List.mem_singleton.mpr rfl

/-- The fragment of an indirect block is deleted. -/
theorem formatPage_block (e : Entry) (es : List Entry) (h : ∀ x ∈ e :: es, x.WellFormed) :
    formatPage ("\nIndirect:\n".toList ++ indirectLines (e :: es)) = [] := by
  unfold formatPage
  rw [applySub_block (e :: es) h, applyNuke_of_match nuke _ nuke_not_nil
    ⟨reIndirect, by simp [nuke], reIndirect_matches e es h⟩]
  rfl

/-! ## Documents with an indirect block -/

theorem trimSpace_leading (ws s : Str) (hws : ∀ c ∈ ws, isSpace c = true) :
    trimSpace (ws ++ s) = trimSpace s := by
  have h : (ws ++ s).dropWhile isSpace = s.dropWhile isSpace := by
    induction ws with
    | nil => rfl
    | cons c t ih =>
      rw [List.cons_append, List.dropWhile_cons, hws c (List.mem_cons_self _ _)]
      exact ih (fun d hd => hws d (List.mem_cons_of_mem _ hd))
  unfold trimSpace
  rw [h]

/-- The joined pages of a document that starts with a well-formed indirect
block: four newlines, then the joined pages of what follows the block. -/
theorem join_block_pages (e : Entry) (es : List Entry) (h : ∀ x ∈ e :: es, x.WellFormed)
    (primary : Str) :
    join ((split (indirectBlock (e :: es) ++ primary) "\x1f".toList).map formatPage)
        "\n\n".toList =
      "\n\n\n\n".toList ++ join ((split primary "\x1f".toList).map formatPage) "\n\n".toList := by
  rw [split_block_document (e :: es) h primary]
  simp only [List.map_cons, formatPage_nil, formatPage_block e es h]
  have hne : (split primary "\x1f".toList).map formatPage ≠ [] := by
    intro hnil
    have := List.map_eq_nil_iff.mp hnil
    exact splitLoop_ne_nil ['\x1f'] primary 0 (by rw [← split_single]; exact this)
  cases hsp : (split primary "\x1f".toList).map formatPage with
  | nil => exact absurd hsp hne
  | cons a t =>
    show [] ++ "\n\n".toList ++ ([] ++ "\n\n".toList ++ join (a :: t) "\n\n".toList) = _
    simp

/-- C2 as amended: for a raw document that consists of an indirect block of
well-formed lines followed by primary content, and a locator that finds each
listed sub-page (the sub-pages having no indirect block), `format` returns
`TrimSpace(P ++ T1 ++ "\n\n" ++ ... ++ Tk ++ "\n\n")` followed by one newline,
where `P` is the `"\n\n"`-join of the processed fragments of the primary
content and `Ti`, the text `format` returns for the sub-page `si`, ends in a
newline of its own.  The sub-pages come in listed order; each is followed by
`"\n\n"`, and nothing is inserted between the primary content and the first
sub-page. -/
theorem format_indirect (w : World) (fuel : Nat) (p : Entry × Str) (ps : List (Entry × Str))
    (primary : Str)
    (h : ∀ q ∈ p :: ps,
      q.1.WellFormed ∧ find w q.1.1 = .reader q.2 ∧ reInclude.find q.2 = none) :
    format w (fuel + 2) (indirectBlock ((p :: ps).map Prod.fst) ++ primary) =
      .text (trimSpace (join ((split primary "\x1f".toList).map formatPage) "\n\n".toList ++
        ((p :: ps).map fun q => normalized q.2 ++ "\n\n".toList).flatten) ++ "\n".toList) ∧
    ∀ q ∈ p :: ps, format w (fuel + 1) q.2 = .text (normalized q.2) := by
  have hwf : ∀ x ∈ p.1 :: ps.map Prod.fst, x.WellFormed := by
    intro x hx
    have hx : x ∈ (p :: ps).map Prod.fst := hx
    obtain ⟨q, hq, rfl⟩ := List.mem_map.mp hx
    exact (h q hq).1
  have hsubformat : ∀ q ∈ p :: ps, format w (fuel + 1) q.2 = .text (normalized q.2) :=
    fun q hq => format_of_no_include w fuel q.2 (h q hq).2.2
  refine ⟨?_, hsubformat⟩
  have hload : loadIncluded w (format w (fuel + 1))
      (indirectBlock ((p :: ps).map Prod.fst) ++ primary) =
      .text ((p :: ps).map fun q => normalized q.2 ++ "\n\n".toList).flatten := by
    unfold loadIncluded
    rw [List.map_cons, reInclude_find_block p.1 (ps.map Prod.fst) hwf primary]
    show loadSubpages w (format w (fuel + 1))
      ((split (indirectBlock (p.1 :: ps.map Prod.fst)) "\n".toList).drop 2) [] = _
    have hmap : (p.1 :: ps.map Prod.fst).map indirectLine =
        (p :: ps).map fun q => indirectLine q.1 := by
      rw [List.map_cons, List.map_map]
      rfl
    rw [split_block_lines _ hwf, hmap]
    have := loadSubpages_found w (format w (fuel + 1)) (p :: ps) []
      (fun q hq => ⟨(h q hq).1, (h q hq).2.1, hsubformat q hq⟩)
    rw [List.nil_append] at this
    exact this
  show assemble _ (loadIncluded w (format w (fuel + 1)) _) = _
  rw [hload]
  show Outcome.text (trimSpace (join ((split (indirectBlock (p.1 :: ps.map Prod.fst) ++ primary)
    "\x1f".toList).map formatPage) "\n\n".toList ++ _) ++ "\n".toList) = _
  rw [join_block_pages p.1 (ps.map Prod.fst) hwf primary, List.append_assoc,
    trimSpace_leading _ _ (by decide)]

/-- C2 as amended, on the block of `foo.info-1` and `foo.info-2` followed by
the primary content `hello`. -/
theorem format_indirect_witness :
    (∀ q ∈ ([(("foo.info-1".toList, "10".toList), "aaa".toList),
        (("foo.info-2".toList, "20".toList), "bbb".toList)] : List (Entry × Str)),
      q.1.WellFormed ∧ find fooWorld q.1.1 = .reader q.2 ∧ reInclude.find q.2 = none) ∧
    indirectBlock [("foo.info-1".toList, "10".toList), ("foo.info-2".toList, "20".toList)] ++
        "hello".toList =
      "\x1f\nIndirect:\nfoo.info-1: 10\nfoo.info-2: 20\n\x1fhello".toList ∧
    format fooWorld 2 (indirectBlock ([(("foo.info-1".toList, "10".toList), "aaa".toList),
        (("foo.info-2".toList, "20".toList), "bbb".toList)].map Prod.fst) ++ "hello".toList) =
      .text (trimSpace (join ((split "hello".toList "\x1f".toList).map formatPage) "\n\n".toList ++
        ([(("foo.info-1".toList, "10".toList), "aaa".toList),
          (("foo.info-2".toList, "20".toList), "bbb".toList)].map
            fun q => normalized q.2 ++ "\n\n".toList).flatten) ++ "\n".toList) :=
  ⟨by decide, by decide,
    (format_indirect fooWorld 0 (("foo.info-1".toList, "10".toList), "aaa".toList)
      [(("foo.info-2".toList, "20".toList), "bbb".toList)] "hello".toList (by decide)).1⟩

/-- C2 as stated fails: with the sub-pages `aaa` and `bbb` found and the
primary content `hello`, `format` returns `"helloaaa\n\n\nbbb\n"`, not the
three texts separated by one blank line each, `"hello\n\naaa\n\nbbb\n"`. -/
theorem format_indirect_counterexample :
    find fooWorld "foo.info-1".toList = .reader "aaa".toList ∧
    find fooWorld "foo.info-2".toList = .reader "bbb".toList ∧
    reInclude.find "aaa".toList = none ∧ reInclude.find "bbb".toList = none ∧
    format fooWorld 2 "\x1f\nIndirect:\nfoo.info-1: 10\nfoo.info-2: 20\n\x1fhello".toList =
      .text "helloaaa\n\n\nbbb\n".toList ∧
    specIndirect "hello".toList ["aaa".toList, "bbb".toList] = "hello\n\naaa\n\nbbb\n".toList ∧
    format fooWorld 2 "\x1f\nIndirect:\nfoo.info-1: 10\nfoo.info-2: 20\n\x1fhello".toList ≠
      .text (specIndirect "hello".toList ["aaa".toList, "bbb".toList]) :=
  ⟨by decide, by decide, by decide, by decide, by decide, by decide, by decide⟩

/-! ## Entry lines and the pattern of a line -/

theorem linesText_cons (l : Str) (ls : List Str) :
    linesText (l :: ls) = l ++ '\n' :: linesText ls := by
  simp [linesText]

theorem isEntryLine_no_newline (l : Str) (h : IsEntryLine l) : '\n' ∉ l := by
  obtain ⟨x, ds, _, hx, _, hds, rfl⟩ := h
  intro hm
  rcases List.mem_append.mp hm with hm | hm
  · rcases List.mem_append.mp hm with hm | hm
    · exact hx hm
    · revert hm; decide
  · exact isDigit_ne_newline _ (hds _ hm) rfl

/-- What the part `: \d+\n` of the pattern of a line matches. -/
theorem mem_ends_offset (n : Nat) (u r : Str)
    (h : r ∈ (Re.seq (Re.lit [':', ' '])
      (Re.seq (Re.plus (Re.chr isDigit)) (Re.lit ['\n']))).ends n u) :
    ∃ ds, ds ≠ [] ∧ (∀ c ∈ ds, isDigit c = true) ∧ u = ':' :: ' ' :: (ds ++ '\n' :: r) := by
  obtain ⟨m1, h1, h2⟩ := (mem_ends_seq _ _ _ _ _).mp h
  have e1 := (mem_ends_lit _ _ _ _).mp h1
  obtain ⟨m2, h3, h4⟩ := (mem_ends_seq _ _ _ _ _).mp h2
  have e4 := (mem_ends_lit _ _ _ _).mp h4
  have h3b : m2 ∈ (Re.seq (Re.chr isDigit) (Re.star true (Re.chr isDigit))).ends n m1 := h3
  obtain ⟨m3, h5, h6⟩ := (mem_ends_seq _ _ _ _ _).mp h3b
  obtain ⟨c, hc, hpc⟩ := (mem_ends_chr _ _ _ _).mp h5
  obtain ⟨l, hl, hall⟩ := mem_ends_star_class true isDigit n m3.length m3 m2 (le_refl _) h6
  refine ⟨c :: l, List.cons_ne_nil _ _, ?_, ?_⟩
  · intro d hd
    rcases List.mem_cons.mp hd with e | e
    · rw [e]; exact hpc
    · exact hall d e
  · rw [e1, hc, hl, e4]; rfl

/-- Before the last `": "` of an entry line the part `: \d+\n` matches
nowhere. -/
theorem ends_offset_nil (n : Nat) (ds t : Str) (hds : ∀ c ∈ ds, isDigit c = true)
    (c : Char) (w : Str) (hc : c ≠ '\n') (hw : '\n' ∉ w) :
    (Re.seq (Re.lit [':', ' ']) (Re.seq (Re.plus (Re.chr isDigit)) (Re.lit ['\n']))).ends n
      (c :: (w ++ ':' :: ' ' :: (ds ++ '\n' :: t))) = [] := by
  rw [List.eq_nil_iff_forall_not_mem]
  intro r hr
  obtain ⟨ds2, _, hds2, e⟩ := mem_ends_offset n _ r hr
  have hdn : ∀ (zs : Str), (∀ z ∈ zs, isDigit z = true) → '\n' ∉ zs :=
    fun zs hzs hm => isDigit_ne_newline _ (hzs _ hm) rfl
  have h1 : '\n' ∉ c :: (w ++ ':' :: ' ' :: ds) := by
    intro hm
    rcases List.mem_cons.mp hm with hm | hm
    · exact hc hm.symm
    · rcases List.mem_append.mp hm with hm | hm
      · exact hw hm
      · rcases List.mem_cons.mp hm with hm | hm
        · revert hm; decide
        · rcases List.mem_cons.mp hm with hm | hm
          · revert hm; decide
          · exact hdn ds hds hm
  have h2 : '\n' ∉ ':' :: ' ' :: ds2 := by
    intro hm
    rcases List.mem_cons.mp hm with hm | hm
    · revert hm; decide
    · rcases List.mem_cons.mp hm with hm | hm
      · revert hm; decide
      · exact hdn ds2 hds2 hm
  have e2 : (c :: (w ++ ':' :: ' ' :: ds)) ++ '\n' :: t = (':' :: ' ' :: ds2) ++ '\n' :: r := by
    simpa using e
  have e3 := (append_cons_unique '\n' _ _ _ _ h1 h2 e2).1
  have e4 : w ++ ':' :: ' ' :: ds = ' ' :: ds2 := (List.cons.inj e3).2
  have hm : ':' ∈ ' ' :: ds2 := by
    rw [← e4]; simp
  rcases List.mem_cons.mp hm with hm | hm
  · revert hm; decide
  · exact isDigit_ne_colon _ (hds2 _ hm) rfl

/-- The lazy `.+?` passes over the characters before the last `": "` of an
entry line without offering a place for `: \d+\n`. -/
theorem ends_lazy_dot_pass (n : Nat) (ds t : Str) (hds : ∀ c ∈ ds, isDigit c = true) :
    ∀ (u : Str), '\n' ∉ u →
      ((Re.star false (Re.chr isDot)).ends n (u ++ ':' :: ' ' :: (ds ++ '\n' :: t))).flatMap
        (fun r => (Re.seq (Re.lit [':', ' '])
          (Re.seq (Re.plus (Re.chr isDigit)) (Re.lit ['\n']))).ends n r) =
      ((Re.star false (Re.chr isDot)).ends n (':' :: ' ' :: (ds ++ '\n' :: t))).flatMap
        (fun r => (Re.seq (Re.lit [':', ' '])
          (Re.seq (Re.plus (Re.chr isDigit)) (Re.lit ['\n']))).ends n r) := by
  intro u
  induction u with
  | nil => intro _; rfl
  | cons c w ih =>
    intro h
    have hc : c ≠ '\n' := fun e => h (by rw [e]; exact List.mem_cons_self _ _)
    have hw : '\n' ∉ w := fun hm => h (List.mem_cons_of_mem _ hm)
    rw [ends_star]
    simp only [Bool.false_eq_true, if_false, List.cons_append, ends_chr_cons,
      isDot_of_ne c hc, if_true, List.flatMap_cons, ends_offset_nil n ds t hds c w hc hw,
      List.nil_append]
    have hfil : List.filter
        (fun r => decide (r.length < (c :: (w ++ ':' :: ' ' :: (ds ++ '\n' :: t))).length))
        [w ++ ':' :: ' ' :: (ds ++ '\n' :: t)] = [w ++ ':' :: ' ' :: (ds ++ '\n' :: t)] := by
      simp
    rw [hfil]
    simp only [List.flatMap_cons, List.flatMap_nil, List.append_nil]
    exact ih hw

/-- At the last `": "` of an entry line the lazy `.+?` leaves one place for
`: \d+\n`. -/
theorem ends_lazy_dot_offset (n : Nat) (ds t : Str) (hdne : ds ≠ [])
    (hds : ∀ c ∈ ds, isDigit c = true) :
    ((Re.star false (Re.chr isDot)).ends n (':' :: ' ' :: (ds ++ '\n' :: t))).flatMap
      (fun r => (Re.seq (Re.lit [':', ' '])
        (Re.seq (Re.plus (Re.chr isDigit)) (Re.lit ['\n']))).ends n r) = [t] := by
  rw [ends_star]
  simp only [Bool.false_eq_true, if_false, ends_chr_cons, isDot_of_ne ':' (by decide), if_true,
    List.flatMap_cons, ends_offset n ds t hdne hds]
  have hfil : List.filter
      (fun r => decide (r.length < (':' :: ' ' :: (ds ++ '\n' :: t)).length))
      [' ' :: (ds ++ '\n' :: t)] = [' ' :: (ds ++ '\n' :: t)] := by simp
  rw [hfil]
  simp only [List.flatMap_cons, List.flatMap_nil, List.append_nil]
  have hsp : ∀ d ∈ ' ' :: ds, d ≠ '\n' ∧ d ≠ ':' := by
    intro d hd
    rcases List.mem_cons.mp hd with e | e
    · rw [e]; decide
    · exact ⟨isDigit_ne_newline d (hds d e), isDigit_ne_colon d (hds d e)⟩
  have := ends_lazy_dot_skip n ('\n' :: t) (' ' :: ds) hsp
  rw [List.cons_append] at this
  rw [this, ends_star]
  have hnl : isDot '\n' = false := by decide
  simp [ends_chr_cons, hnl, ends_offset_other n '\n' t (by decide)]

/-- An entry line and its newline are matched by the pattern of a line in one
way only. -/
theorem ends_line (n : Nat) (l : Str) (hl : IsEntryLine l) (t : Str) :
    reIndirectLine.ends n (l ++ '\n' :: t) = [t] := by
  obtain ⟨x, ds, hx, hxn, hdne, hds, rfl⟩ := hl
  cases x with
  | nil => exact absurd rfl hx
  | cons c w =>
    have hc : c ≠ '\n' := fun e => hxn (by rw [e]; exact List.mem_cons_self _ _)
    have hw : '\n' ∉ w := fun hm => hxn (List.mem_cons_of_mem _ hm)
    have htext : (c :: w) ++ ": ".toList ++ ds ++ '\n' :: t =
        c :: (w ++ (':' :: ' ' :: (ds ++ '\n' :: t))) := by
      simp
    rw [htext]
    show ((((Re.chr isDot).ends n (c :: (w ++ (':' :: ' ' :: (ds ++ '\n' :: t))))).flatMap
      fun r => (Re.star false (Re.chr isDot)).ends n r).flatMap
        fun r => (Re.seq (Re.lit [':', ' '])
          (Re.seq (Re.plus (Re.chr isDigit)) (Re.lit ['\n']))).ends n r) = [t]
    rw [ends_chr_cons, isDot_of_ne c hc]
    simp only [if_true, List.flatMap_cons, List.flatMap_nil, List.append_nil]
    rw [ends_lazy_dot_pass n ds t hds w hw]
    exact ends_lazy_dot_offset n ds t hdne hds

/-- The pattern of a line matches nothing but an entry line and its
newline. -/
theorem mem_ends_line (n : Nat) (s r : Str) (h : r ∈ reIndirectLine.ends n s) :
    ∃ l, IsEntryLine l ∧ s = l ++ '\n' :: r := by
  have h0 : r ∈ (Re.seq (Re.seq (Re.chr isDot) (Re.star false (Re.chr isDot)))
      (Re.seq (Re.lit [':', ' ']) (Re.seq (Re.plus (Re.chr isDigit)) (Re.lit ['\n'])))).ends n s :=
    h
  obtain ⟨m1, h1, h2⟩ := (mem_ends_seq _ _ _ _ _).mp h0
  obtain ⟨ds, hdne, hds, e1⟩ := mem_ends_offset n m1 r h2
  obtain ⟨m0, h3, h4⟩ := (mem_ends_seq _ _ _ _ _).mp h1
  obtain ⟨c, hc, hpc⟩ := (mem_ends_chr _ _ _ _).mp h3
  obtain ⟨l0, hl0, hall⟩ := mem_ends_star_class false isDot n m0.length m0 m1 (le_refl _) h4
  have hdot : ∀ z, isDot z = true → z ≠ '\n' := by
    intro z hz e
    rw [e] at hz
    revert hz; decide
  refine ⟨(c :: l0) ++ ": ".toList ++ ds, ⟨c :: l0, ds, List.cons_ne_nil _ _, ?_, hdne, hds, rfl⟩, ?_⟩
  · intro hm
    rcases List.mem_cons.mp hm with hm | hm
    · exact hdot c hpc hm.symm
    · exact hdot _ (hall _ hm) rfl
  · rw [hc, hl0, e1]
    simp

/-! ## The lines of a block and its closing 0x1F -/

theorem ends_lines_unfold (n : Nat) (t : Str) :
    ((Re.star false reIndirectLine).ends n t).flatMap (fun r => (Re.lit ['\x1f']).ends n r) =
      (Re.lit ['\x1f']).ends n t ++
        ((reIndirectLine.ends n t).filter (fun r => decide (r.length < t.length))).flatMap
          (fun m => ((Re.star false reIndirectLine).ends n m).flatMap
            (fun r => (Re.lit ['\x1f']).ends n r)) := by
  conv_lhs => rw [ends_star]
  simp only [Bool.false_eq_true, if_false, List.flatMap_cons, List.flatMap_assoc]

theorem ends_lines_cons (n : Nat) (l : Str) (hl : IsEntryLine l) (t : Str) :
    ((Re.star false reIndirectLine).ends n (l ++ '\n' :: t)).flatMap
        (fun r => (Re.lit ['\x1f']).ends n r) =
      (Re.lit ['\x1f']).ends n (l ++ '\n' :: t) ++
        ((Re.star false reIndirectLine).ends n t).flatMap
          (fun r => (Re.lit ['\x1f']).ends n r) := by
  rw [ends_lines_unfold, ends_line n l hl t]
  have hfil : List.filter (fun x => decide (x.length < (l ++ '\n' :: t).length)) [t] = [t] := by
    have : t.length < (l ++ '\n' :: t).length := by simp; omega
    rw [List.filter_cons, if_pos (by simpa using this)]
    rfl
  rw [hfil]
  simp

theorem ends_lines_no_line (n : Nat) (t : Str) (h : reIndirectLine.ends n t = []) :
    ((Re.star false reIndirectLine).ends n t).flatMap (fun r => (Re.lit ['\x1f']).ends n r) =
      (Re.lit ['\x1f']).ends n t := by
  rw [ends_lines_unfold, h]
  simp

/-- The first way in which lines and a closing 0x1F are matched takes the
smallest number of entry lines after which a 0x1F follows. -/
theorem ends_lines_sound (n : Nat) (t : Str) :
    ∀ (p : Str) (es : List Str),
      ((Re.star false reIndirectLine).ends n t).flatMap
        (fun r => (Re.lit ['\x1f']).ends n r) = p :: es →
      ∃ ls, (∀ l ∈ ls, IsEntryLine l) ∧ t = linesText ls ++ '\x1f' :: p ∧
        ∀ ls2 p2, (∀ l ∈ ls2, IsEntryLine l) → t = linesText ls2 ++ '\x1f' :: p2 →
          ls.length ≤ ls2.length := by
  generalize hk : t.length = k
  induction k using Nat.strong_induction_on generalizing t with
  | _ k ih =>
    intro p es h
    by_cases hx : ['\x1f'] <+: t
    · obtain ⟨t1, rfl⟩ := hx
      rw [ends_lines_unfold, ends_lit_append] at h
      have hp : t1 = p := (List.cons.inj h).1
      refine ⟨[], by simp, by rw [hp]; rfl, ?_⟩
      intro ls2 p2 _ _
      exact Nat.zero_le _
    · have hlit : (Re.lit ['\x1f']).ends n t = [] := ends_lit_of_mismatch _ n t hx
      cases hL : reIndirectLine.ends n t with
      | nil =>
        rw [ends_lines_no_line n t hL, hlit] at h
        exact List.noConfusion h
      | cons r rs =>
        obtain ⟨l, hl, e⟩ := mem_ends_line n t r (by rw [hL]; exact List.mem_cons_self _ _)
        subst e
        rw [ends_lines_cons n l hl r, hlit, List.nil_append] at h
        have hlen : r.length < k := by
          rw [← hk]; simp; omega
        obtain ⟨ls, hls, e, hmin⟩ := ih r.length hlen r rfl p es h
        refine ⟨l :: ls, ?_, ?_, ?_⟩
        · intro z hz
          rcases List.mem_cons.mp hz with q | q
          · rw [q]; exact hl
          · exact hls z q
        · rw [linesText_cons, e]; simp
        · intro ls2 p2 hls2 e2
          cases ls2 with
          | nil =>
            exfalso
            apply hx
            exact ⟨p2, e2.symm⟩
          | cons l2 ls3 =>
            rw [linesText_cons] at e2
            have e3 : l ++ '\n' :: r = l2 ++ '\n' :: (linesText ls3 ++ '\x1f' :: p2) := by
              rw [e2]; simp
            have hu := append_cons_unique '\n' _ _ _ _ (isEntryLine_no_newline l hl)
              (isEntryLine_no_newline l2 (hls2 l2 (List.mem_cons_self _ _))) e3
            have := hmin ls3 p2 (fun z hz => hls2 z (List.mem_cons_of_mem _ hz)) hu.2
            simp only [List.length_cons]
            omega

/-- Entry lines followed by a 0x1F are matched. -/
theorem ends_lines_complete (n : Nat) (p : Str) :
    ∀ (ls : List Str), (∀ l ∈ ls, IsEntryLine l) →
      ((Re.star false reIndirectLine).ends n (linesText ls ++ '\x1f' :: p)).flatMap
        (fun r => (Re.lit ['\x1f']).ends n r) ≠ [] := by
  intro ls
  induction ls with
  | nil =>
    intro _
    rw [ends_lines_unfold]
    have : (Re.lit ['\x1f']).ends n (linesText [] ++ '\x1f' :: p) = [p] :=
      ends_lit_append ['\x1f'] n p
    rw [this]
    exact List.cons_ne_nil _ _
  | cons l ls ih =>
    intro h
    have e : linesText (l :: ls) ++ '\x1f' :: p = l ++ '\n' :: (linesText ls ++ '\x1f' :: p) := by
      rw [linesText_cons]; simp
    rw [e, ends_lines_cons n l (h l (List.mem_cons_self _ _))]
    intro hnil
    exact ih (fun z hz => h z (List.mem_cons_of_mem _ hz)) (List.append_eq_nil.mp hnil).2

/-! ## The pattern `reInclude` and the first indirect block -/

theorem ends_reInclude_eq (n : Nat) (s : Str) :
    reInclude.ends n s =
      ((Re.lit "\x1f\nIndirect:\n".toList).ends n s).flatMap
        (fun r => (reIndirectLine.ends n r).flatMap
          (fun m => ((Re.star false reIndirectLine).ends n m).flatMap
            (fun r => (Re.lit ['\x1f']).ends n r))) := by
  show ((Re.lit "\x1f\nIndirect:\n".toList).ends n s).flatMap
    (fun r => (((reIndirectLine.ends n r).flatMap
      fun r => (Re.star false reIndirectLine).ends n r).flatMap
        fun r => (Re.lit ['\x1f']).ends n r)) = _
  simp only [List.flatMap_assoc]

theorem blockOf_cons (l : Str) (ls : List Str) (p : Str) :
    blockOf (l :: ls) ++ p =
      "\x1f\nIndirect:\n".toList ++ (l ++ '\n' :: (linesText ls ++ '\x1f' :: p)) := by
  simp [blockOf, linesText_cons]

/-- The first match of `reInclude` at the start of a text is an indirect
block, the one with the fewest lines that starts there. -/
theorem ends_reInclude_sound (n : Nat) (s p : Str) (es : List Str)
    (h : reInclude.ends n s = p :: es) :
    ∃ ls, IsBlock ls ∧ s = blockOf ls ++ p ∧
      ∀ ls2 p2, IsBlock ls2 → s = blockOf ls2 ++ p2 → ls.length ≤ ls2.length := by
  rw [ends_reInclude_eq] at h
  by_cases hp : "\x1f\nIndirect:\n".toList <+: s
  · obtain ⟨s1, rfl⟩ := hp
    rw [ends_lit_append] at h
    simp only [List.flatMap_cons, List.flatMap_nil, List.append_nil] at h
    cases hL : reIndirectLine.ends n s1 with
    | nil => rw [hL] at h; exact List.noConfusion h
    | cons r rs =>
      obtain ⟨l, hl, e⟩ := mem_ends_line n s1 r (by rw [hL]; exact List.mem_cons_self _ _)
      subst e
      rw [ends_line n l hl r] at h
      simp only [List.flatMap_cons, List.flatMap_nil, List.append_nil] at h
      obtain ⟨ls, hls, e, hmin⟩ := ends_lines_sound n r p es h
      refine ⟨l :: ls, ⟨List.cons_ne_nil _ _, ?_⟩, ?_, ?_⟩
      · intro z hz
        rcases List.mem_cons.mp hz with q | q
        · rw [q]; exact hl
        · exact hls z q
      · rw [blockOf_cons, e]
      · intro ls2 p2 hb2 e2
        obtain ⟨hne2, hls2⟩ := hb2
        cases ls2 with
        | nil => exact absurd rfl hne2
        | cons l2 ls3 =>
          rw [blockOf_cons] at e2
          have e3 := List.append_cancel_left e2
          have hu := append_cons_unique '\n' _ _ _ _ (isEntryLine_no_newline l hl)
            (isEntryLine_no_newline l2 (hls2 l2 (List.mem_cons_self _ _))) e3
          have := hmin ls3 p2 (fun z hz => hls2 z (List.mem_cons_of_mem _ hz)) hu.2
          simp only [List.length_cons]
          omega
  · rw [ends_lit_of_mismatch _ n s hp] at h
    exact List.noConfusion h

/-- At an indirect block the pattern `reInclude` matches. -/
theorem ends_reInclude_complete (n : Nat) (ls : List Str) (p : Str) (h : IsBlock ls) :
    reInclude.ends n (blockOf ls ++ p) ≠ [] := by
  obtain ⟨hne, hls⟩ := h
  cases ls with
  | nil => exact absurd rfl hne
  | cons l ls =>
    rw [ends_reInclude_eq, blockOf_cons, ends_lit_append]
    simp only [List.flatMap_cons, List.flatMap_nil, List.append_nil,
      ends_line n l (hls l (List.mem_cons_self _ _))]
    exact ends_lines_complete n p ls (fun z hz => hls z (List.mem_cons_of_mem _ hz))

/-! ## `reInclude.Find` returns the first indirect block -/

theorem linesText_inj_length :
    ∀ (ls ls0 : List Str) (a a0 : Str), (∀ l ∈ ls, '\n' ∉ l) → (∀ l ∈ ls0, '\n' ∉ l) →
      ls.length = ls0.length → linesText ls ++ a = linesText ls0 ++ a0 → ls = ls0 := by
  intro ls
  induction ls with
  | nil =>
    intro ls0 a a0 _ _ hlen _
    cases ls0 with
    | nil => rfl
    | cons l0 t0 => simp at hlen
  | cons l t ih =>
    intro ls0 a a0 h h0 hlen e
    cases ls0 with
    | nil => simp at hlen
    | cons l0 t0 =>
      rw [linesText_cons, linesText_cons] at e
      have e2 : l ++ '\n' :: (linesText t ++ a) = l0 ++ '\n' :: (linesText t0 ++ a0) := by
        simpa using e
      have hu := append_cons_unique '\n' _ _ _ _ (h l (List.mem_cons_self _ _))
        (h0 l0 (List.mem_cons_self _ _)) e2
      rw [hu.1, ih t0 a a0 (fun z hz => h z (List.mem_cons_of_mem _ hz))
        (fun z hz => h0 z (List.mem_cons_of_mem _ hz)) (by simpa using hlen) hu.2]

theorem linesText_inj (a : Str) (ha : '\n' ∉ a) :
    ∀ (ls ls0 : List Str), (∀ l ∈ ls, '\n' ∉ l) → (∀ l ∈ ls0, '\n' ∉ l) →
      linesText ls ++ a = linesText ls0 ++ a → ls = ls0 := by
  intro ls
  induction ls with
  | nil =>
    intro ls0 _ _ e
    cases ls0 with
    | nil => rfl
    | cons l0 t0 =>
      exfalso
      apply ha
      have e2 : a = linesText (l0 :: t0) ++ a := e
      rw [e2, linesText_cons]
      simp
  | cons l t ih =>
    intro ls0 h h0 e
    cases ls0 with
    | nil =>
      exfalso
      apply ha
      have e2 : linesText (l :: t) ++ a = a := e
      rw [← e2, linesText_cons]
      simp
    | cons l0 t0 =>
      rw [linesText_cons, linesText_cons] at e
      have e2 : l ++ '\n' :: (linesText t ++ a) = l0 ++ '\n' :: (linesText t0 ++ a) := by
        simpa using e
      have hu := append_cons_unique '\n' _ _ _ _ (h l (List.mem_cons_self _ _))
        (h0 l0 (List.mem_cons_self _ _)) e2
      rw [hu.1, ih t0 (fun z hz => h z (List.mem_cons_of_mem _ hz))
        (fun z hz => h0 z (List.mem_cons_of_mem _ hz)) hu.2]

/-- The lines of an indirect block are determined by its text. -/
theorem blockOf_inj (ls ls0 : List Str) (h : ∀ l ∈ ls, '\n' ∉ l) (h0 : ∀ l ∈ ls0, '\n' ∉ l)
    (e : blockOf ls = blockOf ls0) : ls = ls0 := by
  unfold blockOf at e
  rw [List.append_assoc, List.append_assoc] at e
  exact linesText_inj "\x1f".toList (by decide) ls ls0 h h0 (List.append_cancel_left e)

theorem hasBlock_of_first (d : Str) (ls : List Str) (h : FirstBlock d ls) : HasBlock d := by
  obtain ⟨hb, pre, post, e, _⟩ := h
  exact ⟨ls, pre, post, hb, e⟩

/-- A document with an indirect block has a 0x1F. -/
theorem hasBlock_sep (d : Str) (h : HasBlock d) : '\x1f' ∈ d := by
  obtain ⟨ls, pre, post, _, e⟩ := h
  rw [e]
  simp [blockOf]

/-- There is one first indirect block. -/
theorem firstBlock_unique (d : Str) (ls ls0 : List Str) (h : FirstBlock d ls)
    (h0 : FirstBlock d ls0) : ls = ls0 := by
  obtain ⟨hb, pre, post, e, hmin⟩ := h
  obtain ⟨hb0, pre0, post0, e0, hmin0⟩ := h0
  have h1 := hmin ls0 pre0 post0 hb0 e0
  have h2 := hmin0 ls pre post hb e
  have hpre : pre.length = pre0.length := Nat.le_antisymm h1.1 h2.1
  have hlen : ls.length = ls0.length := Nat.le_antisymm (h1.2 hpre.symm) (h2.2 hpre)
  have e3 : pre ++ (blockOf ls ++ post) = pre0 ++ (blockOf ls0 ++ post0) := by
    rw [← List.append_assoc, ← List.append_assoc, ← e, ← e0]
  have e4 := (List.append_inj e3 hpre).2
  unfold blockOf at e4
  simp only [List.append_assoc] at e4
  exact linesText_inj_length ls ls0 _ _ (fun l hl => isEntryLine_no_newline l (hb.2 l hl))
    (fun l hl => isEntryLine_no_newline l (hb0.2 l hl)) hlen (List.append_cancel_left e4)

/-- What `reInclude.Find` returns is the first indirect block of the
document. -/
theorem reInclude_find_first (d m : Str) (h : reInclude.find d = some m) :
    ∃ ls, FirstBlock d ls ∧ m = blockOf ls := by
  unfold Re.find at h
  cases hs : reInclude.search d.length d with
  | none => rw [hs] at h; exact Option.noConfusion h
  | some q =>
    obtain ⟨ms, me⟩ := q
    rw [hs] at h
    have hm : ms.take (ms.length - me.length) = m := Option.some.inj h
    obtain ⟨pre, es, hd, hends, hleft⟩ := search_some reInclude d.length d ms me hs
    obtain ⟨ls, hb, e, hmin⟩ := ends_reInclude_sound d.length ms me es hends
    have hmb : m = blockOf ls := by
      rw [← hm, e]
      apply List.take_left'
      simp
    refine ⟨ls, ⟨hb, pre, me, ?_, ?_⟩, hmb⟩
    · rw [hd, e, List.append_assoc]
    · intro ls2 pre2 post2 hb2 e2
      have hsuf : (blockOf ls2 ++ post2) <:+ d := ⟨pre2, by rw [e2, List.append_assoc]⟩
      have hne := ends_reInclude_complete d.length ls2 post2 hb2
      have hle : (blockOf ls2 ++ post2).length ≤ ms.length := by
        by_contra hlt
        exact hne (hleft _ hsuf (by omega))
      have hl1 : d.length = pre.length + ms.length := by rw [hd]; simp
      have hl2 : d.length = pre2.length + (blockOf ls2 ++ post2).length := by
        rw [e2]; simp [Nat.add_assoc]
      refine ⟨by omega, ?_⟩
      intro hpre
      have e3 : pre2 ++ (blockOf ls2 ++ post2) = pre ++ ms := by
        rw [← List.append_assoc, ← e2, hd]
      have e4 := (List.append_inj e3 hpre).2
      exact hmin ls2 post2 hb2 e4.symm

/-- `reInclude.Find` returns nil exactly for the documents without an indirect
block. -/
theorem reInclude_find_none_iff (d : Str) : reInclude.find d = none ↔ ¬ HasBlock d := by
  constructor
  · intro h hb
    obtain ⟨ls, pre, post, hbl, e⟩ := hb
    have hs : reInclude.search d.length d = none := by
      unfold Re.find at h
      cases hs : reInclude.search d.length d with
      | none => rfl
      | some q => rw [hs] at h; exact Option.noConfusion h
    have hsuf : (blockOf ls ++ post) <:+ d := ⟨pre, by rw [e, List.append_assoc]⟩
    exact ends_reInclude_complete d.length ls post hbl
      ((search_none_iff reInclude d.length d).mp hs _ hsuf)
  · intro h
    cases hf : reInclude.find d with
    | none => rfl
    | some m =>
      obtain ⟨ls, hfb, _⟩ := reInclude_find_first d m hf
      exact absurd (hasBlock_of_first d ls hfb) h

/-- `reInclude.Find` returns the first indirect block of the document. -/
theorem firstBlock_find (d : Str) (ls : List Str) (h : FirstBlock d ls) :
    reInclude.find d = some (blockOf ls) := by
  cases hf : reInclude.find d with
  | none => exact absurd (hasBlock_of_first d ls h) ((reInclude_find_none_iff d).mp hf)
  | some m =>
    obtain ⟨ls0, hfb, hm⟩ := reInclude_find_first d m hf
    rw [hm, firstBlock_unique d ls0 ls hfb h]

/-- A block that `reInclude.Find` returns is the first indirect block. -/
theorem firstBlock_of_find (d : Str) (ls : List Str) (hb : IsBlock ls)
    (h : reInclude.find d = some (blockOf ls)) : FirstBlock d ls := by
  obtain ⟨ls0, hfb, hm⟩ := reInclude_find_first d _ h
  have : ls = ls0 := blockOf_inj ls ls0 (fun l hl => isEntryLine_no_newline l (hb.2 l hl))
    (fun l hl => isEntryLine_no_newline l (hfb.1.2 l hl)) hm
  rw [this]
  exact hfb

/-! ## The lines of the block and their parts -/

theorem splitLoop_linesText :
    ∀ (ls : List Str), (∀ l ∈ ls, '\n' ∉ l) →
      splitLoop ['\n'] 0 (linesText ls ++ ['\x1f']) = ls ++ [['\x1f']] := by
  intro ls
  induction ls with
  | nil => intro _; decide
  | cons l ls ih =>
    intro h
    rw [linesText_cons, List.append_assoc, List.cons_append,
      splitLoop_single_append '\n' _ l (h l (List.mem_cons_self _ _)),
      ih (fun x hx => h x (List.mem_cons_of_mem _ hx))]
    rfl

/-- The lines the loop of `format` goes through: the lines of the block and
the closing 0x1F. -/
theorem split_blockOf (ls : List Str) (h : ∀ l ∈ ls, '\n' ∉ l) :
    (split (blockOf ls) "\n".toList).drop 2 = ls ++ [['\x1f']] := by
  have htext : blockOf ls =
      ['\x1f'] ++ '\n' :: ("Indirect:".toList ++ '\n' :: (linesText ls ++ ['\x1f'])) := by
    simp [blockOf]
  show (split (blockOf ls) ['\n']).drop 2 = _
  rw [split_single, htext, splitLoop_single_append '\n' _ ['\x1f'] (by decide),
    splitLoop_single_append '\n' _ "Indirect:".toList (by decide), splitLoop_linesText ls h]
  rfl

theorem join_cons_head (c : Char) (piece : Str) (rest : List Str) (sep : Str) :
    join ((c :: piece) :: rest) sep = c :: join (piece :: rest) sep := by
  cases rest with
  | nil => rfl
  | cons b t => rfl

/-- Joining the pieces of a split with the separator gives the text back. -/
theorem join_splitLoop (x : Char) : ∀ (s : Str), join (splitLoop [x] 0 s) [x] = s := by
  intro s
  induction s with
  | nil => rfl
  | cons c t ih =>
    rw [splitLoop_single_cons]
    by_cases hx : x = c
    · rw [if_pos hx]
      cases hsp : splitLoop [x] 0 t with
      | nil =>
        have := splitLoop_ne_nil [x] t 0
        exact absurd hsp this
      | cons b u =>
        rw [hsp] at ih
        show [] ++ [x] ++ join (b :: u) [x] = c :: t
        rw [ih, hx]
        rfl
    · rw [if_neg hx]
      cases hsp : splitLoop [x] 0 t with
      | nil =>
        have := splitLoop_ne_nil [x] t 0
        exact absurd hsp this
      | cons b u =>
        rw [hsp] at ih
        show join ((c :: b) :: u) [x] = c :: t
        rw [join_cons_head, ih]

/-- A line splits at the colon into exactly two parts when it has exactly one
colon. -/
theorem split_two_iff (l name rest : Str) :
    split l ":".toList = [name, rest] ↔ TwoParts l name rest := by
  show split l [':'] = [name, rest] ↔ _
  rw [split_single]
  constructor
  · intro h
    have hp := splitLoop_single_pieces ':' l
    rw [h] at hp
    refine ⟨?_, hp name (by simp), hp rest (by simp)⟩
    have hj := join_splitLoop ':' l
    rw [h] at hj
    rw [← hj]
    simp [join]
  · rintro ⟨e, hn, hr⟩
    rw [e, splitLoop_single_append ':' _ name hn, splitLoop_single_no_sep ':' rest hr]

theorem twoParts_unique (l name rest name2 rest2 : Str) (h : TwoParts l name rest)
    (h2 : TwoParts l name2 rest2) : name = name2 ∧ rest = rest2 := by
  obtain ⟨e, hn, _⟩ := h
  obtain ⟨e2, hn2, _⟩ := h2
  exact append_cons_unique ':' _ _ _ _ hn hn2 (by rw [← e, ← e2])

/-! ## Fatal errors of `format` -/

theorem assemble_exit_iff (d : Str) (o : Outcome) : assemble d o = .exit ↔ o = .exit := by
  cases o <;> simp [assemble]

theorem assemble_text (d : Str) (o : Outcome) (h : ∃ t, o = .text t) :
    ∃ t, assemble d o = .text t := by
  obtain ⟨t, rfl⟩ := h
  exact ⟨_, rfl⟩

/-- The loop over the lines of an indirect block, when every included page
that is read is formatted to a text: it exits exactly when a line of two parts
names a page for which `find` returns no readable page, and returns a text
otherwise. -/
theorem loadSubpages_exit_iff (w : World) (fmt : Str → Outcome) :
    ∀ (lines : List Str) (acc : Str),
      (∀ l ∈ lines, ∀ name rest c, split l ":".toList = [name, rest] →
        find w name = .reader c → ∃ t, fmt c = .text t) →
      (loadSubpages w fmt lines acc = .exit ↔
        ∃ l ∈ lines, ∃ name rest, split l ":".toList = [name, rest] ∧
          ∀ c, find w name ≠ .reader c) ∧
      (loadSubpages w fmt lines acc ≠ .exit → ∃ t, loadSubpages w fmt lines acc = .text t) := by
  intro lines
  induction lines with
  | nil =>
    intro acc _
    simp [loadSubpages]
  | cons l ls ih =>
    intro acc hfmt
    have ihh := fun acc2 => ih acc2 (fun l2 hl2 => hfmt l2 (List.mem_cons_of_mem _ hl2))
    have hskip : (∀ name rest, split l ":".toList ≠ [name, rest]) →
        loadSubpages w fmt (l :: ls) acc = loadSubpages w fmt ls acc →
        (loadSubpages w fmt (l :: ls) acc = .exit ↔
          ∃ l2 ∈ l :: ls, ∃ name rest, split l2 ":".toList = [name, rest] ∧
            ∀ c, find w name ≠ .reader c) ∧
        (loadSubpages w fmt (l :: ls) acc ≠ .exit →
          ∃ t, loadSubpages w fmt (l :: ls) acc = .text t) := by
      intro hshape heq
      rw [heq]
      refine ⟨?_, (ihh acc).2⟩
      rw [(ihh acc).1]
      constructor
      · rintro ⟨l2, hl2, h⟩
        exact ⟨l2, List.mem_cons_of_mem _ hl2, h⟩
      · rintro ⟨l2, hl2, name, rest, hsp, hf⟩
        rcases List.mem_cons.mp hl2 with e | e
        · subst e; exact absurd hsp (hshape name rest)
        · exact ⟨l2, e, name, rest, hsp, hf⟩
    have hstep : ∀ parts, split l ":".toList = parts →
        loadSubpages w fmt (l :: ls) acc =
          match parts with
          | [name, _] =>
            match find w name with
            | .nil => .exit
            | .fatal => .exit
            | .broken => .exit
            | .reader c =>
              match fmt c with
              | .text t => loadSubpages w fmt ls (acc ++ t ++ "\n\n".toList)
              | o => o
          | _ => loadSubpages w fmt ls acc := by
      intro parts hparts
      conv_lhs => rw [loadSubpages]
      rw [hparts]
    cases hsp : split l ":".toList with
    | nil =>
      exact hskip (fun name rest h => by rw [hsp] at h; exact List.noConfusion h)
        (hstep _ hsp)
    | cons a t =>
      cases t with
      | nil =>
        exact hskip (fun name rest h => by
          rw [hsp] at h; exact List.noConfusion (List.cons.inj h).2) (hstep _ hsp)
      | cons b u =>
        cases u with
        | cons c v =>
          exact hskip (fun name rest h => by
            rw [hsp] at h
            exact List.noConfusion (List.cons.inj (List.cons.inj h).2).2) (hstep _ hsp)
        | nil =>
          have hst := hstep _ hsp
          simp only [] at hst
          have hexit : (∀ c, find w a ≠ .reader c) →
              loadSubpages w fmt (l :: ls) acc = .exit →
              (loadSubpages w fmt (l :: ls) acc = .exit ↔
                ∃ l2 ∈ l :: ls, ∃ name rest, split l2 ":".toList = [name, rest] ∧
                  ∀ c, find w name ≠ .reader c) ∧
              (loadSubpages w fmt (l :: ls) acc ≠ .exit →
                ∃ t, loadSubpages w fmt (l :: ls) acc = .text t) := by
            intro hno hex
            refine ⟨⟨fun _ => ⟨l, List.mem_cons_self _ _, a, b, hsp, hno⟩, fun _ => hex⟩, ?_⟩
            intro h; exact absurd hex h
          cases hfind : find w a with
          | fatal =>
            exact hexit (fun c h => by rw [hfind] at h; exact Found.noConfusion h)
              (by rw [hst, hfind])
          | broken =>
            exact hexit (fun c h => by rw [hfind] at h; exact Found.noConfusion h)
              (by rw [hst, hfind])
          | nil =>
            exact hexit (fun c h => by rw [hfind] at h; exact Found.noConfusion h)
              (by rw [hst, hfind])
          | reader c =>
            obtain ⟨t, ht⟩ := hfmt l (List.mem_cons_self _ _) a b c hsp hfind
            have : loadSubpages w fmt (l :: ls) acc =
                loadSubpages w fmt ls (acc ++ t ++ "\n\n".toList) := by
              rw [hst, hfind]
              simp only [ht]
            rw [this]
            refine ⟨?_, (ihh _).2⟩
            rw [(ihh _).1]
            constructor
            · rintro ⟨l2, hl2, h⟩
              exact ⟨l2, List.mem_cons_of_mem _ hl2, h⟩
            · rintro ⟨l2, hl2, name, rest, hsp2, hf⟩
              rcases List.mem_cons.mp hl2 with e | e
              · subst e
                rw [hsp] at hsp2
                have hname : a = name := (List.cons.inj hsp2).1
                rw [← hname] at hf
                exact absurd hfind (hf c)
              · exact ⟨l2, e, name, rest, hsp2, hf⟩

/-- C8, as it holds: let `ls` be the lines of the first indirect block of the
document `d` (the leftmost text `"\x1f\nIndirect:\n"`, one or more lines
`<text>: <digits>`, `"\x1f"`, with the fewest lines), and let every page that
`find` reads for a line of `ls` with exactly one colon have no indirect block
of its own.  Then `format` ends in a fatal error exactly when some line of
`ls` has exactly one colon and `find` returns no readable page for the text
before the colon: the page is not found, or the look-up or the reading ends in
an I/O error.  When no look-up for such a line ends in an I/O error, that is
exactly when such a line names a page that `find` does not find.  Lines with
another number of colons cause no error, and without a fatal error `format`
returns a text.  A document without an indirect block never fails. -/
theorem format_exit_iff (w : World) (fuel : Nat) (d : Str) :
    (∀ ls, FirstBlock d ls →
      (∀ l ∈ ls, ∀ name rest c, TwoParts l name rest → find w name = .reader c →
        ¬ HasBlock c) →
      (format w (fuel + 2) d = .exit ↔
        ∃ l ∈ ls, ∃ name rest, TwoParts l name rest ∧ ∀ c, find w name ≠ .reader c) ∧
      ((∀ l ∈ ls, ∀ name rest, TwoParts l name rest →
          find w name ≠ .fatal ∧ find w name ≠ .broken) →
        (format w (fuel + 2) d = .exit ↔
          ∃ l ∈ ls, ∃ name rest, TwoParts l name rest ∧ find w name = .nil)) ∧
      (format w (fuel + 2) d ≠ .exit → ∃ t, format w (fuel + 2) d = .text t)) ∧
    (¬ HasBlock d → ∃ t, format w (fuel + 2) d = .text t) := by
  have hform : format w (fuel + 2) d = assemble d (loadIncluded w (format w (fuel + 1)) d) := rfl
  refine ⟨?_, fun hno =>
    ⟨_, format_of_no_include w (fuel + 1) d ((reInclude_find_none_iff d).mpr hno)⟩⟩
  intro ls hfirst hsub
  have hfind := firstBlock_find d ls hfirst
  have hnl : ∀ l ∈ ls, '\n' ∉ l := fun l hl => isEntryLine_no_newline l (hfirst.1.2 l hl)
  have hload : loadIncluded w (format w (fuel + 1)) d =
      loadSubpages w (format w (fuel + 1)) (ls ++ [['\x1f']]) [] := by
    unfold loadIncluded
    rw [hfind]
    simp only []
    rw [split_blockOf ls hnl]
  have hlast : ∀ name rest, split ['\x1f'] ":".toList ≠ [name, rest] := by
    intro name rest h
    have hs : split ['\x1f'] ":".toList = [['\x1f']] := by decide
    rw [hs] at h
    exact List.noConfusion (List.cons.inj h).2
  have hfmt : ∀ l ∈ ls ++ [['\x1f']], ∀ name rest c, split l ":".toList = [name, rest] →
      find w name = .reader c → ∃ t, format w (fuel + 1) c = .text t := by
    intro l hl name rest c hsp hf
    rcases List.mem_append.mp hl with hl | hl
    · exact ⟨_, format_of_no_include w fuel c ((reInclude_find_none_iff c).mpr
        (hsub l hl name rest c ((split_two_iff _ _ _).mp hsp) hf))⟩
    · rw [List.mem_singleton.mp hl] at hsp
      exact absurd hsp (hlast name rest)
  have hspec := loadSubpages_exit_iff w (format w (fuel + 1)) (ls ++ [['\x1f']]) [] hfmt
  have hmain : format w (fuel + 2) d = .exit ↔
      ∃ l ∈ ls, ∃ name rest, TwoParts l name rest ∧ ∀ c, find w name ≠ .reader c := by
    rw [hform, assemble_exit_iff, hload, hspec.1]
    constructor
    · rintro ⟨l, hl, name, rest, hsp, hf⟩
      rcases List.mem_append.mp hl with hl | hl
      · exact ⟨l, hl, name, rest, (split_two_iff _ _ _).mp hsp, hf⟩
      · rw [List.mem_singleton.mp hl] at hsp
        exact absurd hsp (hlast name rest)
    · rintro ⟨l, hl, name, rest, htp, hf⟩
      exact ⟨l, List.mem_append_left _ hl, name, rest, (split_two_iff _ _ _).mpr htp, hf⟩
  refine ⟨hmain, ?_, ?_⟩
  · intro hio
    rw [hmain]
    constructor
    · rintro ⟨l, hl, name, rest, htp, hf⟩
      refine ⟨l, hl, name, rest, htp, ?_⟩
      cases hfd : find w name with
      | nil => rfl
      | fatal => exact absurd hfd (hio l hl name rest htp).1
      | broken => exact absurd hfd (hio l hl name rest htp).2
      | reader c => exact absurd hfd (hf c)
    · rintro ⟨l, hl, name, rest, htp, hf⟩
      refine ⟨l, hl, name, rest, htp, ?_⟩
      intro c h
      rw [hf] at h
      exact Found.noConfusion h
  · intro hne
    rw [hform]
    apply assemble_text
    rw [hload]
    apply hspec.2
    intro h
    apply hne
    rw [hform, hload, h]
    rfl

/-- In the environment `failWorld` the function `find` reads no page. -/
theorem failWorld_reads_nothing (name c : Str) : find failWorld name ≠ .reader c := by
  have hp : infopath failWorld = ["/usr/share/info/".toList] := by decide
  unfold find
  rw [hp]
  simp only [findLoop, findIn, failWorld]
  split_ifs <;> simp

/-- C8, the claim as written fails: the first indirect block of the document
lists `foo.info-1`, the look-up of `foo.info-1` ends in an I/O error (the file
exists and cannot be opened), no page at all is read, so that no sub-page has
an indirect block, and `format` ends in a fatal error although no line of the
block names a page that `find` does not find. -/
theorem format_exit_counterexample :
    FirstBlock "\x1f\nIndirect:\nfoo.info-1: 10\n\x1f".toList ["foo.info-1: 10".toList] ∧
    TwoParts "foo.info-1: 10".toList "foo.info-1".toList " 10".toList ∧
    find failWorld "foo.info-1".toList = .fatal ∧
    (∀ name c, find failWorld name ≠ .reader c) ∧
    format failWorld 2 "\x1f\nIndirect:\nfoo.info-1: 10\n\x1f".toList = .exit ∧
    ¬ ∃ l ∈ ["foo.info-1: 10".toList], ∃ name rest,
      TwoParts l name rest ∧ find failWorld name = .nil := by
  have htp : TwoParts "foo.info-1: 10".toList "foo.info-1".toList " 10".toList := by decide
  have hfatal : find failWorld "foo.info-1".toList = .fatal := by decide
  refine ⟨?_, htp, hfatal, failWorld_reads_nothing, by decide, ?_⟩
  · apply firstBlock_of_find
    · refine ⟨by simp, ?_⟩
      intro l hl
      rw [List.mem_singleton.mp hl]
      exact ⟨"foo.info-1".toList, "10".toList, by decide, by decide, by decide, by decide, rfl⟩
    · decide
  · rintro ⟨l, hl, name, rest, h, hf⟩
    rw [List.mem_singleton.mp hl] at h
    rw [← (twoParts_unique _ _ _ _ _ htp h).1, hfatal] at hf
    exact Found.noConfusion hf

/-- C8 at a block that lists `foo.info-1`, which is found and has no indirect
block, and `bar.info-1`, which is not found: `format` ends in a fatal
error. -/
theorem format_exit_iff_witness :
    FirstBlock "\x1f\nIndirect:\nfoo.info-1: 10\nbar.info-1: 20\n\x1fhello".toList
      ["foo.info-1: 10".toList, "bar.info-1: 20".toList] ∧
    (∀ l ∈ ["foo.info-1: 10".toList, "bar.info-1: 20".toList], ∀ name rest c,
      TwoParts l name rest → find fooWorld name = .reader c → ¬ HasBlock c) ∧
    find fooWorld "foo.info-1".toList = .reader "aaa".toList ∧
    find fooWorld "bar.info-1".toList = .nil ∧
    format fooWorld 2 "\x1f\nIndirect:\nfoo.info-1: 10\nbar.info-1: 20\n\x1fhello".toList =
      .exit := by
  have hfoo : find fooWorld "foo.info-1".toList = .reader "aaa".toList := by decide
  have hbar : find fooWorld "bar.info-1".toList = .nil := by decide
  have htf : TwoParts "foo.info-1: 10".toList "foo.info-1".toList " 10".toList := by decide
  have htb : TwoParts "bar.info-1: 20".toList "bar.info-1".toList " 20".toList := by decide
  have hfirst : FirstBlock "\x1f\nIndirect:\nfoo.info-1: 10\nbar.info-1: 20\n\x1fhello".toList
      ["foo.info-1: 10".toList, "bar.info-1: 20".toList] := by
    apply firstBlock_of_find
    · refine ⟨by simp, ?_⟩
      intro l hl
      rcases List.mem_cons.mp hl with e | e
      · rw [e]
        exact ⟨"foo.info-1".toList, "10".toList, by decide, by decide, by decide, by decide, rfl⟩
      · rw [List.mem_singleton.mp e]
        exact ⟨"bar.info-1".toList, "20".toList, by decide, by decide, by decide, by decide, rfl⟩
    · decide
  have hsub : ∀ l ∈ ["foo.info-1: 10".toList, "bar.info-1: 20".toList], ∀ name rest c,
      TwoParts l name rest → find fooWorld name = .reader c → ¬ HasBlock c := by
    intro l hl name rest c htp hf hb
    rcases List.mem_cons.mp hl with e | e
    · rw [e] at htp
      rw [← (twoParts_unique _ _ _ _ _ htf htp).1, hfoo] at hf
      have hc : "aaa".toList = c := Found.reader.inj hf
      have hm := hasBlock_sep c hb
      rw [← hc] at hm
      revert hm
      decide
    · rw [List.mem_singleton.mp e] at htp
      rw [← (twoParts_unique _ _ _ _ _ htb htp).1, hbar] at hf
      exact Found.noConfusion hf
  exact ⟨hfirst, hsub, hfoo, hbar,
    ((format_exit_iff fooWorld 0
      "\x1f\nIndirect:\nfoo.info-1: 10\nbar.info-1: 20\n\x1fhello".toList).1
      ["foo.info-1: 10".toList, "bar.info-1: 20".toList] hfirst hsub).1.mpr
      ⟨"bar.info-1: 20".toList, by simp, "bar.info-1".toList, " 20".toList, htb,
        fun c h => by rw [hbar] at h; exact Found.noConfusion h⟩⟩

end Info
